import Mathlib

/-!
# Barrelfish AOS paging: region list and page-table installer

A shallow embedding of `lib/aos/paging.c`.

* Machine words are natural numbers; 32-bit arithmetic is written with
  `add32` / `sub32`, which reduce modulo `2 ^ 32`.
* Region nodes live in a node memory `mem : Nat → paging_node`; a node pointer
  is an `Option Nat` (`none` is `NULL`).  Every C field assignment is one
  write to that memory, in source order.
* Kernel and allocator entry points that the file calls but does not define
  are calls into a `Kernel` environment; each call is appended to the
  `calls` history of the paging state.
* Loops carry fuel; `none` as a result means that the loop did not finish
  within the fuel (the walk ran in a cycle).
-/

namespace Paging

/-- Modelled from the spec: `BASE_PAGE_SIZE` (header not among the sources);
the base page size is 4096 bytes. -/
def BASE_PAGE_SIZE : Nat := 4096

/-- Modelled from the spec: `L1_PAGETABLE_ENTRIES` (header not among the sources);
the L1 page directory has 4096 entries. -/
def L1_PAGETABLE_ENTRIES : Nat := 4096

/-- Modelled from the spec: `ARM_L2_MAX_ENTRIES` (header not among the sources);
an L2 page table has 256 entries. -/
def ARM_L2_MAX_ENTRIES : Nat := 256

/-- Modelled from the spec: `ARM_L1_OFFSET` (header not among the sources);
each L1 entry addresses a 1 MiB slice, so the index is the address divided by
`2 ^ 20`, within the 4096 entries. -/
def ARM_L1_OFFSET (addr : Nat) : Nat := (addr / 2 ^ 20) % 4096

/-- Modelled from the spec: `ARM_L2_OFFSET` (header not among the sources);
each L2 entry addresses 4 KiB and a table has 256 entries. -/
def ARM_L2_OFFSET (addr : Nat) : Nat := (addr / 2 ^ 12) % 256

/-- Unsigned 32-bit addition. -/
def add32 (a b : Nat) : Nat := (a + b) % 2 ^ 32

/-- Unsigned 32-bit subtraction. -/
def sub32 (a b : Nat) : Nat := (a + 2 ^ 32 - b % 2 ^ 32) % 2 ^ 32

inductive paging_node_type where
  | NodeType_Free
  | NodeType_Claimed
  | NodeType_Allocated
deriving DecidableEq, Repr

open paging_node_type

/-- The C `struct paging_node`; `prev` and `next` are node pointers. -/
structure paging_node where
  base : Nat
  size : Nat
  type : paging_node_type
  prev : Option Nat
  next : Option Nat
deriving DecidableEq, Repr

abbrev capref := Nat

structure l2_pagetable where
  initialized : Bool
  cap : capref
deriving DecidableEq, Repr

/-- The error values the sources name, and `KERNEL_ERR` for the error values
that external calls return. -/
inductive errval_t where
  | SYS_ERR_OK
  | LIB_ERR_VREGION_NOT_FOUND
  | LIB_ERR_VREGION_MAP
  | SPAWN_ERR_FIND_MODULE
  | SPAWN_ERR_LOAD
  | ELF_ERR_HEADER
  | KERNEL_ERR (code : Nat)
deriving DecidableEq, Repr

open errval_t

/-- Modelled from the spec: `err_is_fail` (header not among the sources);
every error value other than `SYS_ERR_OK` is a failure. -/
def err_is_fail (e : errval_t) : Bool := decide (e ≠ SYS_ERR_OK)

inductive objtype where
  | ObjType_VNode_ARM_l1
  | ObjType_VNode_ARM_l2
deriving DecidableEq, Repr

/-- The external entry points used by the paging code, with their arguments. -/
inductive Call where
  | slot_alloc
  | vnode_create (dest : capref) (type : objtype)
  | vnode_map (dest src : capref) (slot flags offset pte_count : Nat) (mapping : capref)
  | mapping_cb (mapping : capref)
  | refill_func
deriving DecidableEq, Repr

/-- The environment: what each external call returns after a given history,
the slot handed out by the slot allocator, and the number of elements a
successful slab refill adds. -/
structure Kernel where
  ret : List Call → Call → errval_t
  slot : List Call → capref
  refill : List Call → Nat

/-- Modelled from the spec: the slab allocator (`slab.c` is not among the
sources).  `cursor` is the address of the next unused element, `free` the
free-element count. -/
structure slab_allocator where
  cursor : Nat
  free : Nat
deriving DecidableEq, Repr

/-- The C `struct paging_state`, together with the node memory its list
lives in and the history of external calls. -/
structure paging_state where
  head : Option Nat
  mem : Nat → paging_node
  slabs : slab_allocator
  slab_refilling : Bool
  l2_pagetables : Nat → l2_pagetable
  l1_pagetable : capref
  slot_alloc : Nat
  mapping_cb : Option Nat
  calls : List Call

/-- Modelled from the spec: `VREGION_FLAGS_READ_WRITE` (header not among the
sources); the read-write flag bits. -/
def VREGION_FLAGS_READ_WRITE : Nat := 3

namespace paging_state

/-- Store a whole node at address `p`. -/
@[simp] def write (st : paging_state) (p : Nat) (n : paging_node) : paging_state :=
  { st with mem := Function.update st.mem p n }

/-- The assignment `p->type = v`. -/
@[simp] def set_type (st : paging_state) (p : Nat) (v : paging_node_type) : paging_state :=
  st.write p { st.mem p with type := v }

/-- The assignment `p->base = v`. -/
@[simp] def set_base (st : paging_state) (p : Nat) (v : Nat) : paging_state :=
  st.write p { st.mem p with base := v }

/-- The assignment `p->size = v`. -/
@[simp] def set_size (st : paging_state) (p : Nat) (v : Nat) : paging_state :=
  st.write p { st.mem p with size := v }

/-- The assignment `p->prev = v`. -/
@[simp] def set_prev (st : paging_state) (p : Nat) (v : Option Nat) : paging_state :=
  st.write p { st.mem p with prev := v }

/-- The assignment `p->next = v`. -/
@[simp] def set_next (st : paging_state) (p : Nat) (v : Option Nat) : paging_state :=
  st.write p { st.mem p with next := v }

/-- An external call: its return value is the environment's answer after the
history so far, and the call is appended to the history. -/
def invoke (k : Kernel) (st : paging_state) (c : Call) : errval_t × paging_state :=
  (k.ret st.calls c, { st with calls := st.calls ++ [c] })

end paging_state

/-- Modelled from the spec: `slab_alloc` (`slab.c` is not among the sources).
It hands out the next unused element of the arena and lowers the free count;
the contents of the element are whatever the memory held.  An exhausted arena
is not modelled: an element is always handed out. -/
def slab_alloc (st : paging_state) : Nat × paging_state :=
  (st.slabs.cursor,
   { st with slabs := { cursor := st.slabs.cursor + 1, free := st.slabs.free - 1 } })

/-- Modelled from the spec: `slab_freecount` (`slab.c` is not among the sources). -/
def slab_freecount (st : paging_state) : Nat := st.slabs.free

/-- Modelled from the spec: the slab refill hook `st->slabs.refill_func`
(`slab_default_refill` is not among the sources).  It is an external call
that, on success, grows the slab; it does not enter the paging manager. -/
def refill_func (k : Kernel) (st : paging_state) : errval_t × paging_state :=
  let grow := k.refill st.calls
  let r := st.invoke k Call.refill_func
  if err_is_fail r.1 then r
  else (r.1, { r.2 with slabs := { r.2.slabs with free := r.2.slabs.free + grow } })

/-- The call `st->slot_alloc->alloc(st->slot_alloc, &ret)`. -/
def slot_alloc_call (k : Kernel) (st : paging_state) : errval_t × capref × paging_state :=
  let cap := k.slot st.calls
  let r := st.invoke k Call.slot_alloc
  (r.1, cap, r.2)

/-- The C `arml2_alloc`: allocate a slot and create an L2 page table in it. -/
def arml2_alloc (k : Kernel) (st : paging_state) : errval_t × capref × paging_state :=
  let r := slot_alloc_call k st
  if err_is_fail r.1 then r
  else
    let r2 := r.2.2.invoke k (Call.vnode_create r.2.1 objtype.ObjType_VNode_ARM_l2)
    if err_is_fail r2.1 then (r2.1, r.2.1, r2.2)
    else (SYS_ERR_OK, r.2.1, r2.2)

/-- The C `paging_init_state`.  `slab_init` and `slab_grow` give the slab 64
elements starting at address 0 of the node memory; the first of them becomes
the head.  The fields `next` of the head and `slab_refilling` of the state
are not assigned by the source and keep what the memory held. -/
def paging_init_state (st : paging_state) (start_vaddr : Nat) (pdir : capref) (ca : Nat) :
    errval_t × paging_state :=
  let st := { st with mapping_cb := none }
  let st := { st with slot_alloc := ca }
  let st := { st with slabs := { cursor := 0, free := 64 } }
  let st := { st with l2_pagetables := fun i =>
                if i < L1_PAGETABLE_ENTRIES then { st.l2_pagetables i with initialized := false }
                else st.l2_pagetables i }
  let capacity := sub32 0xFFFFFFFF start_vaddr
  let r := slab_alloc st
  let st := { r.2 with head := some r.1 }
  let st := st.set_base r.1 start_vaddr
  let st := st.set_size r.1 capacity
  let st := st.set_type r.1 NodeType_Free
  let st := st.set_prev r.1 none
  let st := { st with l1_pagetable := pdir }
  (SYS_ERR_OK, st)

/-- The C `should_refill_slabs`. -/
def should_refill_slabs (st : paging_state) : Bool :=
  decide (slab_freecount st < 6) && !st.slab_refilling

/-- The body of `if (node->size > bytes)` in `paging_alloc`: split a free
node off the right end of the node at `p`. -/
def paging_alloc_split (st : paging_state) (p : Nat) (bytes : Nat) : paging_state :=
  let r := slab_alloc st
  let new_node := r.1
  let st := r.2
  let st := st.set_type new_node NodeType_Free
  let st := st.set_base new_node (add32 (st.mem p).base bytes)
  let st := st.set_size new_node ((st.mem p).size - bytes)
  let st := st.set_next new_node (st.mem p).next
  let st := st.set_prev new_node (some p)
  let st := match (st.mem p).next with
    | some n => st.set_prev n (some new_node)
    | none => st
  let st := st.set_next p (some new_node)
  st.set_size p bytes

/-- The body of the `if` in `paging_alloc` that claims the node at `p`. -/
def paging_alloc_claim (st : paging_state) (p : Nat) (bytes : Nat) :
    errval_t × Nat × paging_state :=
  let buf := (st.mem p).base
  let st := st.set_type p NodeType_Claimed
  if bytes < (st.mem p).size then
    (SYS_ERR_OK, buf, paging_alloc_split st p bytes)
  else
    (SYS_ERR_OK, buf, st)

/-- The `while (node != NULL)` loop of `paging_alloc`. -/
def paging_alloc_loop (st : paging_state) (bytes : Nat) :
    Nat → Option Nat → Option (errval_t × Nat × paging_state)
  | 0, _ => none
  | _ + 1, none => some (LIB_ERR_VREGION_NOT_FOUND, 0, st)
  | fuel + 1, some p =>
    if (st.mem p).type = NodeType_Free ∧ bytes ≤ (st.mem p).size then
      some (paging_alloc_claim st p bytes)
    else
      paging_alloc_loop st bytes fuel (st.mem p).next

/-- The C `paging_alloc`; the second component of the result is `*buf`
(`0` is `NULL`).  The walk gets one step per slab element and one more. -/
def paging_alloc (st : paging_state) (bytes : Nat) : Option (errval_t × Nat × paging_state) :=
  paging_alloc_loop st bytes (st.slabs.cursor + 1) st.head

/-- The L2-table lookup of the mapping loop: the cached table of the L1 slot
`l2_index`, or a freshly created one that is mapped into the L1 directory,
passed to the mapping callback and cached. -/
def paging_get_l2 (k : Kernel) (st : paging_state) (l2_index : Nat) :
    errval_t × capref × paging_state :=
  if (st.l2_pagetables l2_index).initialized then
    (SYS_ERR_OK, (st.l2_pagetables l2_index).cap, st)
  else
    let r := arml2_alloc k st
    let l2_cap := r.2.1
    if err_is_fail r.1 then (r.1, l2_cap, r.2.2)
    else
      let s := slot_alloc_call k r.2.2
      let l2_to_l1 := s.2.1
      if err_is_fail s.1 then (s.1, l2_cap, s.2.2)
      else
        let m := s.2.2.invoke k
          (Call.vnode_map st.l1_pagetable l2_cap l2_index VREGION_FLAGS_READ_WRITE 0 1 l2_to_l1)
        if err_is_fail m.1 then (m.1, l2_cap, m.2)
        else
          let c := match m.2.mapping_cb with
            | some _ => m.2.invoke k (Call.mapping_cb l2_to_l1)
            | none => (SYS_ERR_OK, m.2)
          if err_is_fail c.1 then (c.1, l2_cap, c.2)
          else
            let st := c.2
            let t := Function.update st.l2_pagetables l2_index
              { st.l2_pagetables l2_index with cap := l2_cap }
            let st := { st with l2_pagetables := t }
            let t := Function.update st.l2_pagetables l2_index
              { st.l2_pagetables l2_index with initialized := true }
            let st := { st with l2_pagetables := t }
            (SYS_ERR_OK, l2_cap, st)

/-- The result of the inner mapping loop: the error value, the state, and the
final values of the local variables `vaddr` and `bytes`. -/
structure map_result where
  err : errval_t
  st : paging_state
  vaddr : Nat
  bytes : Nat

/-- The local variable `size_to_map` of the mapping loop: what is left of the
request, or what is left of the current L2 table when that is less. -/
def size_to_map (vaddr bytes : Nat) : Nat :=
  if bytes < (ARM_L2_MAX_ENTRIES - ARM_L2_OFFSET vaddr) * BASE_PAGE_SIZE then bytes
  else (ARM_L2_MAX_ENTRIES - ARM_L2_OFFSET vaddr) * BASE_PAGE_SIZE

/-- One round of the inner loop of `paging_map_fixed_attr`, up to the update
of the loop variables: look up or create the L2 table, allocate a slot for
the mapping, map the frame into the table, pass the mapping to the callback. -/
def paging_map_round (k : Kernel) (frame flags : Nat) (st : paging_state)
    (vaddr bytes mapped_size : Nat) : errval_t × paging_state :=
  let l2_index := ARM_L1_OFFSET vaddr
  let g := paging_get_l2 k st l2_index
  let l2_cap := g.2.1
  if err_is_fail g.1 then (g.1, g.2.2)
  else
    let frame_index := ARM_L2_OFFSET vaddr
    let s := slot_alloc_call k g.2.2
    let frame_to_l2 := s.2.1
    if err_is_fail s.1 then (s.1, s.2.2)
    else
      let m := s.2.2.invoke k
        (Call.vnode_map l2_cap frame frame_index flags mapped_size
          (size_to_map vaddr bytes / BASE_PAGE_SIZE) frame_to_l2)
      if err_is_fail m.1 then m
      else
        let c := match m.2.mapping_cb with
          | some _ => m.2.invoke k (Call.mapping_cb frame_to_l2)
          | none => (SYS_ERR_OK, m.2)
        if err_is_fail c.1 then c
        else (SYS_ERR_OK, c.2)

/-- The inner `while (bytes > 0)` loop of `paging_map_fixed_attr` (steps 2
and 3): one frame mapping per L2 table. -/
def paging_map_pages (k : Kernel) (frame flags : Nat) :
    Nat → paging_state → Nat → Nat → Nat → Option map_result
  | fuel, st, vaddr, bytes, mapped_size =>
    if bytes = 0 then some ⟨SYS_ERR_OK, st, vaddr, bytes⟩
    else match fuel with
    | 0 => none
    | fuel + 1 =>
      let r := paging_map_round k frame flags st vaddr bytes mapped_size
      if err_is_fail r.1 then some ⟨r.1, r.2, vaddr, bytes⟩
      else
        paging_map_pages k frame flags fuel r.2
          (add32 vaddr (size_to_map vaddr bytes)) (bytes - size_to_map vaddr bytes)
          (add32 mapped_size (size_to_map vaddr bytes))

/-- The body of `if (node->base + node->size > vaddr + bytes)` in
`paging_map_fixed_attr`: a new free node to the right of the node at `p`. -/
def paging_map_split_right (st : paging_state) (p : Nat) (vaddr bytes : Nat) : paging_state :=
  let r := slab_alloc st
  let right := r.1
  let st := r.2
  let st := st.set_type right NodeType_Free
  let st := st.set_base right (add32 vaddr bytes)
  let st := st.set_size right
    (sub32 (sub32 (st.mem p).size (sub32 vaddr (st.mem p).base)) bytes)
  let st := st.set_next right (st.mem p).next
  let st := st.set_prev right (some p)
  let st := match (st.mem p).next with
    | some n => st.set_prev n (some right)
    | none => st
  let st := st.set_next p (some right)
  st.set_size p (sub32 (st.mem p).size (st.mem right).size)

/-- The body of `if (vaddr > node->base)` in `paging_map_fixed_attr`: a new
free node to the left of the node at `p`. -/
def paging_map_split_left (st : paging_state) (p : Nat) (vaddr : Nat) : paging_state :=
  let r := slab_alloc st
  let left := r.1
  let st := r.2
  let st := st.set_type left NodeType_Free
  let st := st.set_base left (st.mem p).base
  let st := st.set_size left (sub32 vaddr (st.mem p).base)
  let st := st.set_next left (some p)
  let st := st.set_prev left (st.mem p).prev
  let st := match (st.mem p).prev with
    | some a => st.set_next a (some left)
    | none => st
  let st := if st.head = some p then { st with head := some left } else st
  let st := st.set_prev p (some left)
  let st := st.set_base p vaddr
  st.set_size p (sub32 (st.mem p).size (st.mem left).size)

/-- Step 2 of `paging_map_fixed_attr`: mark the node at `p` allocated and
split off a free node to the right and to the left as needed. -/
def paging_map_split (st : paging_state) (p : Nat) (vaddr bytes : Nat) : paging_state :=
  let st := st.set_type p NodeType_Allocated
  let st :=
    if add32 vaddr bytes < add32 (st.mem p).base (st.mem p).size then
      paging_map_split_right st p vaddr bytes
    else st
  if (st.mem p).base < vaddr then paging_map_split_left st p vaddr else st

/-- The outer `while (bytes > 0)` loop of `paging_map_fixed_attr`, with the
loop variables `node`, `vaddr` and `bytes`. -/
def paging_map_fixed_loop (k : Kernel) (frame flags : Nat) :
    Nat → paging_state → Option Nat → Nat → Nat → Option (errval_t × paging_state)
  | fuel, st, node, vaddr, bytes =>
    if bytes = 0 then some (SYS_ERR_OK, st)
    else match fuel with
    | 0 => none
    | fuel + 1 =>
      match node with
      | none => some (LIB_ERR_VREGION_MAP, st)
      | some p =>
        if (st.mem p).type = NodeType_Allocated then
          paging_map_fixed_loop k frame flags fuel st (st.mem p).next vaddr bytes
        else if vaddr < (st.mem p).base ∨
            add32 (st.mem p).base (st.mem p).size < add32 vaddr bytes then
          paging_map_fixed_loop k frame flags fuel st (st.mem p).next vaddr bytes
        else
          let st := paging_map_split st p vaddr bytes
          match paging_map_pages k frame flags bytes st vaddr bytes 0 with
          | none => none
          | some r =>
            if err_is_fail r.err then some (r.err, r.st)
            else
              let node := if 0 < r.bytes then (r.st.mem p).next else some p
              paging_map_fixed_loop k frame flags fuel r.st node r.vaddr r.bytes

/-- The C `paging_map_fixed_attr`.  The node walk gets one step per slab
element and one more; the mapping loop gets one step per byte. -/
def paging_map_fixed_attr (k : Kernel) (st : paging_state) (vaddr : Nat) (frame : capref)
    (bytes : Nat) (flags : Nat) : Option (errval_t × paging_state) :=
  paging_map_fixed_loop k frame flags (st.slabs.cursor + 1) st st.head vaddr bytes

/-- The refill step at the start of `paging_map_frame_attr`; the error value
is `SYS_ERR_OK` unless the refill hook was run and failed. -/
def paging_map_frame_refill (k : Kernel) (st : paging_state) : errval_t × paging_state :=
  if should_refill_slabs st then
    let st := { st with slab_refilling := true }
    let r := refill_func k st
    if err_is_fail r.1 then (LIB_ERR_VREGION_MAP, r.2)
    else (SYS_ERR_OK, { r.2 with slab_refilling := false })
  else (SYS_ERR_OK, st)

/-- The C `paging_map_frame_attr`; the second component of the result is
`*buf`, `none` when the function returned before writing it. -/
def paging_map_frame_attr (k : Kernel) (st : paging_state) (bytes : Nat) (frame : capref)
    (flags : Nat) : Option (errval_t × Option Nat × paging_state) :=
  let pre := paging_map_frame_refill k st
  if err_is_fail pre.1 then some (pre.1, none, pre.2)
  else
    match paging_alloc pre.2 bytes with
    | none => none
    | some a =>
      if err_is_fail a.1 then some (a.1, some a.2.1, a.2.2)
      else
        match paging_map_fixed_attr k a.2.2 a.2.1 frame bytes flags with
        | none => none
        | some m => some (m.1, some a.2.1, m.2)

/-- The nodes `L` are a `NULL`-terminated doubly linked chain that starts at
the pointer `cur`, the `prev` field of its first node being `prv`. -/
def chain (mem : Nat → paging_node) : Option Nat → Option Nat → List Nat → Prop
  | _, cur, [] => cur = none
  | prv, cur, p :: ps => cur = some p ∧ (mem p).prev = prv ∧ chain mem (some p) (mem p).next ps

/-- Decision procedure for `chain`. -/
def chain.dec (mem : Nat → paging_node) :
    (prv cur : Option Nat) → (L : List Nat) → Decidable (chain mem prv cur L)
  | _, cur, [] => inferInstanceAs (Decidable (cur = none))
  | prv, cur, p :: ps =>
    have := chain.dec mem (some p) (mem p).next ps
    inferInstanceAs (Decidable (cur = some p ∧ (mem p).prev = prv ∧
      chain mem (some p) (mem p).next ps))

instance (mem : Nat → paging_node) (prv cur : Option Nat) (L : List Nat) :
    Decidable (chain mem prv cur L) := chain.dec mem prv cur L

/-- Follow the `next` pointers from `cur`, for at most `fuel` nodes. -/
def walk (mem : Nat → paging_node) : Nat → Option Nat → List Nat
  | 0, _ => []
  | _ + 1, none => []
  | fuel + 1, some p => p :: walk mem fuel (mem p).next

/-- The addresses of the nodes of the region list, in list order. -/
def node_ptrs (st : paging_state) : List Nat := walk st.mem st.slabs.cursor st.head

/-- What a region node says about the address space: the fields other than
the two links. -/
structure region where
  base : Nat
  size : Nat
  type : paging_node_type
deriving DecidableEq, Repr

/-- The region stored in the node at address `p`. -/
def region_at (mem : Nat → paging_node) (p : Nat) : region :=
  ⟨(mem p).base, (mem p).size, (mem p).type⟩

/-- The region list of a paging state, in list order. -/
def regions (st : paging_state) : List region := (node_ptrs st).map (region_at st.mem)

/-- The pointers `L` are the region list of `st`: a doubly linked chain from
`st->head` with consistent links, whose nodes are distinct elements handed out
by the slab. -/
def IsList (st : paging_state) (L : List Nat) : Prop :=
  chain st.mem none st.head L ∧ L.Nodup ∧ ∀ p ∈ L, p < st.slabs.cursor

/-- The `prev`/`next` links of the region list are consistent. -/
def links_ok (st : paging_state) : Prop := IsList st (node_ptrs st)

instance (st : paging_state) (L : List Nat) : Decidable (IsList st L) :=
  inferInstanceAs (Decidable (chain st.mem none st.head L ∧ L.Nodup ∧
    ∀ p ∈ L, p < st.slabs.cursor))

instance (st : paging_state) : Decidable (links_ok st) :=
  inferInstanceAs (Decidable (IsList st (node_ptrs st)))

/-- The fields of the paging state that the region-list code does not touch. -/
def same_env (st st2 : paging_state) : Prop :=
  st2.calls = st.calls ∧ st2.l2_pagetables = st.l2_pagetables ∧
  st2.l1_pagetable = st.l1_pagetable ∧ st2.slot_alloc = st.slot_alloc ∧
  st2.mapping_cb = st.mapping_cb ∧ st2.slab_refilling = st.slab_refilling

/-- What claiming `bytes` bytes does to a free region: the region becomes
claimed, and a free remainder is split off when it is strictly larger. -/
def claim_region (bytes : Nat) (r : region) : List region :=
  if bytes < r.size then
    [⟨r.base, bytes, NodeType_Claimed⟩, ⟨add32 r.base bytes, r.size - bytes, NodeType_Free⟩]
  else [⟨r.base, r.size, NodeType_Claimed⟩]

/-- What mapping `[vaddr, vaddr + bytes)` does to the region that was chosen
for it: an allocated region, with a free region split off on either side as
the comparisons of the source decide, all sizes in 32-bit arithmetic. -/
def split_region (vaddr bytes : Nat) (r : region) : List region :=
  let rsize := sub32 (sub32 r.size (sub32 vaddr r.base)) bytes
  let s1 := if add32 vaddr bytes < add32 r.base r.size then sub32 r.size rsize else r.size
  (if r.base < vaddr then
      [⟨r.base, sub32 vaddr r.base, NodeType_Free⟩,
       ⟨vaddr, sub32 s1 (sub32 vaddr r.base), NodeType_Allocated⟩]
    else [⟨r.base, s1, NodeType_Allocated⟩]) ++
  (if add32 vaddr bytes < add32 r.base r.size then [⟨add32 vaddr bytes, rsize, NodeType_Free⟩]
    else [])

/-- The region-list view of `paging_alloc`: first fit from the head.  The
result is the returned base and the new region list; `none` when no region
fits. -/
def alloc_regions (bytes : Nat) : List region → Option (Nat × List region)
  | [] => none
  | r :: rs =>
    if r.type = NodeType_Free ∧ bytes ≤ r.size then some (r.base, claim_region bytes r ++ rs)
    else (alloc_regions bytes rs).map (fun x => (x.1, r :: x.2))

/-- The test of `paging_map_fixed_attr` that lets a node take the range:
the node is not allocated, starts at or before `vaddr`, and its 32-bit end is
not below the 32-bit end of the range. -/
def accepts (vaddr bytes : Nat) (r : region) : Prop :=
  r.type ≠ NodeType_Allocated ∧
    ¬ (vaddr < r.base ∨ add32 r.base r.size < add32 vaddr bytes)

instance (vaddr bytes : Nat) (r : region) : Decidable (accepts vaddr bytes r) :=
  inferInstanceAs (Decidable (r.type ≠ NodeType_Allocated ∧
    ¬ (vaddr < r.base ∨ add32 r.base r.size < add32 vaddr bytes)))

/-- The region-list view of step 1 and 2 of `paging_map_fixed_attr`: the
first node from the head that passes the test is split; `none` when no node
passes. -/
def map_fixed_regions (vaddr bytes : Nat) : List region → Option (List region)
  | [] => none
  | r :: rs =>
    if accepts vaddr bytes r then some (split_region vaddr bytes r ++ rs)
    else (map_fixed_regions vaddr bytes rs).map (fun x => r :: x)

/-- What the page-table code keeps: the region list and the settings of the
paging state; the call history only grows. -/
def ext_step (st st2 : paging_state) : Prop :=
  st2.head = st.head ∧ st2.mem = st.mem ∧ st2.slabs = st.slabs ∧
  st2.mapping_cb = st.mapping_cb ∧ st2.l1_pagetable = st.l1_pagetable ∧
  st2.slab_refilling = st.slab_refilling ∧ st2.slot_alloc = st.slot_alloc ∧
  ∃ new, st2.calls = st.calls ++ new

/-- The number of pages of the capability `frame` that the `vnode_map` calls
of a history install: the sum of their `pte_count` arguments. -/
def pages_of (frame : capref) : List Call → Nat
  | [] => 0
  | Call.vnode_map _ src _ _ _ pte_count _ :: cs =>
    (if src = frame then pte_count else 0) + pages_of frame cs
  | _ :: cs => pages_of frame cs

/-- Each region ends where the next one starts. -/
def contiguous : List region → Prop
  | [] => True
  | [_] => True
  | a :: b :: rest => a.base + a.size = b.base ∧ contiguous (b :: rest)

/-- Decision procedure for `contiguous`. -/
def contiguous.dec : (rs : List region) → Decidable (contiguous rs)
  | [] => isTrue trivial
  | [_] => isTrue trivial
  | a :: b :: rest =>
    have := contiguous.dec (b :: rest)
    inferInstanceAs (Decidable (a.base + a.size = b.base ∧ contiguous (b :: rest)))

/-- The regions are ordered by base address. -/
def address_sorted (rs : List region) : Prop :=
  rs.Pairwise (fun a b => a.base ≤ b.base)

/-- No region wraps around the end of the 32-bit address space. -/
def no_wrap (rs : List region) : Prop := ∀ r ∈ rs, r.base + r.size < 2 ^ 32

instance (rs : List region) : Decidable (contiguous rs) := contiguous.dec rs

instance (rs : List region) : Decidable (address_sorted rs) :=
  inferInstanceAs (Decidable (rs.Pairwise (fun (a b : region) => a.base ≤ b.base)))

instance (rs : List region) : Decidable (no_wrap rs) :=
  inferInstanceAs (Decidable (∀ r ∈ rs, r.base + r.size < 2 ^ 32))

/-- The base of the first region, if there is one. -/
def first_base (rs : List region) : Option Nat := rs.head?.map region.base

/-- The sum of the sizes of the regions. -/
def total_size (rs : List region) : Nat := (rs.map region.size).sum

/-- A well-formed paging state: the links of the region list are consistent
and its regions are address-sorted, contiguous and do not wrap around. -/
def WellFormed (st : paging_state) : Prop :=
  links_ok st ∧ address_sorted (regions st) ∧ contiguous (regions st) ∧ no_wrap (regions st)

instance (st : paging_state) : Decidable (WellFormed st) :=
  inferInstanceAs (Decidable (links_ok st ∧ address_sorted (regions st) ∧
    contiguous (regions st) ∧ no_wrap (regions st)))

/-- The regions are contiguous and the first one starts at `a`. -/
def spans (a : Nat) : List region → Prop
  | [] => True
  | r :: rs => r.base = a ∧ spans (a + r.size) rs

/-- The address just past the last region: the first base plus all sizes. -/
def end_addr (rs : List region) : Nat :=
  match rs with
  | [] => 0
  | r :: _ => r.base + total_size rs

/-- A node whose links are `NULL`. -/
def blank_node : paging_node := ⟨0, 0, NodeType_Free, none, none⟩

/-- A paging state before initialisation, over a node memory whose links all
read `NULL`. -/
def blank_state : paging_state :=
  { head := none, mem := fun _ => blank_node, slabs := ⟨0, 0⟩, slab_refilling := false,
    l2_pagetables := fun _ => ⟨false, 0⟩, l1_pagetable := 0, slot_alloc := 0,
    mapping_cb := none, calls := [] }

/-- An environment in which every external call succeeds; the slot allocator
hands out slots numbered from 1000 on. -/
def ok_kernel : Kernel :=
  { ret := fun _ _ => SYS_ERR_OK, slot := fun h => 1000 + h.length, refill := fun _ => 64 }

/-- The state after `paging_init_state` with `start_vaddr = 0x40000000`. -/
def init_state : paging_state := (paging_init_state blank_state 0x40000000 1 2).2

/-- Every external call of the environment succeeds. -/
def always_ok (k : Kernel) : Prop := ∀ h c, k.ret h c = SYS_ERR_OK

/-- The state after mapping one page at `0x40000000` in `init_state`. -/
def mapped_state : paging_state :=
  match paging_map_fixed_attr ok_kernel init_state 0x40000000 7 0x1000 3 with
  | some r => r.2
  | none => init_state

/-- The paging states reachable from `paging_init_state`, run with a 32-bit
`start_vaddr` on slab memory whose `next` field reads `NULL`, by successful
calls of `paging_alloc`, `paging_map_fixed_attr` and `paging_map_frame_attr`
with 32-bit arguments.  The guard `okI` sees `start_vaddr`; the guards `okA`,
`okM` and `okF` see the region list before the call and its arguments. -/
inductive Reach (okI : Nat → Prop) (okA : List region → Nat → Prop)
    (okM : List region → Nat → Nat → Prop) (okF : List region → Nat → Prop) :
    paging_state → Prop
  | init (st0 : paging_state) (start_vaddr pdir ca : Nat) :
      okI start_vaddr → start_vaddr < 2 ^ 32 → (st0.mem 0).next = none →
      Reach okI okA okM okF (paging_init_state st0 start_vaddr pdir ca).2
  | alloc (st : paging_state) (bytes buf : Nat) (st2 : paging_state) :
      Reach okI okA okM okF st → bytes < 2 ^ 32 → okA (regions st) bytes →
      paging_alloc st bytes = some (SYS_ERR_OK, buf, st2) → Reach okI okA okM okF st2
  | map_fixed (k : Kernel) (st : paging_state) (vaddr frame bytes flags : Nat)
      (st2 : paging_state) :
      Reach okI okA okM okF st → vaddr < 2 ^ 32 → bytes < 2 ^ 32 →
      okM (regions st) vaddr bytes →
      paging_map_fixed_attr k st vaddr frame bytes flags = some (SYS_ERR_OK, st2) →
      Reach okI okA okM okF st2
  | map_frame (k : Kernel) (st : paging_state) (bytes frame flags buf : Nat)
      (st2 : paging_state) :
      Reach okI okA okM okF st → bytes < 2 ^ 32 → okF (regions st) bytes →
      paging_map_frame_attr k st bytes frame flags = some (SYS_ERR_OK, some buf, st2) →
      Reach okI okA okM okF st2

/-- Reachable from `paging_init_state` with any `start_vaddr` by successful
`paging_alloc` and `paging_map_fixed_attr` calls with any arguments. -/
def Reachable : paging_state → Prop :=
  Reach (fun _ => True) (fun _ _ => True) (fun _ _ _ => True) (fun _ _ => False)

/-- Reachable from `paging_init_state` with a page-aligned `start_vaddr` by
successful `paging_alloc` and `paging_map_fixed_attr` calls with any
arguments. -/
def ReachableAligned : paging_state → Prop :=
  Reach (fun start_vaddr => start_vaddr % BASE_PAGE_SIZE = 0) (fun _ _ => True)
    (fun _ _ _ => True) (fun _ _ => False)

/-- Reachable from `paging_init_state` with a page-aligned `start_vaddr` by
successful calls whose sizes and addresses are multiples of the base page
size. -/
def ReachablePaged : paging_state → Prop :=
  Reach (fun start_vaddr => start_vaddr % BASE_PAGE_SIZE = 0)
    (fun _ bytes => bytes % BASE_PAGE_SIZE = 0)
    (fun _ vaddr bytes => vaddr % BASE_PAGE_SIZE = 0 ∧ bytes % BASE_PAGE_SIZE = 0)
    (fun _ bytes => bytes % BASE_PAGE_SIZE = 0)

/-- The range of a `paging_map_fixed_attr` call does not split a Claimed
region: every Claimed region that passes the test for it starts at `vaddr`
and ends, in 32-bit arithmetic, where the range ends. -/
def whole_claimed (rs : List region) (vaddr bytes : Nat) : Prop :=
  ∀ r ∈ rs, r.type = NodeType_Claimed → accepts vaddr bytes r →
    r.base = vaddr ∧ add32 r.base r.size = add32 vaddr bytes

instance (rs : List region) (vaddr bytes : Nat) : Decidable (whole_claimed rs vaddr bytes) :=
  inferInstanceAs (Decidable (∀ r ∈ rs, r.type = NodeType_Claimed → accepts vaddr bytes r →
    r.base = vaddr ∧ add32 r.base r.size = add32 vaddr bytes))

/-- Reachable by successful `paging_alloc` calls and successful
`paging_map_fixed_attr` calls that do not split a Claimed region. -/
def ReachableWhole : paging_state → Prop :=
  Reach (fun _ => True) (fun _ _ => True) (fun rs vaddr bytes => whole_claimed rs vaddr bytes)
    (fun _ _ => False)

/-- The refill step keeps the region list; the call history only grows. -/
def list_step (st st2 : paging_state) : Prop :=
  st2.head = st.head ∧ st2.mem = st.mem ∧ st2.slabs.cursor = st.slabs.cursor ∧
  ∃ new, st2.calls = st.calls ++ new ∧ ∀ frame, pages_of frame new = 0

/-- Every size but the last is a multiple of the page size, and the last
size is one less than a multiple (the initial region ends at `0xFFFFFFFF`). -/
def sizes_paged : List region → Prop
  | [] => True
  | [a] => a.size % 4096 = 4095
  | a :: b :: rest => a.size % 4096 = 0 ∧ sizes_paged (b :: rest)

/-- Every base is a multiple of the page size, and so is every size but the
last. -/
def paged (rs : List region) : Prop :=
  (∀ r ∈ rs, r.base % 4096 = 0) ∧ sizes_paged rs

/-- The state after `paging_alloc(1)` in `init_state`. -/
def alloc1_state : paging_state := (paging_alloc_claim init_state 0 1).2.2

/-- The state after `paging_alloc(0x2000)` in `init_state`. -/
def claimed_state : paging_state := (paging_alloc_claim init_state 0 0x2000).2.2

/-- The state after mapping the whole claimed region of `claimed_state`. -/
def whole_mapped_state : paging_state :=
  match paging_map_fixed_attr ok_kernel claimed_state 0x40000000 7 0x2000 3 with
  | some r => r.2
  | none => claimed_state

/-- The state after mapping the first page of the claimed region of
`claimed_state`. -/
def part_mapped_state : paging_state :=
  match paging_map_fixed_attr ok_kernel claimed_state 0x40000000 7 0x1000 3 with
  | some r => r.2
  | none => claimed_state

/-- No two adjacent regions are both Free. -/
def no_adjacent_free : List region → Prop
  | [] => True
  | [_] => True
  | a :: b :: rest =>
    ¬ (a.type = NodeType_Free ∧ b.type = NodeType_Free) ∧ no_adjacent_free (b :: rest)

/-- Decision procedure for `no_adjacent_free`. -/
def no_adjacent_free.dec : (rs : List region) → Decidable (no_adjacent_free rs)
  | [] => isTrue trivial
  | [_] => isTrue trivial
  | a :: b :: rest =>
    have := no_adjacent_free.dec (b :: rest)
    inferInstanceAs (Decidable (¬ (a.type = NodeType_Free ∧ b.type = NodeType_Free) ∧
      no_adjacent_free (b :: rest)))

instance (rs : List region) : Decidable (no_adjacent_free rs) := no_adjacent_free.dec rs

/-- An environment like `ok_kernel` in which the slab refill hook fails. -/
def refill_fails_kernel : Kernel :=
  { ok_kernel with ret := fun _ c => if c = Call.refill_func then KERNEL_ERR 1 else SYS_ERR_OK }

/-- The state after 58 calls `paging_alloc(4096)` from `init_state`: five
elements of the slab are left. -/
def drained_state : paging_state :=
  (List.range 58).foldl (fun st _ => match paging_alloc st 4096 with
    | some r => r.2.2
    | none => st) init_state

/-- The address `a` lies in the region `r`. -/
def region.has (r : region) (a : Nat) : Bool := decide (r.base ≤ a ∧ a < r.base + r.size)

/-- The type of the region that the address `a` belongs to. -/
def type_at (rs : List region) (a : Nat) : Option paging_node_type :=
  (rs.find? (fun r => r.has a)).map region.type

/-- The frame mappings of a history: destination table, slot, flags, offset
and page count of each `vnode_map` call whose source is the capability
`frame`, in order. -/
def frame_maps (frame : capref) : List Call → List (capref × Nat × Nat × Nat × Nat)
  | [] => []
  | Call.vnode_map dest src slot flags offset pte_count _ :: cs =>
    if src = frame then (dest, slot, flags, offset, pte_count) :: frame_maps frame cs
    else frame_maps frame cs
  | _ :: cs => frame_maps frame cs

/-- The number of L2 page tables that the `vnode_create` calls of a history
create. -/
def l2_creations : List Call → Nat
  | [] => 0
  | Call.vnode_create _ objtype.ObjType_VNode_ARM_l2 :: cs => l2_creations cs + 1
  | _ :: cs => l2_creations cs

/-- One frame mapping as the claim gives it: the address it starts at, its
offset in the frame and its number of pages. -/
structure slice_map where
  addr : Nat
  offset : Nat
  pages : Nat
deriving DecidableEq, Repr

/-- Modelled after the claim: the frame mappings for `pages` pages from the
address `addr` on, `offset` bytes of the frame being installed already.  Each
mapping installs the remaining pages, or the pages up to the end of the L2
table of `addr` when these are fewer, and starts at the offset that the
mappings before it have installed. -/
def slice_maps : Nat → Nat → Nat → Nat → List slice_map
  | 0, _, _, _ => []
  | fuel + 1, addr, pages, offset =>
    if pages = 0 then []
    else
      ⟨addr, offset, min pages (ARM_L2_MAX_ENTRIES - ARM_L2_OFFSET addr)⟩ ::
        slice_maps fuel
          (addr + min pages (ARM_L2_MAX_ENTRIES - ARM_L2_OFFSET addr) * BASE_PAGE_SIZE)
          (pages - min pages (ARM_L2_MAX_ENTRIES - ARM_L2_OFFSET addr))
          (offset + min pages (ARM_L2_MAX_ENTRIES - ARM_L2_OFFSET addr) * BASE_PAGE_SIZE)

/-- The frame mappings the claim prescribes for the range
`[vaddr, vaddr + bytes)`. -/
def frame_slices (vaddr bytes : Nat) : List slice_map :=
  slice_maps (bytes / BASE_PAGE_SIZE) vaddr (bytes / BASE_PAGE_SIZE) 0

/-- The state after mapping the 2 MiB frame 7 at `0x40000000` in
`init_state`. -/
def two_tables_state : paging_state :=
  match paging_map_fixed_attr ok_kernel init_state 0x40000000 7 0x200000 3 with
  | some r => r.2
  | none => init_state

/-- The history grows by calls that map no page of `frame`. -/
def frame_quiet (frame : capref) (st st2 : paging_state) : Prop :=
  ∃ new, st2.calls = st.calls ++ new ∧ frame_maps frame new = []

/-- An initialised entry of the L2 table cache is kept. -/
def l2_kept (st st2 : paging_state) : Prop :=
  ∀ j, (st.l2_pagetables j).initialized = true → st2.l2_pagetables j = st.l2_pagetables j

/-- The call maps a table into the directory `pdir` at slot `i`: the last step
of the L2 creation path for the L1 index `i`. -/
def Call.maps_l1 (pdir : capref) (i : Nat) : Call → Bool
  | Call.vnode_map dest _ slot _ _ _ _ => decide (dest = pdir ∧ slot = i)
  | _ => false

/-- The number of times a history reaches the mapping of a new L2 table into
the directory `pdir` at slot `i`. -/
def l1_maps (pdir : capref) (i : Nat) (cs : List Call) : Nat :=
  (cs.filter (Call.maps_l1 pdir i)).length

/-- The number of mappings of a table into the directory `pdir` at slot `i`
among the calls `cs` that the environment answered with `SYS_ERR_OK`; `done`
is the history before `cs`. -/
def l1_installs (k : Kernel) (pdir : capref) (i : Nat) : List Call → List Call → Nat
  | _, [] => 0
  | done, c :: cs =>
    (if Call.maps_l1 pdir i c = true ∧ k.ret done c = SYS_ERR_OK then 1 else 0)
      + l1_installs k pdir i (done ++ [c]) cs

/-- The states that a sequence of calls of `paging_map_fixed_attr`, with any
arguments and any results, leads to from a state. -/
inductive MapSeq (k : Kernel) : paging_state → paging_state → Prop
  | start (st : paging_state) : MapSeq k st st
  | call {st0 st st2 : paging_state} (vaddr frame bytes flags : Nat) (res : errval_t) :
    MapSeq k st0 st →
    paging_map_fixed_attr k st vaddr frame bytes flags = some (res, st2) →
    MapSeq k st0 st2

/-- What the L2 creation path keeps, for the directory `pdir` and the history
`h0` at initialisation: no mapping callback is set, the directory is `pdir`,
no cached table is the directory, and the directory slot of each L1 index was
filled once if its entry of the cache is initialised and never otherwise. -/
def l1_inv (k : Kernel) (pdir : capref) (h0 : List Call) (st : paging_state) : Prop :=
  st.mapping_cb = none ∧ st.l1_pagetable = pdir ∧
  (∀ i, i < L1_PAGETABLE_ENTRIES → (st.l2_pagetables i).initialized = true →
    (st.l2_pagetables i).cap ≠ pdir) ∧
  ∃ new, st.calls = h0 ++ new ∧ ∀ i, i < L1_PAGETABLE_ENTRIES →
    l1_installs k pdir i h0 new = if (st.l2_pagetables i).initialized = true then 1 else 0

/-- The environment `ok_kernel` with one failure: the first mapping of a table
into the directory 1 at slot `0x400` returns an error. -/
def l1_map_fails_once : Kernel :=
  { ok_kernel with ret := fun h c =>
      if Call.maps_l1 1 0x400 c = true ∧ l1_maps 1 0x400 h = 0 then KERNEL_ERR 1 else SYS_ERR_OK }

/-- The state after the failed mapping of one page at `0x40000000` in
`init_state`. -/
def failed_map_state : paging_state :=
  match paging_map_fixed_attr l1_map_fails_once init_state 0x40000000 7 0x1000 3 with
  | some r => r.2
  | none => init_state

/-- The state after mapping one page at `0x40001000` in `failed_map_state`. -/
def retried_map_state : paging_state :=
  match paging_map_fixed_attr l1_map_fails_once failed_map_state 0x40001000 7 0x1000 3 with
  | some r => r.2
  | none => failed_map_state

end Paging

/-! ## The spawn library: definitions -/

namespace Spawn

/-- The byte `s[i]` of a character buffer.  A buffer is the list of the bytes
from the pointer on; the bytes at and after the end of the list read as NUL
(the terminator of the string the buffer holds). -/
def peek (buf : List Nat) (i : Nat) : Nat := buf.getD i 0

/-- The C library's `strlen`, at offset `s` of a buffer: the number of bytes
before the first NUL. -/
def strlen (buf : List Nat) (s : Nat) : Nat :=
  ((buf.drop s).takeWhile (fun c => decide (c ≠ 0))).length

/-- The C library's `memmove(buf + dst, buf + src, n)`: the `n` bytes read at
`src` replace the `n` bytes at `dst`. -/
def memmove (buf : List Nat) (dst src n : Nat) : List Nat :=
  buf.take dst ++ (List.range n).map (fun i => peek buf (src + i)) ++ buf.drop (dst + n)

/-- The C string at offset `p` of a buffer: the bytes before the first NUL. -/
def cstr (buf : List Nat) (p : Nat) : List Nat :=
  (buf.drop p).takeWhile (fun c => decide (c ≠ 0))

/-- The variables of `spawn_tokenize_cmdargs`.  Pointers into the string are
offsets from the initial `s`; an `argv` entry is `none` for `NULL`; `stores`
lists the indices of `argv` that were assigned, in order. -/
structure tokenizer where
  buf : List Nat
  s : Nat
  inquote : Bool
  argc : Nat
  argv : Nat → Option Nat
  stores : List Nat

/-- The statement `argv[argc++] = s`. -/
def tokenizer.store_arg (t : tokenizer) : tokenizer :=
  { t with argv := Function.update t.argv t.argc (some t.s), stores := t.stores ++ [t.argc],
           argc := t.argc + 1 }

/-- The statement `argv[argc] = NULL`. -/
def tokenizer.store_null (t : tokenizer) : tokenizer :=
  { t with argv := Function.update t.argv t.argc none, stores := t.stores ++ [t.argc] }

/-- The variables at the entry of `spawn_tokenize_cmdargs`. -/
def tokenizer.entry (s : List Nat) (argv : Nat → Option Nat) : tokenizer :=
  { buf := s, s := 0, inquote := false, argc := 0, argv := argv, stores := [] }

/-- The loop `while (*s == ' ' || *s == '\t') s++;`. -/
def skip_blanks (buf : List Nat) : Nat → Nat → Option Nat
  | 0, _ => none
  | fuel + 1, s =>
    if peek buf s = 32 ∨ peek buf s = 9 then skip_blanks buf fuel (s + 1) else some s

/-- The body of the main loop of `spawn_tokenize_cmdargs`. -/
def tokenize_body (t : tokenizer) : Option tokenizer :=
  if peek t.buf t.s = 34 then
    let t := { t with inquote := !t.inquote }
    some { t with buf := memmove t.buf t.s (t.s + 1) (strlen t.buf t.s) }
  else if (peek t.buf t.s = 32 ∨ peek t.buf t.s = 9) ∧ t.inquote = false then
    let t := { t with buf := t.buf.set t.s 0, s := t.s + 1 }
    match skip_blanks t.buf (t.buf.length + 1) t.s with
    | none => none
    | some p =>
      let t := { t with s := p }
      some (if peek t.buf t.s ≠ 0 then t.store_arg else t)
  else some { t with s := t.s + 1 }

/-- The main loop of `spawn_tokenize_cmdargs`,
`while (argc + 1 < argv_len && *s != '\0')`. -/
def tokenize_loop (argv_len : Nat) : Nat → tokenizer → Option tokenizer
  | 0, _ => none
  | fuel + 1, t =>
    if t.argc + 1 < argv_len ∧ peek t.buf t.s ≠ 0 then
      match tokenize_body t with
      | none => none
      | some t1 => tokenize_loop argv_len fuel t1
    else some t

/-- The C `spawn_tokenize_cmdargs`: the result is the returned `argc` and the
final values of the buffer and of `argv`.  `none`: an assertion failed or a
loop did not finish within its fuel. -/
def spawn_tokenize_cmdargs (s : List Nat) (argv : Nat → Option Nat) (argv_len : Nat) :
    Option (Nat × tokenizer) :=
  let t := tokenizer.entry s argv
  if ¬ 1 < argv_len then none
  else
    match skip_blanks t.buf (t.buf.length + 1) t.s with
    | none => none
    | some p =>
      let t := { t with s := p }
      let t := if peek t.buf t.s ≠ 0 then t.store_arg else t
      match tokenize_loop argv_len (t.buf.length + 1) t with
      | none => none
      | some t =>
        let t := t.store_null
        some (t.argc, t)

/-- The strings the entries `argv[0 .. argc - 1]` point to. -/
def tokenizer.tokens (t : tokenizer) : List (List Nat) :=
  (List.range t.argc).map (fun i => match t.argv i with
    | some p => cstr t.buf p
    | none => [])

/-- The bytes of a string literal. -/
def bytes (s : String) : List Nat := s.toList.map Char.toNat

/-- The command line `  foo "bar baz" qux  `. -/
def cmdline_example : List Nat :=
  bytes "  foo " ++ [34] ++ bytes "bar baz" ++ [34] ++ bytes " qux  "

/-- A space or a tab. -/
def is_blank (c : Nat) : Bool := decide (c = 32 ∨ c = 9)

/-- The list view of the main loop.  `room` is the number of further `argv`
entries the loop may assign, `cur` the part of the open token that was already
passed, `rest` the characters from `*s` on; the result is the open token and
the tokens after it. -/
def tokens_loop : Nat → Bool → List Nat → List Nat → List (List Nat)
  | _, _, cur, [] => [cur]
  | 0, _, cur, c :: rest => [cur ++ c :: rest]
  | room + 1, inq, cur, c :: rest =>
    if c = 34 then tokens_loop (room + 1) (!inq) cur rest
    else if (c = 32 ∨ c = 9) ∧ inq = false then
      if rest.dropWhile is_blank = [] then [cur]
      else cur :: tokens_loop room false [] (rest.dropWhile is_blank)
    else tokens_loop (room + 1) inq (cur ++ [c]) rest
termination_by _ _ _ rest => rest.length
decreasing_by
  all_goals simp_wf
  all_goals have hle := (@List.dropWhile_sublist Nat rest is_blank).length_le
  all_goals omega

/-- Modelled after the claim: each character of the input with the flag
whether it lies inside double quotes. -/
def quote_flags : Bool → List Nat → List (Nat × Bool)
  | _, [] => []
  | q, c :: cs => (c, q) :: quote_flags (if c = 34 then !q else q) cs

/-- A delimiter: a space or a tab lying outside double quotes. -/
def is_delim (x : Nat × Bool) : Bool := is_blank x.1 && !x.2

/-- A piece with its double-quote characters removed. -/
def unquote (p : List (Nat × Bool)) : List Nat :=
  (p.map Prod.fst).filter (fun c => decide (c ≠ 34))

/-- The tokens of a list of pieces: the non-empty pieces, unquoted. -/
def pieces_tokens (ps : List (List (Nat × Bool))) : List (List Nat) :=
  (ps.filter (fun p => !p.isEmpty)).map unquote

/-- The tokens of a command line as the claim describes them: the maximal
non-empty pieces delimited by spaces or tabs outside double quotes, with every
double-quote character removed. -/
def spec_tokens (s : List Nat) : List (List Nat) :=
  pieces_tokens ((quote_flags false s).splitOnP is_delim)

/-- The layout of the buffer and of `argv` at the head of the main loop
while a token is open: `done` are the finished tokens, `pre0` the buffer
before the open token, `cur` its part before `s`, `rest` the characters from
`*s` up to the terminator, `zs` the buffer from the terminator on. -/
def tok_inv (argv_len : Nat) (t : tokenizer) (done : List (List Nat))
    (pre0 cur rest zs : List Nat) : Prop :=
  t.buf = pre0 ++ cur ++ rest ++ zs ∧ t.s = pre0.length + cur.length ∧
  (∀ c ∈ cur, c ≠ 0) ∧ (∀ c ∈ rest, c ≠ 0) ∧ zs.headD 0 = 0 ∧
  0 < (cur ++ rest ++ zs).length ∧
  t.argc = done.length + 1 ∧ t.argc + 1 ≤ argv_len ∧ t.stores = List.range t.argc ∧
  t.argv done.length = some pre0.length ∧
  ∀ i tok, done[i]? = some tok →
    ∃ a b, pre0 = a ++ tok ++ 0 :: b ∧ t.argv i = some a.length ∧ ∀ c ∈ tok, c ≠ 0

/-- What the main loop leaves: `argc` entries of `argv`, assigned in order,
that point into the buffer at the strings `toks`. -/
def tok_final (argv_len len : Nat) (t : tokenizer) (toks : List (List Nat)) : Prop :=
  t.argc = toks.length ∧ t.argc + 1 ≤ argv_len ∧ t.stores = List.range t.argc ∧
  t.buf.length = len ∧
  ∀ i tok, toks[i]? = some tok → ∃ p, t.argv i = some p ∧ p < len ∧ cstr t.buf p = tok


/-- The list view of `spawn_tokenize_cmdargs`: the blanks at the start are
passed, and when the string does not end there the first token is opened and
the main loop runs with room for `argv_len - 2` further tokens. -/
def tokens_view (argv_len : Nat) (s : List Nat) : List (List Nat) :=
  if (s.dropWhile is_blank).takeWhile (fun c => decide (c ≠ 0)) = [] then []
  else tokens_loop (argv_len - 2) false []
    ((s.dropWhile is_blank).takeWhile (fun c => decide (c ≠ 0)))

/-- From `t` to `t1` the entries of `argv` outside the logged stores keep
their values, and the log only grows. -/
def argv_frame (t t1 : tokenizer) : Prop :=
  (∀ i ∈ t.stores, i ∈ t1.stores) ∧ ∀ i, i ∉ t1.stores → t1.argv i = t.argv i

/-- The C `struct capref`: a CNode reference and a slot in it. -/
structure capref where
  cnode : Nat
  slot : Nat
deriving DecidableEq, Repr

/-- The capability a `struct capref` names, as the paging code is handed it. -/
def capref.id (c : capref) : Paging.capref := Nat.pair c.cnode c.slot

/-- The constants and sizes that `spawn.c` takes from headers that are not
among the sources. -/
structure consts where
  ROOTCN_SLOT_TASKCN : Nat
  ROOTCN_SLOT_PAGECN : Nat
  ROOTCN_SLOT_BASE_PAGE_CN : Nat
  ROOTCN_SLOT_SLOT_ALLOC0 : Nat
  ROOTCN_SLOT_SLOT_ALLOC1 : Nat
  ROOTCN_SLOT_SLOT_ALLOC2 : Nat
  TASKCN_SLOT_DISPATCHER : Nat
  TASKCN_SLOT_ROOTCN : Nat
  TASKCN_SLOT_DISPFRAME : Nat
  TASKCN_SLOT_ARGSPAGE : Nat
  L2_CNODE_SLOTS : Nat
  DISPATCHER_FRAME_BITS : Nat
  DISP_NAME_LEN : Nat
  MAX_CMDLINE_ARGS : Nat
  sizeof_spawn_domain_params : Nat
  user_cpsr : Nat
  cnode_module : Nat
  cap_dispatcher : capref

/-- The external entry points that `spawn.c` calls, with the arguments that
tell the calls apart. -/
inductive SCall where
  | multiboot_find_module (name : List Nat)
  | frame_identify (cap : capref)
  | cnode_create_l1
  | cnode_create_foreign_l2 (dest_l1 : capref) (slot : Nat)
  | dispatcher_create (dest : capref)
  | cap_copy (dest src : capref)
  | cap_retype (dest src : capref)
  | single_slot_alloc_init_raw (cap : capref) (cnode nslots : Nat)
  | vnode_create (dest : Nat) (type : Paging.objtype)
  | elf_load
  | frame_alloc (bytes : Nat)
  | slot_alloc
  | child_slot_alloc
  | invoke_dispatcher (dispatcher endpoint root : capref) (l1 : Nat) (dispframe : capref)
      (run : Bool)
deriving DecidableEq, Repr

/-- The environment of a spawn: what every external call returns after a
given history and what it writes to its result parameters, the multiboot
image, and the environment of the paging code. -/
structure Env where
  ret : List SCall → SCall → Paging.errval_t
  cap : List SCall → capref
  cnode : List SCall → Nat
  size : List SCall → Nat → Nat
  module : List Nat → Option Nat
  opts : List Nat
  is_elf : Bool
  sections : List (Nat × Nat × Nat)
  entry : Nat
  got : Nat
  uninit : Nat
  stack : Nat → Option Nat
  pk : Paging.Kernel

/-- The fields of the dispatcher frame that `setup_dispatcher` writes. -/
structure dispatcher_frame where
  core_id : Nat
  udisp : Nat
  disabled : Nat
  fpu_trap : Nat
  name : List Nat
  disabled_pc : Nat
  got_base : Nat
  enabled_pic : Nat
  disabled_pic : Nat
  enabled_cpsr : Nat
  disabled_cpsr : Nat
  eh_frame : Nat
  eh_frame_size : Nat
  eh_frame_hdr : Nat
  eh_frame_hdr_size : Nat
deriving DecidableEq, Repr

/-- The C `struct spawninfo`, with the two fields of the head of its slot
allocator that `setup_vspace` writes.  `ssa` is the address of `si->ssa.a`,
which `paging_init_state` stores in the child's paging state; it is not
`NULL` (`0`). -/
structure spawninfo where
  binary_name : List Nat
  l1_cap : capref
  l1_cnoderef : Nat
  taskcn : Nat
  pagecn : Nat
  base_pagecn : Nat
  alloc0 : Nat
  alloc1 : Nat
  alloc2 : Nat
  dispatcher : capref
  rootcn : capref
  dispframe : capref
  argspg : capref
  selfep : capref
  ssa : Nat
  ssa_head_slot : Nat
  ssa_head_space : Nat
  pg_state : Paging.paging_state
  entry_point : Nat
  got_ubase : Nat
  disp_handle : Nat

/-- What a spawn works on: the history of its external calls, the paging
state of the spawning domain (`get_current_paging_state()`), the spawn info,
the bytes of the spawning domain's memory, the header of the args page
(`params->argc`, `params->argv[i]`; their place inside the structure is not in
the sources, so they are kept apart from the bytes) and the dispatcher
frame. -/
structure world where
  trace : List SCall
  current : Paging.paging_state
  si : spawninfo
  mem : Nat → Nat
  params_argc : Int
  params_argv : Nat → Nat
  disp : dispatcher_frame

/-- An external call: its return value is the environment's answer after the
history so far, and the call is appended to the history. -/
def world.call (e : Env) (w : world) (c : SCall) : Paging.errval_t × world :=
  (e.ret w.trace c, { w with trace := w.trace ++ [c] })

/-- The call `slot_alloc(&cap)`; the second component is the slot written to
`cap`. -/
def world.slot_alloc (e : Env) (w : world) : Paging.errval_t × capref × world :=
  let cap := e.cap w.trace
  let r := w.call e SCall.slot_alloc
  (r.1, cap, r.2)

/-- The call `frame_alloc(&cap, bytes, &retsize)`; the result holds what is
written to `cap` and to `retsize`. -/
def world.frame_alloc (e : Env) (w : world) (bytes : Nat) :
    Paging.errval_t × capref × Nat × world :=
  let cap := e.cap w.trace
  let retsize := e.size w.trace bytes
  let r := w.call e (SCall.frame_alloc bytes)
  (r.1, cap, retsize, r.2)

/-- The call `cnode_create_foreign_l2(l1, slot, &cnoderef)`; the second
component is the CNode reference written to `cnoderef`. -/
def world.cnode_create_foreign_l2 (e : Env) (w : world) (l1 : capref) (slot : Nat) :
    Paging.errval_t × Nat × world :=
  let cn := e.cnode w.trace
  let r := w.call e (SCall.cnode_create_foreign_l2 l1 slot)
  (r.1, cn, r.2)

/-- Modelled from the spec: `paging_map_frame` (`paging.h` is not among the
sources); it is `paging_map_frame_attr` with the read-write flags. -/
def paging_map_frame (k : Paging.Kernel) (st : Paging.paging_state) (bytes : Nat)
    (frame : Paging.capref) : Option (Paging.errval_t × Option Nat × Paging.paging_state) :=
  Paging.paging_map_frame_attr k st bytes frame Paging.VREGION_FLAGS_READ_WRITE

/-- Modelled from the spec: the macro `ROUND_UP` (its header is not among the
sources); `n` rounded up to a multiple of `size`. -/
def ROUND_UP (n size : Nat) : Nat := (n + size - 1) / size * size

/-- The C library's `strcpy(mem + dst, s)`: the bytes of the string `s` and
the terminating NUL are stored from address `dst` on. -/
def strcpy (mem : Nat → Nat) (dst : Nat) (s : List Nat) : Nat → Nat :=
  fun a => if dst ≤ a ∧ a < dst + strlen s 0 then peek s (a - dst)
    else if a = dst + strlen s 0 then 0 else mem a

/-- How a checked statement ends: the enclosing function returns `err`, or
execution goes on with the values `val` that the statement wrote. -/
inductive flow (α : Type) where
  | ret (err : Paging.errval_t) (w : world)
  | go (val : α) (w : world)

/-- The macro `CHECK(where, err)`.  Its argument `err` is the text of a call:
the call is evaluated for the test `err_is_fail(err)`; when that evaluation
failed, the call is evaluated a second time for the message and a third time
for the value that the function returns.  The result of `call` holds the error
value, what the call wrote to its result parameters and the world after it;
`none` when the call does not return. -/
def CHECK {α : Type} (call : world → Option (Paging.errval_t × α × world)) (w : world) :
    Option (flow α) :=
  match call w with
  | none => none
  | some r1 =>
    if Paging.err_is_fail r1.1 then
      match call r1.2.2 with
      | none => none
      | some r2 =>
        match call r2.2.2 with
        | none => none
        | some r3 => some (flow.ret r3.1 r3.2.2)
    else some (flow.go r1.2.1 r1.2.2)

/-- The statements after a checked statement, in a function that returns an
error value. -/
def flow.bind {α : Type} (r : Option (flow α))
    (rest : α → world → Option (Paging.errval_t × world)) : Option (Paging.errval_t × world) :=
  match r with
  | none => none
  | some (flow.ret err w) => some (err, w)
  | some (flow.go val w) => rest val w

/-- The statements after a checked statement, in a part of a function. -/
def flow.chain {α β : Type} (r : Option (flow α)) (rest : α → world → Option (flow β)) :
    Option (flow β) :=
  match r with
  | none => none
  | some (flow.ret err w) => some (flow.ret err w)
  | some (flow.go val w) => rest val w

/-- The C `setup_cspace`.  The function returns nothing: after a failed call
it returns early. -/
def setup_cspace (k : consts) (e : Env) (w : world) : world :=
  let l1 := e.cap w.trace
  let l1ref := e.cnode w.trace
  let r := w.call e SCall.cnode_create_l1
  let w := { r.2 with si := { r.2.si with l1_cap := l1, l1_cnoderef := l1ref } }
  if Paging.err_is_fail r.1 then w
  else
    let r := w.cnode_create_foreign_l2 e w.si.l1_cap k.ROOTCN_SLOT_TASKCN
    let w := { r.2.2 with si := { r.2.2.si with taskcn := r.2.1 } }
    if Paging.err_is_fail r.1 then w
    else
      let r := w.cnode_create_foreign_l2 e w.si.l1_cap k.ROOTCN_SLOT_PAGECN
      let w := { r.2.2 with si := { r.2.2.si with pagecn := r.2.1 } }
      if Paging.err_is_fail r.1 then w
      else
        let r := w.cnode_create_foreign_l2 e w.si.l1_cap k.ROOTCN_SLOT_BASE_PAGE_CN
        let w := { r.2.2 with si := { r.2.2.si with base_pagecn := r.2.1 } }
        if Paging.err_is_fail r.1 then w
        else
          let r := w.cnode_create_foreign_l2 e w.si.l1_cap k.ROOTCN_SLOT_SLOT_ALLOC0
          let w := { r.2.2 with si := { r.2.2.si with alloc0 := r.2.1 } }
          if Paging.err_is_fail r.1 then w
          else
            let r := w.cnode_create_foreign_l2 e w.si.l1_cap k.ROOTCN_SLOT_SLOT_ALLOC1
            let w := { r.2.2 with si := { r.2.2.si with alloc1 := r.2.1 } }
            if Paging.err_is_fail r.1 then w
            else
              let r := w.cnode_create_foreign_l2 e w.si.l1_cap k.ROOTCN_SLOT_SLOT_ALLOC2
              let w := { r.2.2 with si := { r.2.2.si with alloc2 := r.2.1 } }
              if Paging.err_is_fail r.1 then w
              else
                let w := { w with si := { w.si with
                  dispatcher := ⟨w.si.taskcn, k.TASKCN_SLOT_DISPATCHER⟩ } }
                let r := w.call e (SCall.dispatcher_create w.si.dispatcher)
                let w := r.2
                if Paging.err_is_fail r.1 then w
                else
                  let w := { w with si := { w.si with
                    rootcn := ⟨w.si.taskcn, k.TASKCN_SLOT_ROOTCN⟩ } }
                  let r := w.call e (SCall.cap_copy w.si.rootcn w.si.l1_cap)
                  let w := r.2
                  if Paging.err_is_fail r.1 then w
                  else
                    let w := { w with si := { w.si with
                      dispframe := ⟨w.si.taskcn, k.TASKCN_SLOT_DISPFRAME⟩ } }
                    let w := { w with si := { w.si with
                      argspg := ⟨w.si.taskcn, k.TASKCN_SLOT_ARGSPAGE⟩ } }
                    (w.call e (SCall.cap_retype w.si.selfep w.si.dispatcher)).2

/-- The C `setup_vspace`.  The function returns nothing; `pdir` is a local
variable that is passed on without having been assigned. -/
def setup_vspace (k : consts) (e : Env) (w : world) : world :=
  let pagecn_cap : capref := ⟨w.si.l1_cnoderef, k.ROOTCN_SLOT_PAGECN⟩
  let r := w.call e (SCall.single_slot_alloc_init_raw pagecn_cap w.si.pagecn k.L2_CNODE_SLOTS)
  let w := r.2
  if Paging.err_is_fail r.1 then w
  else
    let w := { w with si := { w.si with ssa_head_slot := 1 } }
    let w := { w with si := { w.si with ssa_head_space := w.si.ssa_head_space - 1 } }
    let pdir := e.uninit
    let p := Paging.paging_init_state w.si.pg_state 0 pdir w.si.ssa
    let w := { w with si := { w.si with pg_state := p.2 } }
    if Paging.err_is_fail p.1 then w
    else
      let l1_pagetable : capref := ⟨w.si.pagecn, 0⟩
      let w := { w with si := { w.si with
        pg_state := { w.si.pg_state with l1_pagetable := l1_pagetable.id } } }
      (w.call e (SCall.vnode_create w.si.pg_state.l1_pagetable
        Paging.objtype.ObjType_VNode_ARM_l1)).2

/-- The C `elf_section_allocate`, the section callback of `elf_load`; `state`
is the paging state of the child.  The slot allocator of the child is called
through the pointer `state->slot_alloc`, which is `NULL` (`0`) until
`paging_init_state` has stored the address of `si->ssa.a` there.  `none`: the
`NULL` pointer was dereferenced or a loop of the paging code did not finish. -/
def elf_section_allocate (e : Env) (w : world) (base size flags : Nat) :
    Option (Paging.errval_t × world) :=
  if size = 0 then some (Paging.errval_t.SYS_ERR_OK, w)
  else
    flow.bind (CHECK (fun w => some (w.slot_alloc e)) w) fun _ w =>
    flow.bind (CHECK (fun w =>
      let f := w.frame_alloc e size
      some (f.1, (f.2.1, f.2.2.1), f.2.2.2)) w) fun fr w =>
    let my_frame := fr.1
    let retsize := fr.2
    flow.bind (CHECK (fun w =>
      match paging_map_frame e.pk w.current retsize my_frame.id with
      | none => none
      | some m => some (m.1, m.2.1.getD 0, { w with current := m.2.2 })) w) fun _ w =>
    flow.bind (CHECK (fun w =>
      if w.si.pg_state.slot_alloc = 0 then none
      else
        let cap := e.cap w.trace
        let c := w.call e SCall.child_slot_alloc
        some (c.1, cap, c.2)) w) fun child_frame w =>
    flow.bind (CHECK (fun w =>
      let cc := w.call e (SCall.cap_copy child_frame my_frame)
      some (cc.1, (), cc.2)) w) fun _ w =>
    match Paging.paging_map_fixed_attr e.pk w.si.pg_state base child_frame.id retsize flags with
    | none => none
    | some x =>
      let w := { w with si := { w.si with pg_state := x.2 } }
      if Paging.err_is_fail x.1 then some (x.1, w)
      else some (Paging.errval_t.SYS_ERR_OK, w)

/-- The sections of `elf_load`: the section callback is called for each of
them in order, up to the first failure. -/
def elf_load_sections (e : Env) : List (Nat × Nat × Nat) → world →
    Option (Paging.errval_t × world)
  | [], w => some (Paging.errval_t.SYS_ERR_OK, w)
  | sec :: rest, w =>
    match elf_section_allocate e w sec.1 sec.2.1 sec.2.2 with
    | none => none
    | some r =>
      if Paging.err_is_fail r.1 then some r
      else elf_load_sections e rest r.2

/-- Modelled from the spec: `elf_load` (the ELF library is not among the
sources).  It is a library that calls back into the section allocator for
each section of the image and reports the entry point; its own checks of the
image are an external call. -/
def elf_load (e : Env) (w : world) : Option (Paging.errval_t × world) :=
  let r := w.call e SCall.elf_load
  if Paging.err_is_fail r.1 then some r
  else
    match elf_load_sections e e.sections r.2 with
    | none => none
    | some s =>
      if Paging.err_is_fail s.1 then some s
      else some (Paging.errval_t.SYS_ERR_OK,
        { s.2 with si := { s.2.si with entry_point := e.entry } })

/-- The C `load_elf_into_memory`. -/
def load_elf_into_memory (e : Env) (w : world) : Option (Paging.errval_t × world) :=
  flow.bind (CHECK (fun w =>
    match elf_load e w with
    | none => none
    | some r => some (r.1, (), r.2)) w) fun _ w =>
  some (Paging.errval_t.SYS_ERR_OK, { w with si := { w.si with got_ubase := e.got } })

/-- The assignments at the end of `setup_dispatcher`, to the fields of the
dispatcher frame; `strncpy` copies at most `DISP_NAME_LEN` bytes of the
name. -/
def setup_dispatcher_fields (k : consts) (si : spawninfo) (disp_addr_in_child : Nat)
    (d : dispatcher_frame) : dispatcher_frame :=
  { d with core_id := 0, udisp := disp_addr_in_child, disabled := 1, fpu_trap := 1,
           name := (cstr si.binary_name 0).take k.DISP_NAME_LEN,
           disabled_pc := si.entry_point, got_base := si.got_ubase,
           enabled_pic := si.got_ubase, disabled_pic := si.got_ubase,
           enabled_cpsr := k.user_cpsr, disabled_cpsr := k.user_cpsr,
           eh_frame := 0, eh_frame_size := 0, eh_frame_hdr := 0, eh_frame_hdr_size := 0 }

/-- The C `setup_dispatcher`.  `none`: the assertion failed or a loop of the
paging code did not finish. -/
def setup_dispatcher (k : consts) (e : Env) (w : world) : Option (Paging.errval_t × world) :=
  flow.bind (CHECK (fun w =>
    let f := w.frame_alloc e (2 ^ k.DISPATCHER_FRAME_BITS)
    some (f.1, f.2.2.1, { f.2.2.2 with si := { f.2.2.2.si with dispframe := f.2.1 } })) w)
    fun retsize w =>
  flow.bind (CHECK (fun w => some (w.slot_alloc e)) w) fun my_dispframe w =>
  flow.bind (CHECK (fun w =>
    let cc := w.call e (SCall.cap_copy my_dispframe w.si.dispframe)
    some (cc.1, (), cc.2)) w) fun _ w =>
  if ¬ 2 ^ k.DISPATCHER_FRAME_BITS ≤ retsize then none
  else
    flow.bind (CHECK (fun w =>
      match paging_map_frame e.pk w.current retsize my_dispframe.id with
      | none => none
      | some m => some (m.1, m.2.1.getD 0, { w with current := m.2.2 })) w)
      fun disp_addr_in_me w =>
    let w := { w with si := { w.si with disp_handle := disp_addr_in_me } }
    flow.bind (CHECK (fun w =>
      match paging_map_frame e.pk w.si.pg_state retsize w.si.dispframe.id with
      | none => none
      | some c => some (c.1, c.2.1.getD 0, { w with si := { w.si with pg_state := c.2.2 } })) w)
      fun disp_addr_in_child w =>
    let w := { w with disp := setup_dispatcher_fields k w.si disp_addr_in_child w.disp }
    some (Paging.errval_t.SYS_ERR_OK, w)

/-- The first part of `setup_args`: the args frame is allocated, copied and
mapped into both address spaces.  When all five calls succeed the result is
`flow.go` with `args_addr_in_me` and `args_addr_in_child`. -/
def setup_args_frames (e : Env) (w : world) : Option (flow (Nat × Nat)) :=
  flow.chain (CHECK (fun w =>
    let f := w.frame_alloc e Paging.BASE_PAGE_SIZE
    some (f.1, f.2.2.1, { f.2.2.2 with si := { f.2.2.2.si with argspg := f.2.1 } })) w)
    fun retsize w =>
  flow.chain (CHECK (fun w => some (w.slot_alloc e)) w) fun my_argsframe w =>
  flow.chain (CHECK (fun w =>
    let cc := w.call e (SCall.cap_copy my_argsframe w.si.argspg)
    some (cc.1, (), cc.2)) w) fun _ w =>
  flow.chain (CHECK (fun w =>
    match paging_map_frame e.pk w.current retsize my_argsframe.id with
    | none => none
    | some m => some (m.1, m.2.1.getD 0, { w with current := m.2.2 })) w)
    fun args_addr_in_me w =>
  flow.chain (CHECK (fun w =>
    match paging_map_frame e.pk w.si.pg_state retsize w.si.argspg.id with
    | none => none
    | some c => some (c.1, c.2.1.getD 0, { w with si := { w.si with pg_state := c.2.2 } })) w)
    fun args_addr_in_child w =>
  some (flow.go (args_addr_in_me, args_addr_in_child) w)

/-- The `for` loop of `setup_args` over the entries of `argv` before the
first `NULL`; the result holds the final `args_offset`.  The pointer sums and
`args_offset` are 32-bit values.  The memory is flat: a store at an address
outside the mapped frame is a store to that address. -/
def setup_args_loop (args_addr_in_me args_addr_in_child : Nat) :
    List (List Nat) → Nat → Nat → world → Nat × world
  | [], _, args_offset, w => (args_offset, w)
  | s :: rest, i, args_offset, w =>
    let entry := Function.update w.params_argv i
      (Paging.add32 args_addr_in_child args_offset)
    let w := { w with params_argv := entry }
    let w := { w with mem := strcpy w.mem (Paging.add32 args_addr_in_me args_offset) s }
    setup_args_loop args_addr_in_me args_addr_in_child rest (i + 1)
      (Paging.add32 args_offset (strlen s 0 + 1)) w

/-- The second part of `setup_args`, from `memset` on.  `memset` clears
`sizeof(params)` bytes, the size of a pointer, which cover `params->argc`. -/
def setup_args_fill (k : consts) (w : world) (args_addr_in_me args_addr_in_child : Nat)
    (argv : List (List Nat)) (argc : Int) : Paging.errval_t × world :=
  let w := { w with params_argc := 0 }
  let w := { w with params_argc := argc }
  if ¬ w.params_argc ≤ (k.MAX_CMDLINE_ARGS : Int) then (Paging.errval_t.SPAWN_ERR_LOAD, w)
  else
    let args_offset := ROUND_UP k.sizeof_spawn_domain_params 4
    let r := setup_args_loop args_addr_in_me args_addr_in_child argv 0 args_offset w
    let w := { r.2 with mem := Function.update r.2.mem (Paging.add32 args_addr_in_me r.1) 0 }
    (Paging.errval_t.SYS_ERR_OK, w)

/-- The C `setup_args`; `argv` lists the strings that the entries of the
array before its first `NULL` point to. -/
def setup_args (k : consts) (e : Env) (w : world) (argv : List (List Nat)) (argc : Int) :
    Option (Paging.errval_t × world) :=
  flow.bind (setup_args_frames e w) fun addrs w =>
  some (setup_args_fill k w addrs.1 addrs.2 argv argc)

/-- A cleared `struct spawninfo`, as `memset(si, 0, sizeof(*si))` leaves it.
The node memory and the call history of the child's paging state are not part
of the structure and are kept. -/
def spawninfo.cleared (si : spawninfo) : spawninfo :=
  { binary_name := [], l1_cap := ⟨0, 0⟩, l1_cnoderef := 0, taskcn := 0, pagecn := 0,
    base_pagecn := 0, alloc0 := 0, alloc1 := 0, alloc2 := 0, dispatcher := ⟨0, 0⟩,
    rootcn := ⟨0, 0⟩, dispframe := ⟨0, 0⟩, argspg := ⟨0, 0⟩, selfep := ⟨0, 0⟩, ssa := si.ssa,
    ssa_head_slot := 0, ssa_head_space := 0,
    pg_state := { head := none, mem := si.pg_state.mem, slabs := ⟨0, 0⟩, slab_refilling := false,
                  l2_pagetables := fun _ => ⟨false, 0⟩, l1_pagetable := 0, slot_alloc := 0,
                  mapping_cb := none, calls := si.pg_state.calls },
    entry_point := 0, got_ubase := 0, disp_handle := 0 }

/-- The C `spawn_load_by_name`.  `none`: an assertion failed, the `NULL`
pointer was dereferenced or a loop did not finish within its fuel. -/
def spawn_load_by_name (k : consts) (e : Env) (w : world) (binary_name : List Nat) :
    Option (Paging.errval_t × world) :=
  let w := { w with si := w.si.cleared }
  let w := { w with si := { w.si with binary_name := binary_name } }
  let module := e.module binary_name
  let w := (w.call e (SCall.multiboot_find_module binary_name)).2
  match module with
  | none => some (Paging.errval_t.SPAWN_ERR_FIND_MODULE, w)
  | some mrmod_slot =>
    let child_frame : capref := ⟨k.cnode_module, mrmod_slot⟩
    flow.bind (CHECK (fun w =>
      let bytes := e.size w.trace 0
      let fi := w.call e (SCall.frame_identify child_frame)
      some (fi.1, bytes, fi.2)) w) fun bytes w =>
    flow.bind (CHECK (fun w =>
      match paging_map_frame e.pk w.current bytes child_frame.id with
      | none => none
      | some m => some (m.1, m.2.1.getD 0, { w with current := m.2.2 })) w) fun _ w =>
    if ¬ e.is_elf then some (Paging.errval_t.ELF_ERR_HEADER, w)
    else
      let w := setup_cspace k e w
      let w := setup_vspace k e w
      flow.bind (CHECK (fun w =>
        match load_elf_into_memory e w with
        | none => none
        | some l => some (l.1, (), l.2)) w) fun _ w =>
      flow.bind (CHECK (fun w =>
        match setup_dispatcher k e w with
        | none => none
        | some d => some (d.1, (), d.2)) w) fun _ w =>
      match spawn_tokenize_cmdargs (cstr e.opts 0) e.stack (k.MAX_CMDLINE_ARGS + 1) with
      | none => none
      | some t =>
        flow.bind (CHECK (fun w =>
          match setup_args k e w t.2.tokens (t.1 : Int) with
          | none => none
          | some a => some (a.1, (), a.2)) w) fun _ w =>
        flow.bind (CHECK (fun w =>
          let i := w.call e (SCall.invoke_dispatcher w.si.dispatcher k.cap_dispatcher
            w.si.l1_cap w.si.pg_state.l1_pagetable w.si.dispframe true)
          some (i.1, (), i.2)) w) fun _ w =>
        some (Paging.errval_t.SYS_ERR_OK, w)

/-- The offset of the string `argv[i]` in the args frame as the claim gives
it: the size of the header rounded up to a multiple of 4, plus the lengths of
the strings before it, each with its NUL. -/
def arg_offset (k : consts) (argv : List (List Nat)) (i : Nat) : Nat :=
  ROUND_UP k.sizeof_spawn_domain_params 4 + ((argv.take i).map (fun s => strlen s 0 + 1)).sum

/-- Values of the constants for the examples. -/
def example_consts : consts :=
  { ROOTCN_SLOT_TASKCN := 0, ROOTCN_SLOT_PAGECN := 1, ROOTCN_SLOT_BASE_PAGE_CN := 2,
    ROOTCN_SLOT_SLOT_ALLOC0 := 3, ROOTCN_SLOT_SLOT_ALLOC1 := 4, ROOTCN_SLOT_SLOT_ALLOC2 := 5,
    TASKCN_SLOT_DISPATCHER := 1, TASKCN_SLOT_ROOTCN := 2, TASKCN_SLOT_DISPFRAME := 4,
    TASKCN_SLOT_ARGSPAGE := 6, L2_CNODE_SLOTS := 256, DISPATCHER_FRAME_BITS := 17,
    DISP_NAME_LEN := 16, MAX_CMDLINE_ARGS := 128, sizeof_spawn_domain_params := 1062,
    user_cpsr := 80, cnode_module := 9, cap_dispatcher := ⟨8, 1⟩ }

/-- An environment in which every external call succeeds: fresh slots and
CNode references are numbered by the length of the history, frames have the
requested size rounded up to pages, the image has one section at `0x400000`,
and the command line is `hello a "b c"`. -/
def ok_env : Env :=
  { ret := fun _ _ => Paging.errval_t.SYS_ERR_OK,
    cap := fun h => ⟨7, 100 + h.length⟩,
    cnode := fun h => 200 + h.length,
    size := fun _ b => if b = 0 then 4096 else ROUND_UP b 4096,
    module := fun _ => some 3,
    opts := bytes "hello a " ++ [34] ++ bytes "b c" ++ [34],
    is_elf := true,
    sections := [(0x400000, 0x1000, 3)],
    entry := 0x400100, got := 0x400800, uninit := 0, stack := fun _ => some 57005,
    pk := Paging.ok_kernel }

/-- A world for the examples: the spawning domain has the paging state after
`paging_init_state` at `0x40000000`, the child the one after
`paging_init_state` at `0`. -/
def example_world : world :=
  { trace := [], current := Paging.init_state,
    si := { binary_name := [], l1_cap := ⟨0, 0⟩, l1_cnoderef := 0, taskcn := 0, pagecn := 0,
            base_pagecn := 0, alloc0 := 0, alloc1 := 0, alloc2 := 0, dispatcher := ⟨0, 0⟩,
            rootcn := ⟨0, 0⟩, dispframe := ⟨0, 0⟩, argspg := ⟨0, 0⟩, selfep := ⟨0, 0⟩, ssa := 2,
            ssa_head_slot := 0, ssa_head_space := 0,
            pg_state := (Paging.paging_init_state Paging.blank_state 0 1 2).2,
            entry_point := 0, got_ubase := 0, disp_handle := 0 },
    mem := fun _ => 170, params_argc := 0, params_argv := fun _ => 0,
    disp := ⟨0, 0, 0, 0, [], 0, 0, 0, 0, 0, 0, 0, 0, 0, 0⟩ }

/-- The world of the examples after the first part of `setup_args`. -/
def example_args_world : world :=
  match setup_args_frames ok_env example_world with
  | some (flow.go _ w) => w
  | _ => example_world

/-- The call is a `cap_copy`. -/
def SCall.is_cap_copy : SCall → Bool
  | SCall.cap_copy _ _ => true
  | _ => false

/-- The environment `ok_env` with one failure: the first `cap_copy` of the
run, which is the copy of the L1 CNode capability into the child's task CNode
in `setup_cspace`, returns an error. -/
def copy_fails_env : Env :=
  { ok_env with ret := fun h c =>
      if c.is_cap_copy ∧ ¬ h.any SCall.is_cap_copy then Paging.errval_t.KERNEL_ERR 1
      else Paging.errval_t.SYS_ERR_OK }

/-- An argument string of 4096 bytes `a`. -/
def long_arg : List Nat := List.replicate 4096 97

end Spawn

/-! ## Theorems -/

namespace Paging

open paging_node_type errval_t


/-! ### Doubly linked chains -/

theorem chain_congr {mem mem2 : Nat → paging_node} :
    ∀ (L : List Nat) (prv cur : Option Nat),
      (∀ p ∈ L, (mem2 p).prev = (mem p).prev ∧ (mem2 p).next = (mem p).next) →
      chain mem prv cur L → chain mem2 prv cur L
  | [], _, _, _, h => h
  | p :: ps, prv, cur, hm, h => by
    obtain ⟨h1, h2, h3⟩ := h
    have hp := hm p (List.mem_cons_self _ _)
    refine ⟨h1, by rw [hp.1]; exact h2, ?_⟩
    rw [hp.2]
    exact chain_congr ps _ _ (fun q hq => hm q (List.mem_cons_of_mem _ hq)) h3

theorem walk_of_chain {mem : Nat → paging_node} :
    ∀ (L : List Nat) (prv cur : Option Nat) (fuel : Nat),
      chain mem prv cur L → L.length ≤ fuel → walk mem fuel cur = L
  | [], _, cur, fuel, h, _ => by
    have hc : cur = none := h
    subst hc
    cases fuel <;> rfl
  | p :: ps, prv, cur, fuel, h, hl => by
    obtain ⟨h1, _, h3⟩ := h
    subst h1
    cases fuel with
    | zero => simp at hl
    | succ f =>
      have hl2 : ps.length ≤ f := by simpa using hl
      simp [walk, walk_of_chain ps _ _ f h3 hl2]

theorem nodup_bounded_length {L : List Nat} {n : Nat} (hn : L.Nodup)
    (hb : ∀ p ∈ L, p < n) : L.length ≤ n := by
  have hsub : L ⊆ List.range n := fun p hp => List.mem_range.mpr (hb p hp)
  have := (List.subperm_of_subset hn hsub).length_le
  simpa using this

theorem IsList.node_ptrs_eq {st : paging_state} {L : List Nat} (h : IsList st L) :
    node_ptrs st = L :=
  walk_of_chain L _ _ _ h.1 (nodup_bounded_length h.2.1 h.2.2)

theorem IsList.links_ok {st : paging_state} {L : List Nat} (h : IsList st L) :
    links_ok st := by
  unfold Paging.links_ok
  rw [h.node_ptrs_eq]
  exact h

theorem IsList.regions_eq {st : paging_state} {L : List Nat} (h : IsList st L) :
    regions st = L.map (region_at st.mem) := by
  unfold regions
  rw [h.node_ptrs_eq]

/-- In a chain, the successor of a node points back to it. -/
theorem chain_next_prev {mem : Nat → paging_node} :
    ∀ (L : List Nat) (prv cur : Option Nat) (x y : Nat),
      chain mem prv cur L → x ∈ L → (mem x).next = some y → (mem y).prev = some x ∧ y ∈ L
  | [], _, _, _, _, _, hx, _ => by simp at hx
  | p :: ps, prv, cur, x, y, h, hx, hn => by
    obtain ⟨_, _, h3⟩ := h
    rcases List.mem_cons.mp hx with rfl | hx2
    · cases ps with
      | nil =>
        have : (mem x).next = none := h3
        rw [this] at hn
        cases hn
      | cons n rest =>
        obtain ⟨e1, e2, _⟩ := h3
        rw [hn] at e1
        cases e1
        exact ⟨e2, by simp⟩
    · have := chain_next_prev ps _ _ x y h3 hx2 hn
      exact ⟨this.1, List.mem_cons_of_mem _ this.2⟩

/-- In a chain, the predecessor named by `prev` is in the chain and points
forward to the node, unless the node is the first one. -/
theorem chain_prev_next {mem : Nat → paging_node} :
    ∀ (L : List Nat) (prv cur : Option Nat) (x a : Nat),
      chain mem prv cur L → x ∈ L → (mem x).prev = some a →
      (a ∈ L ∧ (mem a).next = some x) ∨ (L.head? = some x ∧ prv = some a)
  | [], _, _, _, _, _, hx, _ => by simp at hx
  | p :: ps, prv, cur, x, a, h, hx, hp => by
    obtain ⟨_, h2, h3⟩ := h
    rcases List.mem_cons.mp hx with rfl | hx2
    · right
      exact ⟨rfl, by rw [← h2, hp]⟩
    · left
      rcases chain_prev_next ps _ _ x a h3 hx2 hp with ⟨ha, hn⟩ | ⟨hh, hq⟩
      · exact ⟨List.mem_cons_of_mem _ ha, hn⟩
      · cases hq
        refine ⟨List.mem_cons_self _ _, ?_⟩
        cases ps with
        | nil => simp at hh
        | cons n rest =>
          simp at hh
          subst hh
          exact h3.1

/-- Linking a new node `q` right after `p` turns the chain `pre ++ p :: post`
into `pre ++ p :: q :: post`. -/
theorem chain_insert_after {mem mem2 : Nat → paging_node} (p q : Nat) (post : List Nat) :
    ∀ (pre : List Nat) (prv cur : Option Nat),
      (pre ++ p :: post).Nodup →
      (∀ x ∈ pre ++ p :: post, x ≠ p → post.head? ≠ some x →
        (mem2 x).prev = (mem x).prev ∧ (mem2 x).next = (mem x).next) →
      (mem2 p).prev = (mem p).prev → (mem2 p).next = some q →
      (mem2 q).prev = some p → (mem2 q).next = (mem p).next →
      (∀ n, post.head? = some n → (mem2 n).prev = some q ∧ (mem2 n).next = (mem n).next) →
      chain mem prv cur (pre ++ p :: post) →
      chain mem2 prv cur (pre ++ p :: q :: post)
  | [], prv, cur, hnd, hfr, hpp, hpn, hqp, hqn, hnx, h => by
    obtain ⟨h1, h2, h3⟩ := h
    refine ⟨h1, by rw [hpp]; exact h2, ?_⟩
    rw [hpn]
    refine ⟨rfl, hqp, ?_⟩
    rw [hqn]
    cases post with
    | nil => exact h3
    | cons n rest =>
      obtain ⟨e1, _, e3⟩ := h3
      have hn := hnx n rfl
      refine ⟨e1, hn.1, ?_⟩
      rw [hn.2]
      have hnd2 : (p :: n :: rest).Nodup := by simpa using hnd
      refine chain_congr rest _ _ (fun x hx => ?_) e3
      have hxp : x ≠ p := by
        rintro rfl
        simp [hx] at hnd2
      have hxn : x ≠ n := by
        rintro rfl
        simp [hx] at hnd2
      exact hfr x (by simp [hx]) hxp (by simpa using Ne.symm hxn)
  | a :: pre, prv, cur, hnd, hfr, hpp, hpn, hqp, hqn, hnx, h => by
    obtain ⟨h1, h2, h3⟩ := h
    have hnd2 : a ∉ pre ++ p :: post ∧ (pre ++ p :: post).Nodup := by simpa using hnd
    have hap : a ≠ p := by
      rintro rfl
      exact hnd2.1 (by simp)
    have hah : post.head? ≠ some a := by
      intro hh
      cases post with
      | nil => simp at hh
      | cons n rest =>
        simp at hh
        subst hh
        exact hnd2.1 (by simp)
    have ha := hfr a (by simp) hap hah
    refine ⟨h1, by rw [ha.1]; exact h2, ?_⟩
    rw [ha.2]
    exact chain_insert_after p q post pre _ _ hnd2.2
      (fun x hx => hfr x (List.mem_cons_of_mem _ hx)) hpp hpn hqp hqn hnx h3

/-- Linking a new node `q` right before `p` turns the chain `pre ++ p :: post`
into `pre ++ q :: p :: post`; the start pointer moves to `q` when it was `p`. -/
theorem chain_insert_before {mem mem2 : Nat → paging_node} (p q : Nat) (post : List Nat) :
    ∀ (pre : List Nat) (prv cur : Option Nat),
      (pre ++ p :: post).Nodup →
      (∀ x ∈ pre ++ p :: post, x ≠ p → (mem x).next ≠ some p →
        (mem2 x).prev = (mem x).prev ∧ (mem2 x).next = (mem x).next) →
      (mem2 q).prev = (mem p).prev → (mem2 q).next = some p →
      (mem2 p).prev = some q → (mem2 p).next = (mem p).next →
      (∀ a ∈ pre ++ p :: post, (mem a).next = some p →
        (mem2 a).next = some q ∧ (mem2 a).prev = (mem a).prev) →
      chain mem prv cur (pre ++ p :: post) →
      chain mem2 prv (if cur = some p then some q else cur) (pre ++ q :: p :: post)
  | [], prv, cur, hnd, hfr, hqp, hqn, hpp, hpn, _, h => by
    obtain ⟨h1, h2, h3⟩ := h
    subst h1
    simp only [if_true, List.nil_append]
    refine ⟨rfl, by rw [hqp]; exact h2, ?_⟩
    rw [hqn]
    refine ⟨rfl, hpp, ?_⟩
    rw [hpn]
    have hnd2 : p ∉ post ∧ post.Nodup := by simpa using hnd
    refine chain_congr post _ _ (fun x hx => ?_) h3
    have hxp : x ≠ p := by
      rintro rfl
      exact hnd2.1 hx
    refine hfr x (by simp [hx]) hxp (fun hn => ?_)
    have := (chain_next_prev post _ _ x p h3 hx hn).2
    exact hnd2.1 this
  | a :: pre, prv, cur, hnd, hfr, hqp, hqn, hpp, hpn, hpred, h => by
    obtain ⟨h1, h2, h3⟩ := h
    subst h1
    have hnd2 : a ∉ pre ++ p :: post ∧ (pre ++ p :: post).Nodup := by simpa using hnd
    have hap : a ≠ p := by
      rintro rfl
      exact hnd2.1 (by simp)
    have hcur : (if some a = some p then some q else some a) = some a := by
      simp [hap]
    rw [hcur]
    have ih := chain_insert_before p q post pre (some a) (mem a).next hnd2.2
      (fun x hx => hfr x (List.mem_cons_of_mem _ hx)) hqp hqn hpp hpn
      (fun x hx => hpred x (List.mem_cons_of_mem _ hx)) h3
    by_cases hn : (mem a).next = some p
    · have ha := hpred a (by simp) hn
      refine ⟨rfl, by rw [ha.2]; exact h2, ?_⟩
      rw [ha.1]
      simpa [hn] using ih
    · have ha := hfr a (by simp) hap hn
      refine ⟨rfl, by rw [ha.1]; exact h2, ?_⟩
      rw [ha.2]
      simpa [hn] using ih

/-- In a chain, the `next` field of a node is the head of what follows it. -/
theorem chain_next_head {mem : Nat → paging_node} (p : Nat) (post : List Nat) :
    ∀ (pre : List Nat) (prv cur : Option Nat),
      chain mem prv cur (pre ++ p :: post) → (mem p).next = post.head?
  | [], _, _, h => by
    obtain ⟨_, _, h3⟩ := h
    cases post with
    | nil => exact h3
    | cons n rest => exact h3.1
  | _ :: pre, _, _, h => chain_next_head p post pre _ _ h.2.2

theorem IsList.insert_after {st st2 : paging_state} {pre post : List Nat} {p : Nat}
    (h : IsList st (pre ++ p :: post))
    (hhead : st2.head = st.head) (hcur : st2.slabs.cursor = st.slabs.cursor + 1)
    (hpp : (st2.mem p).prev = (st.mem p).prev)
    (hpn : (st2.mem p).next = some st.slabs.cursor)
    (hqp : (st2.mem st.slabs.cursor).prev = some p)
    (hqn : (st2.mem st.slabs.cursor).next = (st.mem p).next)
    (hn : ∀ n, (st.mem p).next = some n → n ≠ p → n ≠ st.slabs.cursor →
      (st2.mem n).prev = some st.slabs.cursor ∧ (st2.mem n).next = (st.mem n).next)
    (hx : ∀ x, x ≠ p → x ≠ st.slabs.cursor → (st.mem p).next ≠ some x →
      (st2.mem x).prev = (st.mem x).prev ∧ (st2.mem x).next = (st.mem x).next) :
    IsList st2 (pre ++ p :: st.slabs.cursor :: post) := by
  obtain ⟨hc, hnd, hb⟩ := h
  have hnext := chain_next_head p post pre _ _ hc
  have hfresh : ∀ x ∈ pre ++ p :: post, x ≠ st.slabs.cursor := fun x hx2 =>
    Nat.ne_of_lt (hb x hx2)
  refine ⟨?_, ?_, ?_⟩
  · rw [hhead]
    refine chain_insert_after p st.slabs.cursor post pre _ _ hnd ?_ hpp hpn hqp hqn ?_ hc
    · intro x hx2 hxp hxh
      exact hx x hxp (hfresh x hx2) (by rw [hnext]; exact hxh)
    · intro n hnh
      have hmem : n ∈ pre ++ p :: post := by
        cases post with
        | nil => simp at hnh
        | cons m rest =>
          simp at hnh
          subst hnh
          simp
      have hnp : n ≠ p := by
        rintro rfl
        cases post with
        | nil => simp at hnh
        | cons m rest =>
          simp at hnh
          subst hnh
          have : (pre ++ m :: m :: rest).Nodup := hnd
          simp [List.nodup_append] at this
      exact hn n (by rw [hnext]; exact hnh) hnp (hfresh n hmem)
  · have hq : st.slabs.cursor ∉ pre ++ p :: post := fun hm => hfresh _ hm rfl
    have e : pre ++ p :: st.slabs.cursor :: post = (pre ++ [p]) ++ st.slabs.cursor :: post := by
      simp
    have e2 : pre ++ p :: post = (pre ++ [p]) ++ post := by simp
    rw [e]
    rw [e2] at hnd hq
    exact List.nodup_middle.mpr (List.nodup_cons.mpr ⟨hq, hnd⟩)
  · intro x hx2
    rw [hcur]
    have : x = st.slabs.cursor ∨ x ∈ pre ++ p :: post := by
      simp only [List.mem_append, List.mem_cons] at hx2 ⊢
      tauto
    rcases this with rfl | hm
    · exact Nat.lt_succ_self _
    · exact Nat.lt_succ_of_lt (hb x hm)

theorem chain_not_self_next {mem : Nat → paging_node} {pre post : List Nat} {p : Nat}
    {prv cur : Option Nat} (hc : chain mem prv cur (pre ++ p :: post))
    (hnd : (pre ++ p :: post).Nodup) : (mem p).next ≠ some p := by
  intro hn
  have hnext := chain_next_head p post pre _ _ hc
  rw [hn] at hnext
  cases post with
  | nil => simp at hnext
  | cons m rest =>
    simp at hnext
    subst hnext
    simp [List.nodup_append] at hnd

theorem IsList.insert_before {st st2 : paging_state} {pre post : List Nat} {p : Nat}
    (h : IsList st (pre ++ p :: post))
    (hhead : st2.head = if st.head = some p then some st.slabs.cursor else st.head)
    (hcur : st2.slabs.cursor = st.slabs.cursor + 1)
    (hqp : (st2.mem st.slabs.cursor).prev = (st.mem p).prev)
    (hqn : (st2.mem st.slabs.cursor).next = some p)
    (hpp : (st2.mem p).prev = some st.slabs.cursor)
    (hpn : (st2.mem p).next = (st.mem p).next)
    (ha : ∀ a, (st.mem p).prev = some a → a ≠ p → a ≠ st.slabs.cursor →
      (st2.mem a).next = some st.slabs.cursor ∧ (st2.mem a).prev = (st.mem a).prev)
    (hx : ∀ x, x ≠ p → x ≠ st.slabs.cursor → (st.mem p).prev ≠ some x →
      (st2.mem x).prev = (st.mem x).prev ∧ (st2.mem x).next = (st.mem x).next) :
    IsList st2 (pre ++ st.slabs.cursor :: p :: post) := by
  obtain ⟨hc, hnd, hb⟩ := h
  have hfresh : ∀ x ∈ pre ++ p :: post, x ≠ st.slabs.cursor := fun x hx2 =>
    Nat.ne_of_lt (hb x hx2)
  have hpmem : p ∈ pre ++ p :: post := by simp
  refine ⟨?_, ?_, ?_⟩
  · rw [hhead]
    refine chain_insert_before p st.slabs.cursor post pre _ _ hnd ?_ hqp hqn hpp hpn ?_ hc
    · intro x hx2 hxp hxn
      refine hx x hxp (hfresh x hx2) (fun hpx => ?_)
      rcases chain_prev_next _ _ _ p x hc hpmem hpx with ⟨_, hn⟩ | ⟨_, hq⟩
      · exact hxn hn
      · cases hq
    · intro a ha2 han
      have hap : a ≠ p := by
        rintro rfl
        exact chain_not_self_next hc hnd han
      exact ha a (chain_next_prev _ _ _ a p hc ha2 han).1 hap (hfresh a ha2)
  · have hq : st.slabs.cursor ∉ pre ++ p :: post := fun hm => hfresh _ hm rfl
    exact List.nodup_middle.mpr (List.nodup_cons.mpr ⟨hq, hnd⟩)
  · intro x hx2
    rw [hcur]
    have : x = st.slabs.cursor ∨ x ∈ pre ++ p :: post := by
      simp only [List.mem_append, List.mem_cons] at hx2 ⊢
      tauto
    rcases this with rfl | hm
    · exact Nat.lt_succ_self _
    · exact Nat.lt_succ_of_lt (hb x hm)

/-- Writes that leave every link and the head alone keep the list. -/
theorem IsList.of_links {st st2 : paging_state} {L : List Nat} (h : IsList st L)
    (hhead : st2.head = st.head) (hcur : st.slabs.cursor ≤ st2.slabs.cursor)
    (hx : ∀ x ∈ L, (st2.mem x).prev = (st.mem x).prev ∧ (st2.mem x).next = (st.mem x).next) :
    IsList st2 L := by
  obtain ⟨hc, hnd, hb⟩ := h
  refine ⟨?_, hnd, fun x hx2 => Nat.lt_of_lt_of_le (hb x hx2) hcur⟩
  rw [hhead]
  exact chain_congr L _ _ hx hc

/-! ### The straight-line pieces as memory updates -/

theorem same_env.env_refl (st : paging_state) : same_env st st :=
  ⟨rfl, rfl, rfl, rfl, rfl, rfl⟩

theorem same_env.env_trans {a b c : paging_state} (h1 : same_env a b) (h2 : same_env b c) :
    same_env a c := by
  unfold same_env at *
  refine ⟨?_, ?_, ?_, ?_, ?_, ?_⟩
  · rw [h2.1, h1.1]
  · rw [h2.2.1, h1.2.1]
  · rw [h2.2.2.1, h1.2.2.1]
  · rw [h2.2.2.2.1, h1.2.2.2.1]
  · rw [h2.2.2.2.2.1, h1.2.2.2.2.1]
  · rw [h2.2.2.2.2.2, h1.2.2.2.2.2]

theorem paging_alloc_split_mem (st : paging_state) (p bytes : Nat)
    (hpq : p ≠ st.slabs.cursor) (hnp : (st.mem p).next ≠ some p)
    (hnq : (st.mem p).next ≠ some st.slabs.cursor) (x : Nat) :
    (paging_alloc_split st p bytes).mem x =
      if x = p then { st.mem p with next := some st.slabs.cursor, size := bytes }
      else if x = st.slabs.cursor then
        ⟨add32 (st.mem p).base bytes, (st.mem p).size - bytes, NodeType_Free, some p,
          (st.mem p).next⟩
      else if (st.mem p).next = some x then { st.mem x with prev := some st.slabs.cursor }
      else st.mem x := by
  unfold paging_alloc_split slab_alloc
  cases hn : (st.mem p).next with
  | none => simp [Function.update_apply, hpq, hn]
  | some n =>
    have h1 : n ≠ p := fun h => hnp (by rw [hn, h])
    have h2 : n ≠ st.slabs.cursor := fun h => hnq (by rw [hn, h])
    by_cases hxp : x = p
    · subst hxp
      simp [Function.update_apply, hpq, hn, h1, h2, Ne.symm h1, Ne.symm h2, Ne.symm hpq]
    by_cases hxq : x = st.slabs.cursor
    · subst hxq
      simp [Function.update_apply, hpq, hn, h1, h2, Ne.symm h1, Ne.symm h2, Ne.symm hpq, hxp]
    by_cases hxn : x = n
    · subst hxn
      simp [Function.update_apply, hpq, hn, h1, h2, Ne.symm h1, Ne.symm h2, Ne.symm hpq]
    · simp [Function.update_apply, hpq, hn, h1, h2, Ne.symm h1, Ne.symm h2, Ne.symm hpq,
        hxp, hxq, hxn, Ne.symm hxn]

theorem paging_alloc_split_frame (st : paging_state) (p bytes : Nat) :
    (paging_alloc_split st p bytes).head = st.head ∧
    (paging_alloc_split st p bytes).slabs.cursor = st.slabs.cursor + 1 ∧
    same_env st (paging_alloc_split st p bytes) := by
  unfold paging_alloc_split slab_alloc same_env
  cases hn : (st.mem p).next <;> simp [Function.update_apply] <;> split <;> simp_all

theorem paging_map_split_right_mem (st : paging_state) (p vaddr bytes : Nat)
    (hpq : p ≠ st.slabs.cursor) (hnp : (st.mem p).next ≠ some p)
    (hnq : (st.mem p).next ≠ some st.slabs.cursor) (x : Nat) :
    (paging_map_split_right st p vaddr bytes).mem x =
      if x = p then
        { st.mem p with
          next := some st.slabs.cursor,
          size := sub32 (st.mem p).size
            (sub32 (sub32 (st.mem p).size (sub32 vaddr (st.mem p).base)) bytes) }
      else if x = st.slabs.cursor then
        ⟨add32 vaddr bytes, sub32 (sub32 (st.mem p).size (sub32 vaddr (st.mem p).base)) bytes,
          NodeType_Free, some p, (st.mem p).next⟩
      else if (st.mem p).next = some x then { st.mem x with prev := some st.slabs.cursor }
      else st.mem x := by
  unfold paging_map_split_right slab_alloc
  cases hn : (st.mem p).next with
  | none => simp [Function.update_apply, hpq, hn, Ne.symm hpq]
  | some n =>
    have h1 : n ≠ p := fun h => hnp (by rw [hn, h])
    have h2 : n ≠ st.slabs.cursor := fun h => hnq (by rw [hn, h])
    by_cases hxp : x = p
    · subst hxp
      simp [Function.update_apply, hpq, hn, h1, h2, Ne.symm h1, Ne.symm h2, Ne.symm hpq]
    by_cases hxq : x = st.slabs.cursor
    · subst hxq
      simp [Function.update_apply, hpq, hn, h1, h2, Ne.symm h1, Ne.symm h2, Ne.symm hpq, hxp]
    by_cases hxn : x = n
    · subst hxn
      simp [Function.update_apply, hpq, hn, h1, h2, Ne.symm h1, Ne.symm h2, Ne.symm hpq]
    · simp [Function.update_apply, hpq, hn, h1, h2, Ne.symm h1, Ne.symm h2, Ne.symm hpq,
        hxp, hxq, hxn, Ne.symm hxn]

theorem paging_map_split_right_frame (st : paging_state) (p vaddr bytes : Nat) :
    (paging_map_split_right st p vaddr bytes).head = st.head ∧
    (paging_map_split_right st p vaddr bytes).slabs.cursor = st.slabs.cursor + 1 ∧
    same_env st (paging_map_split_right st p vaddr bytes) := by
  unfold paging_map_split_right slab_alloc same_env
  cases hn : (st.mem p).next <;> simp [Function.update_apply] <;> split <;> simp_all

theorem paging_map_split_left_mem (st : paging_state) (p vaddr : Nat)
    (hpq : p ≠ st.slabs.cursor) (hnp : (st.mem p).prev ≠ some p)
    (hnq : (st.mem p).prev ≠ some st.slabs.cursor) (x : Nat) :
    (paging_map_split_left st p vaddr).mem x =
      if x = p then
        { st.mem p with
          prev := some st.slabs.cursor,
          base := vaddr,
          size := sub32 (st.mem p).size (sub32 vaddr (st.mem p).base) }
      else if x = st.slabs.cursor then
        ⟨(st.mem p).base, sub32 vaddr (st.mem p).base, NodeType_Free, (st.mem p).prev, some p⟩
      else if (st.mem p).prev = some x then { st.mem x with next := some st.slabs.cursor }
      else st.mem x := by
  unfold paging_map_split_left slab_alloc
  cases hn : (st.mem p).prev with
  | none =>
    by_cases hh : st.head = some p <;>
      simp [Function.update_apply, hpq, hn, Ne.symm hpq, hh]
  | some n =>
    have h1 : n ≠ p := fun h => hnp (by rw [hn, h])
    have h2 : n ≠ st.slabs.cursor := fun h => hnq (by rw [hn, h])
    by_cases hh : st.head = some p
    · by_cases hxp : x = p
      · subst hxp
        simp [Function.update_apply, hpq, hn, h1, h2, Ne.symm h1, Ne.symm h2, Ne.symm hpq, hh]
      by_cases hxq : x = st.slabs.cursor
      · subst hxq
        simp [Function.update_apply, hpq, hn, h1, h2, Ne.symm h1, Ne.symm h2, Ne.symm hpq,
          hxp, hh]
      by_cases hxn : x = n
      · subst hxn
        simp [Function.update_apply, hpq, hn, h1, h2, Ne.symm h1, Ne.symm h2, Ne.symm hpq, hh]
      · simp [Function.update_apply, hpq, hn, h1, h2, Ne.symm h1, Ne.symm h2, Ne.symm hpq,
          hxp, hxq, hxn, Ne.symm hxn, hh]
    · by_cases hxp : x = p
      · subst hxp
        simp [Function.update_apply, hpq, hn, h1, h2, Ne.symm h1, Ne.symm h2, Ne.symm hpq, hh]
      by_cases hxq : x = st.slabs.cursor
      · subst hxq
        simp [Function.update_apply, hpq, hn, h1, h2, Ne.symm h1, Ne.symm h2, Ne.symm hpq,
          hxp, hh]
      by_cases hxn : x = n
      · subst hxn
        simp [Function.update_apply, hpq, hn, h1, h2, Ne.symm h1, Ne.symm h2, Ne.symm hpq, hh]
      · simp [Function.update_apply, hpq, hn, h1, h2, Ne.symm h1, Ne.symm h2, Ne.symm hpq,
          hxp, hxq, hxn, Ne.symm hxn, hh]

theorem paging_map_split_left_frame (st : paging_state) (p vaddr : Nat) :
    (paging_map_split_left st p vaddr).head
      = (if st.head = some p then some st.slabs.cursor else st.head) ∧
    (paging_map_split_left st p vaddr).slabs.cursor = st.slabs.cursor + 1 ∧
    same_env st (paging_map_split_left st p vaddr) := by
  unfold paging_map_split_left slab_alloc same_env
  dsimp only [paging_state.set_type, paging_state.set_base, paging_state.set_size,
    paging_state.set_next, paging_state.set_prev, paging_state.write]
  split <;> split <;> simp_all

theorem IsList.ne_cursor {st : paging_state} {L : List Nat} (h : IsList st L) {x : Nat}
    (hx : x ∈ L) : x ≠ st.slabs.cursor :=
  Nat.ne_of_lt (h.2.2 x hx)

theorem IsList.next_ne_self {st : paging_state} {pre post : List Nat} {p : Nat}
    (h : IsList st (pre ++ p :: post)) : (st.mem p).next ≠ some p :=
  chain_not_self_next h.1 h.2.1

theorem IsList.next_ne_cursor {st : paging_state} {pre post : List Nat} {p : Nat}
    (h : IsList st (pre ++ p :: post)) : (st.mem p).next ≠ some st.slabs.cursor := by
  intro hn
  have := (chain_next_prev _ _ _ p _ h.1 (by simp) hn).2
  exact h.ne_cursor this rfl

theorem IsList.prev_ne_self {st : paging_state} {pre post : List Nat} {p : Nat}
    (h : IsList st (pre ++ p :: post)) : (st.mem p).prev ≠ some p := by
  intro hp
  rcases chain_prev_next _ _ _ p p h.1 (by simp) hp with ⟨_, hn⟩ | ⟨_, hq⟩
  · exact h.next_ne_self hn
  · cases hq

theorem IsList.prev_ne_cursor {st : paging_state} {pre post : List Nat} {p : Nat}
    (h : IsList st (pre ++ p :: post)) : (st.mem p).prev ≠ some st.slabs.cursor := by
  intro hp
  rcases chain_prev_next _ _ _ p _ h.1 (by simp) hp with ⟨hm, _⟩ | ⟨_, hq⟩
  · exact h.ne_cursor hm rfl
  · cases hq

theorem IsList.ne_of_mem_rest {st : paging_state} {pre post : List Nat} {p x : Nat}
    (h : IsList st (pre ++ p :: post)) (hx : x ∈ pre ++ post) : x ≠ p := by
  rintro rfl
  have hnd := h.2.1
  rw [List.nodup_append] at hnd
  rcases List.mem_append.mp hx with h1 | h2
  · exact hnd.2.2 h1 (List.mem_cons_self _ _)
  · exact (List.nodup_cons.mp hnd.2.1).1 h2

theorem mem_rest_mem {pre post : List Nat} {p x : Nat} (hx : x ∈ pre ++ post) :
    x ∈ pre ++ p :: post := by
  simp only [List.mem_append, List.mem_cons] at hx ⊢
  tauto

/-- Setting the type of a list node keeps the list; only that node's region
changes. -/
theorem IsList.set_type {st : paging_state} {L : List Nat} (h : IsList st L) (p : Nat)
    (t : paging_node_type) : IsList (st.set_type p t) L := by
  refine h.of_links rfl (Nat.le_refl _) (fun x _ => ?_)
  by_cases hx : x = p
  · subst hx; simp
  · simp [Function.update_apply, hx]

theorem paging_alloc_split_spec {st : paging_state} {pre post : List Nat} {p : Nat}
    (bytes : Nat) (h : IsList st (pre ++ p :: post)) :
    IsList (paging_alloc_split st p bytes) (pre ++ p :: st.slabs.cursor :: post) ∧
    region_at (paging_alloc_split st p bytes).mem p
      = ⟨(st.mem p).base, bytes, (st.mem p).type⟩ ∧
    region_at (paging_alloc_split st p bytes).mem st.slabs.cursor
      = ⟨add32 (st.mem p).base bytes, (st.mem p).size - bytes, NodeType_Free⟩ ∧
    (∀ x ∈ pre ++ post, region_at (paging_alloc_split st p bytes).mem x = region_at st.mem x) ∧
    same_env st (paging_alloc_split st p bytes) := by
  have hpq : p ≠ st.slabs.cursor := h.ne_cursor (by simp)
  have hm := paging_alloc_split_mem st p bytes hpq h.next_ne_self h.next_ne_cursor
  have hf := paging_alloc_split_frame st p bytes
  refine ⟨?_, ?_, ?_, ?_, hf.2.2⟩
  · refine h.insert_after hf.1 hf.2.1 ?_ ?_ ?_ ?_ ?_ ?_
    · rw [hm]; simp
    · rw [hm]; simp
    · rw [hm]; simp [Ne.symm hpq]
    · rw [hm]; simp [Ne.symm hpq]
    · intro n hn hnp hnq
      rw [hm]; simp [hnp, hnq, hn]
    · intro x hxp hxq hxn
      rw [hm]; simp [hxp, hxq, hxn]
  · rw [region_at, hm]; simp
  · rw [region_at, hm]; simp [Ne.symm hpq]
  · intro x hx
    have hxp : x ≠ p := h.ne_of_mem_rest hx
    have hxq : x ≠ st.slabs.cursor := h.ne_cursor (mem_rest_mem hx)
    rw [region_at, hm]
    by_cases hn : (st.mem p).next = some x <;> simp [hxp, hxq, hn, region_at]

theorem paging_map_split_right_spec {st : paging_state} {pre post : List Nat} {p : Nat}
    (vaddr bytes : Nat) (h : IsList st (pre ++ p :: post)) :
    IsList (paging_map_split_right st p vaddr bytes) (pre ++ p :: st.slabs.cursor :: post) ∧
    region_at (paging_map_split_right st p vaddr bytes).mem p
      = ⟨(st.mem p).base,
          sub32 (st.mem p).size
            (sub32 (sub32 (st.mem p).size (sub32 vaddr (st.mem p).base)) bytes),
          (st.mem p).type⟩ ∧
    region_at (paging_map_split_right st p vaddr bytes).mem st.slabs.cursor
      = ⟨add32 vaddr bytes, sub32 (sub32 (st.mem p).size (sub32 vaddr (st.mem p).base)) bytes,
          NodeType_Free⟩ ∧
    (∀ x ∈ pre ++ post,
      region_at (paging_map_split_right st p vaddr bytes).mem x = region_at st.mem x) ∧
    same_env st (paging_map_split_right st p vaddr bytes) := by
  have hpq : p ≠ st.slabs.cursor := h.ne_cursor (by simp)
  have hm := paging_map_split_right_mem st p vaddr bytes hpq h.next_ne_self h.next_ne_cursor
  have hf := paging_map_split_right_frame st p vaddr bytes
  refine ⟨?_, ?_, ?_, ?_, hf.2.2⟩
  · refine h.insert_after hf.1 hf.2.1 ?_ ?_ ?_ ?_ ?_ ?_
    · rw [hm]; simp
    · rw [hm]; simp
    · rw [hm]; simp [Ne.symm hpq]
    · rw [hm]; simp [Ne.symm hpq]
    · intro n hn hnp hnq
      rw [hm]; simp [hnp, hnq, hn]
    · intro x hxp hxq hxn
      rw [hm]; simp [hxp, hxq, hxn]
  · rw [region_at, hm]; simp
  · rw [region_at, hm]; simp [Ne.symm hpq]
  · intro x hx
    have hxp : x ≠ p := h.ne_of_mem_rest hx
    have hxq : x ≠ st.slabs.cursor := h.ne_cursor (mem_rest_mem hx)
    rw [region_at, hm]
    by_cases hn : (st.mem p).next = some x <;> simp [hxp, hxq, hn, region_at]

theorem paging_map_split_left_spec {st : paging_state} {pre post : List Nat} {p : Nat}
    (vaddr : Nat) (h : IsList st (pre ++ p :: post)) :
    IsList (paging_map_split_left st p vaddr) (pre ++ st.slabs.cursor :: p :: post) ∧
    region_at (paging_map_split_left st p vaddr).mem p
      = ⟨vaddr, sub32 (st.mem p).size (sub32 vaddr (st.mem p).base), (st.mem p).type⟩ ∧
    region_at (paging_map_split_left st p vaddr).mem st.slabs.cursor
      = ⟨(st.mem p).base, sub32 vaddr (st.mem p).base, NodeType_Free⟩ ∧
    (∀ x ∈ pre ++ post,
      region_at (paging_map_split_left st p vaddr).mem x = region_at st.mem x) ∧
    same_env st (paging_map_split_left st p vaddr) := by
  have hpq : p ≠ st.slabs.cursor := h.ne_cursor (by simp)
  have hm := paging_map_split_left_mem st p vaddr hpq h.prev_ne_self h.prev_ne_cursor
  have hf := paging_map_split_left_frame st p vaddr
  refine ⟨?_, ?_, ?_, ?_, hf.2.2⟩
  · refine h.insert_before hf.1 hf.2.1 ?_ ?_ ?_ ?_ ?_ ?_
    · rw [hm]; simp [Ne.symm hpq]
    · rw [hm]; simp [Ne.symm hpq]
    · rw [hm]; simp
    · rw [hm]; simp
    · intro n hn hnp hnq
      rw [hm]; simp [hnp, hnq, hn]
    · intro x hxp hxq hxn
      rw [hm]; simp [hxp, hxq, hxn]
  · rw [region_at, hm]; simp
  · rw [region_at, hm]; simp [Ne.symm hpq]
  · intro x hx
    have hxp : x ≠ p := h.ne_of_mem_rest hx
    have hxq : x ≠ st.slabs.cursor := h.ne_cursor (mem_rest_mem hx)
    rw [region_at, hm]
    by_cases hn : (st.mem p).prev = some x <;> simp [hxp, hxq, hn, region_at]

theorem map_region_rest {m m2 : Nat → paging_node} {pre post : List Nat}
    (h : ∀ x ∈ pre ++ post, region_at m2 x = region_at m x) :
    pre.map (region_at m2) = pre.map (region_at m) ∧
    post.map (region_at m2) = post.map (region_at m) :=
  ⟨List.map_congr_left (fun x hx => h x (List.mem_append_left _ hx)),
   List.map_congr_left (fun x hx => h x (List.mem_append_right _ hx))⟩

theorem region_at_set_type (st : paging_state) (p : Nat) (t : paging_node_type) (x : Nat) :
    region_at (st.set_type p t).mem x =
      if x = p then ⟨(st.mem p).base, (st.mem p).size, t⟩ else region_at st.mem x := by
  by_cases hx : x = p
  · subst hx; simp [region_at]
  · simp [region_at, Function.update_apply, hx]

theorem paging_alloc_claim_spec {st : paging_state} {pre post : List Nat} {p : Nat}
    (bytes : Nat) (h : IsList st (pre ++ p :: post)) :
    (paging_alloc_claim st p bytes).1 = SYS_ERR_OK ∧
    (paging_alloc_claim st p bytes).2.1 = (st.mem p).base ∧
    links_ok (paging_alloc_claim st p bytes).2.2 ∧
    regions (paging_alloc_claim st p bytes).2.2 =
      pre.map (region_at st.mem) ++ claim_region bytes (region_at st.mem p) ++
        post.map (region_at st.mem) ∧
    same_env st (paging_alloc_claim st p bytes).2.2 := by
  have h1 : IsList (st.set_type p NodeType_Claimed) (pre ++ p :: post) := h.set_type p _
  have hr1 : ∀ x ∈ pre ++ post,
      region_at (st.set_type p NodeType_Claimed).mem x = region_at st.mem x := by
    intro x hx
    rw [region_at_set_type, if_neg (h.ne_of_mem_rest hx)]
  have hsz : ((st.set_type p NodeType_Claimed).mem p).size = (st.mem p).size := by simp
  have hbs : ((st.set_type p NodeType_Claimed).mem p).base = (st.mem p).base := by simp
  have hty : ((st.set_type p NodeType_Claimed).mem p).type = NodeType_Claimed := by simp
  have he1 : same_env st (st.set_type p NodeType_Claimed) := ⟨rfl, rfl, rfl, rfl, rfl, rfl⟩
  unfold paging_alloc_claim
  by_cases hlt : bytes < (st.mem p).size
  · have hlt2 : bytes < ((st.set_type p NodeType_Claimed).mem p).size := by rw [hsz]; exact hlt
    simp only [hlt2, if_true]
    obtain ⟨hl, hp, hq, hx, he⟩ := paging_alloc_split_spec bytes h1
    refine ⟨trivial, trivial, hl.links_ok, ?_, he1.env_trans he⟩
    rw [hl.regions_eq]
    have hrest := map_region_rest (fun x hx2 => (hx x hx2).trans (hr1 x hx2))
    simp only [List.map_append, List.map_cons, hp, hq, hrest.1, hrest.2, hbs, hsz, hty]
    simp [claim_region, region_at, hlt]
  · have hlt2 : ¬ bytes < ((st.set_type p NodeType_Claimed).mem p).size := by rw [hsz]; exact hlt
    simp only [hlt2, if_false]
    refine ⟨trivial, trivial, h1.links_ok, ?_, he1⟩
    rw [h1.regions_eq]
    have hrest := map_region_rest hr1
    simp only [List.map_append, List.map_cons, hrest.1, hrest.2]
    simp [claim_region, region_at, hlt]

theorem paging_map_split_spec {st : paging_state} {pre post : List Nat} {p : Nat}
    (vaddr bytes : Nat) (h : IsList st (pre ++ p :: post)) :
    links_ok (paging_map_split st p vaddr bytes) ∧
    regions (paging_map_split st p vaddr bytes) =
      pre.map (region_at st.mem) ++ split_region vaddr bytes (region_at st.mem p) ++
        post.map (region_at st.mem) ∧
    same_env st (paging_map_split st p vaddr bytes) := by
  have h1 : IsList (st.set_type p NodeType_Allocated) (pre ++ p :: post) := h.set_type p _
  have hr1 : ∀ x ∈ pre ++ post,
      region_at (st.set_type p NodeType_Allocated).mem x = region_at st.mem x := by
    intro x hx
    rw [region_at_set_type, if_neg (h.ne_of_mem_rest hx)]
  have hsz : ((st.set_type p NodeType_Allocated).mem p).size = (st.mem p).size := by simp
  have hbs : ((st.set_type p NodeType_Allocated).mem p).base = (st.mem p).base := by simp
  have hty : ((st.set_type p NodeType_Allocated).mem p).type = NodeType_Allocated := by simp
  have he1 : same_env st (st.set_type p NodeType_Allocated) := ⟨rfl, rfl, rfl, rfl, rfl, rfl⟩
  unfold paging_map_split
  simp only [hsz, hbs]
  by_cases hR : add32 vaddr bytes < add32 (st.mem p).base (st.mem p).size
  · simp only [hR, if_true]
    obtain ⟨hl, hp, hq, hx, he⟩ := paging_map_split_right_spec vaddr bytes h1
    have hb2 : ((paging_map_split_right (st.set_type p NodeType_Allocated) p vaddr bytes).mem
        p).base = (st.mem p).base := by
      have := congrArg region.base hp
      simpa [region_at] using this
    rw [hb2]
    by_cases hL : (st.mem p).base < vaddr
    · simp only [hL, if_true]
      obtain ⟨hl2, hp2, hq2, hx2, he2⟩ := paging_map_split_left_spec vaddr hl
      refine ⟨hl2.links_ok, ?_, (he1.env_trans he).env_trans he2⟩
      rw [hl2.regions_eq]
      have hx3 : ∀ x ∈ pre ++ post,
          region_at (paging_map_split_left
            (paging_map_split_right (st.set_type p NodeType_Allocated) p vaddr bytes)
              p vaddr).mem x = region_at st.mem x := by
        intro x hxm
        have hxm2 : x ∈ pre ++ (st.set_type p NodeType_Allocated).slabs.cursor :: post := by
          simp only [List.mem_append, List.mem_cons] at hxm ⊢
          tauto
        rw [hx2 x hxm2, hx x hxm, hr1 x hxm]
      have hq3 := hx2 (st.set_type p NodeType_Allocated).slabs.cursor (by simp)
      have hrest := map_region_rest hx3
      have hp3 : region_at (paging_map_split_right (st.set_type p NodeType_Allocated)
          p vaddr bytes).mem p = ⟨(st.mem p).base,
            sub32 (st.mem p).size
              (sub32 (sub32 (st.mem p).size (sub32 vaddr (st.mem p).base)) bytes),
            NodeType_Allocated⟩ := by
        rw [hp, hsz, hbs, hty]
      have hs2 := congrArg region.size hp3
      have ht2 := congrArg region.type hp3
      simp only [region_at] at hs2 ht2
      simp only [List.map_append, List.map_cons, hp2, hq2, hq3, hq, hrest.1, hrest.2, hb2,
        hs2, ht2, hsz, hbs]
      simp [split_region, region_at, hR, hL]
    · simp only [hL, if_false]
      refine ⟨hl.links_ok, ?_, he1.env_trans he⟩
      rw [hl.regions_eq]
      have hrest := map_region_rest (fun x hxm => (hx x hxm).trans (hr1 x hxm))
      simp only [List.map_append, List.map_cons, hp, hq, hrest.1, hrest.2, hsz, hbs, hty]
      simp [split_region, region_at, hR, hL]
  · simp only [hR, if_false, hbs]
    by_cases hL : (st.mem p).base < vaddr
    · simp only [hL, if_true]
      obtain ⟨hl2, hp2, hq2, hx2, he2⟩ := paging_map_split_left_spec vaddr h1
      refine ⟨hl2.links_ok, ?_, he1.env_trans he2⟩
      rw [hl2.regions_eq]
      have hrest := map_region_rest (fun x hxm => (hx2 x hxm).trans (hr1 x hxm))
      simp only [List.map_append, List.map_cons, hp2, hq2, hrest.1, hrest.2, hsz, hbs, hty]
      simp [split_region, region_at, hR, hL]
    · simp only [hL, if_false]
      refine ⟨h1.links_ok, ?_, he1⟩
      rw [h1.regions_eq]
      have hrest := map_region_rest hr1
      simp only [List.map_append, List.map_cons, hrest.1, hrest.2]
      simp [split_region, region_at, hR, hL]

/-! ### The walk of `paging_alloc` -/

theorem paging_alloc_loop_spec (st : paging_state) (bytes : Nat) :
    ∀ (rest pre : List Nat) (prv cur : Option Nat) (fuel : Nat),
      IsList st (pre ++ rest) → chain st.mem prv cur rest → rest.length < fuel →
      ∃ res, paging_alloc_loop st bytes fuel cur = some res ∧
        ((alloc_regions bytes (rest.map (region_at st.mem)) = none ∧
            res = (LIB_ERR_VREGION_NOT_FOUND, 0, st)) ∨
         (∃ b rs, alloc_regions bytes (rest.map (region_at st.mem)) = some (b, rs) ∧
            res.1 = SYS_ERR_OK ∧ res.2.1 = b ∧ links_ok res.2.2 ∧
            regions res.2.2 = pre.map (region_at st.mem) ++ rs ∧ same_env st res.2.2))
  | [], pre, prv, cur, fuel, _, hc, hf => by
    have hcur : cur = none := hc
    subst hcur
    cases fuel with
    | zero => simp at hf
    | succ f => exact ⟨_, rfl, Or.inl ⟨rfl, rfl⟩⟩
  | p :: ps, pre, prv, cur, fuel, hl, hc, hf => by
    obtain ⟨h1, _, h3⟩ := hc
    subst h1
    cases fuel with
    | zero => simp at hf
    | succ f =>
      have hf2 : ps.length < f := by simpa using hf
      by_cases hcond : (st.mem p).type = NodeType_Free ∧ bytes ≤ (st.mem p).size
      · obtain ⟨e1, e2, e3, e4, e5⟩ := paging_alloc_claim_spec bytes hl
        refine ⟨paging_alloc_claim st p bytes, by simp [paging_alloc_loop, hcond], Or.inr ?_⟩
        refine ⟨(st.mem p).base, claim_region bytes (region_at st.mem p) ++
          ps.map (region_at st.mem), ?_, e1, e2, e3, ?_, e5⟩
        · have : (region_at st.mem p).type = NodeType_Free ∧ bytes ≤ (region_at st.mem p).size :=
            hcond
          simp [alloc_regions, this]
          rfl
        · rw [e4]; simp
      · have hl2 : IsList st ((pre ++ [p]) ++ ps) := by simpa using hl
        obtain ⟨res, hres, hcase⟩ := paging_alloc_loop_spec st bytes ps (pre ++ [p]) _ _ f hl2 h3 hf2
        refine ⟨res, by simp [paging_alloc_loop, hcond, hres], ?_⟩
        have hcond2 : ¬ ((region_at st.mem p).type = NodeType_Free ∧
            bytes ≤ (region_at st.mem p).size) := hcond
        rcases hcase with ⟨hn, hr⟩ | ⟨b, rs, hs, e1, e2, e3, e4, e5⟩
        · left
          exact ⟨by simp [alloc_regions, hcond2, hn], hr⟩
        · right
          refine ⟨b, region_at st.mem p :: rs, by simp [alloc_regions, hcond2, hs], e1, e2, e3,
            ?_, e5⟩
          rw [e4]; simp

/-- On a proper list `paging_alloc` returns, and it does what `alloc_regions`
says to the region list. -/
theorem paging_alloc_spec {st : paging_state} (bytes : Nat) (h : links_ok st) :
    ∃ res, paging_alloc st bytes = some res ∧
      ((alloc_regions bytes (regions st) = none ∧
          res = (LIB_ERR_VREGION_NOT_FOUND, 0, st)) ∨
       (∃ b rs, alloc_regions bytes (regions st) = some (b, rs) ∧
          res.1 = SYS_ERR_OK ∧ res.2.1 = b ∧ links_ok res.2.2 ∧
          regions res.2.2 = rs ∧ same_env st res.2.2)) := by
  have hl : IsList st ([] ++ node_ptrs st) := h
  have hlen : (node_ptrs st).length < st.slabs.cursor + 1 :=
    Nat.lt_succ_of_le (nodup_bounded_length h.2.1 h.2.2)
  have := paging_alloc_loop_spec st bytes (node_ptrs st) [] none st.head _ hl h.1 hlen
  simpa [paging_alloc, regions] using this

/-! ### The mapping loop -/

theorem ext_step.step_refl (st : paging_state) : ext_step st st :=
  ⟨rfl, rfl, rfl, rfl, rfl, rfl, rfl, [], by simp⟩

theorem ext_step.step_trans {a b c : paging_state} (h1 : ext_step a b) (h2 : ext_step b c) :
    ext_step a c := by
  unfold ext_step at *
  obtain ⟨n1, hn1⟩ := h1.2.2.2.2.2.2.2
  obtain ⟨n2, hn2⟩ := h2.2.2.2.2.2.2.2
  refine ⟨?_, ?_, ?_, ?_, ?_, ?_, ?_, n1 ++ n2, ?_⟩
  · rw [h2.1, h1.1]
  · rw [h2.2.1, h1.2.1]
  · rw [h2.2.2.1, h1.2.2.1]
  · rw [h2.2.2.2.1, h1.2.2.2.1]
  · rw [h2.2.2.2.2.1, h1.2.2.2.2.1]
  · rw [h2.2.2.2.2.2.1, h1.2.2.2.2.2.1]
  · rw [h2.2.2.2.2.2.2.1, h1.2.2.2.2.2.2.1]
  · rw [hn2, hn1, List.append_assoc]

theorem ext_step.regions_same {st st2 : paging_state} (h : ext_step st st2) :
    regions st2 = regions st := by
  unfold Paging.regions node_ptrs
  rw [h.1, h.2.1, h.2.2.1]

theorem ext_step.keeps_links {st st2 : paging_state} (h : ext_step st st2) (hl : links_ok st) :
    links_ok st2 := by
  unfold Paging.links_ok IsList node_ptrs at *
  rw [h.1, h.2.1, h.2.2.1]
  exact hl

theorem err_is_fail_false {e : errval_t} : err_is_fail e = false ↔ e = SYS_ERR_OK := by
  simp [err_is_fail]

theorem ext_step_invoke (k : Kernel) (st : paging_state) (c : Call) :
    ext_step st (st.invoke k c).2 :=
  ⟨rfl, rfl, rfl, rfl, rfl, rfl, rfl, [c], rfl⟩

theorem ext_step_slot_alloc_call (k : Kernel) (st : paging_state) :
    ext_step st (slot_alloc_call k st).2.2 :=
  ext_step_invoke k st _

theorem ext_step_cb (k : Kernel) (st : paging_state) (cap : capref) :
    ext_step st (match st.mapping_cb with
      | some _ => st.invoke k (Call.mapping_cb cap)
      | none => (SYS_ERR_OK, st)).2 := by
  cases st.mapping_cb with
  | none => exact ext_step.step_refl st
  | some _ => exact ext_step_invoke k st _

theorem ext_step_arml2_alloc (k : Kernel) (st : paging_state) :
    ext_step st (arml2_alloc k st).2.2 := by
  unfold arml2_alloc
  dsimp only
  have h1 := ext_step_slot_alloc_call k st
  by_cases hf : err_is_fail (slot_alloc_call k st).1 = true
  · rw [if_pos hf]; exact h1
  · rw [if_neg hf]
    have h2 := h1.step_trans (ext_step_invoke k (slot_alloc_call k st).2.2
      (Call.vnode_create (slot_alloc_call k st).2.1 objtype.ObjType_VNode_ARM_l2))
    split <;> exact h2

theorem ext_step_get_l2 (k : Kernel) (st : paging_state) (i : Nat) :
    ext_step st (paging_get_l2 k st i).2.2 := by
  unfold paging_get_l2
  dsimp only
  by_cases h0 : (st.l2_pagetables i).initialized = true
  · rw [if_pos h0]; exact ext_step.step_refl st
  rw [if_neg h0]
  have h1 := ext_step_arml2_alloc k st
  by_cases hf1 : err_is_fail (arml2_alloc k st).1 = true
  · rw [if_pos hf1]; exact h1
  rw [if_neg hf1]
  have h2 := h1.step_trans (ext_step_slot_alloc_call k (arml2_alloc k st).2.2)
  by_cases hf2 : err_is_fail (slot_alloc_call k (arml2_alloc k st).2.2).1 = true
  · rw [if_pos hf2]; exact h2
  rw [if_neg hf2]
  have h3 := h2.step_trans (ext_step_invoke k (slot_alloc_call k (arml2_alloc k st).2.2).2.2
    (Call.vnode_map st.l1_pagetable (arml2_alloc k st).2.1 i VREGION_FLAGS_READ_WRITE 0 1
      (slot_alloc_call k (arml2_alloc k st).2.2).2.1))
  split
  · exact h3
  · have h4 := h3.step_trans (ext_step_cb k _ (slot_alloc_call k (arml2_alloc k st).2.2).2.1)
    split
    · exact h4
    · obtain ⟨a1, a2, a3, a4, a5, a6, a7, a8⟩ := h4
      exact ⟨a1, a2, a3, a4, a5, a6, a7, a8⟩

theorem pages_of_append (frame : capref) :
    ∀ (a b : List Call), pages_of frame (a ++ b) = pages_of frame a + pages_of frame b
  | [], b => by simp [pages_of]
  | c :: cs, b => by
    cases c <;> simp [pages_of, pages_of_append frame cs b, Nat.add_assoc]

theorem ext_step.pages_le {st st2 : paging_state} (h : ext_step st st2) (frame : capref) :
    pages_of frame st.calls ≤ pages_of frame st2.calls := by
  obtain ⟨new, hn⟩ := h.2.2.2.2.2.2.2
  rw [hn, pages_of_append]
  exact Nat.le_add_right _ _

theorem size_to_map_le (vaddr bytes : Nat) : size_to_map vaddr bytes ≤ bytes := by
  unfold size_to_map
  split <;> omega

theorem size_to_map_pos (vaddr bytes : Nat) (h : bytes ≠ 0) : 0 < size_to_map vaddr bytes := by
  unfold size_to_map ARM_L2_MAX_ENTRIES ARM_L2_OFFSET BASE_PAGE_SIZE
  have : vaddr / 2 ^ 12 % 256 < 256 := Nat.mod_lt _ (by norm_num)
  split <;> omega

theorem size_to_map_aligned (vaddr bytes : Nat) (h : bytes % 4096 = 0) :
    size_to_map vaddr bytes % 4096 = 0 := by
  unfold size_to_map BASE_PAGE_SIZE
  split
  · exact h
  · exact Nat.mul_mod_left _ _

theorem paging_map_round_spec (k : Kernel) (frame flags : Nat) (st : paging_state)
    (vaddr bytes mapped : Nat) :
    ext_step st (paging_map_round k frame flags st vaddr bytes mapped).2 ∧
    (err_is_fail (paging_map_round k frame flags st vaddr bytes mapped).1 = false →
      pages_of frame st.calls + size_to_map vaddr bytes / BASE_PAGE_SIZE
        ≤ pages_of frame (paging_map_round k frame flags st vaddr bytes mapped).2.calls) := by
  unfold paging_map_round
  dsimp only
  generalize hgdef : paging_get_l2 k st (ARM_L1_OFFSET vaddr) = g
  have hg : ext_step st g.2.2 := by rw [← hgdef]; exact ext_step_get_l2 k st _
  by_cases hf1 : err_is_fail g.1 = true
  · rw [if_pos hf1]
    exact ⟨hg, fun h => by simp [hf1] at h⟩
  rw [if_neg hf1]
  generalize hsdef : slot_alloc_call k g.2.2 = s
  have hs : ext_step g.2.2 s.2.2 := by rw [← hsdef]; exact ext_step_slot_alloc_call k _
  by_cases hf2 : err_is_fail s.1 = true
  · rw [if_pos hf2]
    exact ⟨hg.step_trans hs, fun h => by simp [hf2] at h⟩
  rw [if_neg hf2]
  generalize hmdef : s.2.2.invoke k (Call.vnode_map g.2.1 frame (ARM_L2_OFFSET vaddr) flags mapped
    (size_to_map vaddr bytes / BASE_PAGE_SIZE) s.2.1) = m
  have hm : ext_step s.2.2 m.2 := by rw [← hmdef]; exact ext_step_invoke k _ _
  have hmp : pages_of frame m.2.calls
      = pages_of frame s.2.2.calls + size_to_map vaddr bytes / BASE_PAGE_SIZE := by
    rw [← hmdef]
    simp [paging_state.invoke, pages_of_append, pages_of]
  have hsm : pages_of frame st.calls + size_to_map vaddr bytes / BASE_PAGE_SIZE
      ≤ pages_of frame m.2.calls := by
    rw [hmp]
    exact Nat.add_le_add_right ((hg.step_trans hs).pages_le frame) _
  by_cases hf3 : err_is_fail m.1 = true
  · rw [if_pos hf3]
    exact ⟨(hg.step_trans hs).step_trans hm, fun h => by simp [hf3] at h⟩
  rw [if_neg hf3]
  generalize hcdef : (match m.2.mapping_cb with
    | some _ => m.2.invoke k (Call.mapping_cb s.2.1)
    | none => (SYS_ERR_OK, m.2)) = c
  have hc : ext_step m.2 c.2 := by rw [← hcdef]; exact ext_step_cb k _ _
  have hall := ((hg.step_trans hs).step_trans hm).step_trans hc
  have hcp := Nat.le_trans hsm (hc.pages_le frame)
  by_cases hf4 : err_is_fail c.1 = true
  · rw [if_pos hf4]
    exact ⟨hall, fun _ => hcp⟩
  · rw [if_neg hf4]
    exact ⟨hall, fun _ => hcp⟩

/-- The mapping loop returns within its fuel; it leaves the region list alone;
when it succeeds no byte is left, and for a page-multiple size the frame
mappings it issued install all its pages. -/
theorem paging_map_pages_spec (k : Kernel) (frame flags : Nat) :
    ∀ (fuel : Nat) (st : paging_state) (vaddr bytes mapped : Nat), bytes ≤ fuel →
      ∃ r, paging_map_pages k frame flags fuel st vaddr bytes mapped = some r ∧
        ext_step st r.st ∧
        (err_is_fail r.err = false → r.bytes = 0 ∧ r.err = SYS_ERR_OK ∧
          (bytes % 4096 = 0 →
            pages_of frame st.calls + bytes / 4096 ≤ pages_of frame r.st.calls)) := by
  intro fuel
  induction fuel with
  | zero =>
    intro st vaddr bytes mapped hb
    have hb0 : bytes = 0 := Nat.le_zero.mp hb
    subst hb0
    refine ⟨⟨SYS_ERR_OK, st, vaddr, 0⟩, by simp [paging_map_pages], ext_step.step_refl st, ?_⟩
    intro _
    exact ⟨rfl, rfl, fun _ => by simp⟩
  | succ f ih =>
    intro st vaddr bytes mapped hb
    by_cases hb0 : bytes = 0
    · subst hb0
      refine ⟨⟨SYS_ERR_OK, st, vaddr, 0⟩, by simp [paging_map_pages], ext_step.step_refl st, ?_⟩
      intro _
      exact ⟨rfl, rfl, fun _ => by simp⟩
    · rw [paging_map_pages]
      simp only [hb0, if_false]
      obtain ⟨hr, hrp⟩ := paging_map_round_spec k frame flags st vaddr bytes mapped
      by_cases hf1 : err_is_fail (paging_map_round k frame flags st vaddr bytes mapped).1 = true
      · rw [if_pos hf1]
        exact ⟨_, rfl, hr, fun h => by simp [hf1] at h⟩
      rw [if_neg hf1]
      have hpos := size_to_map_pos vaddr bytes hb0
      have hle := size_to_map_le vaddr bytes
      obtain ⟨r, hres, hext, hok⟩ := ih (paging_map_round k frame flags st vaddr bytes mapped).2
        (add32 vaddr (size_to_map vaddr bytes)) (bytes - size_to_map vaddr bytes)
        (add32 mapped (size_to_map vaddr bytes)) (by omega)
      refine ⟨r, hres, hr.step_trans hext, fun hfail => ?_⟩
      obtain ⟨h1, h2, h3⟩ := hok hfail
      refine ⟨h1, h2, fun hal => ?_⟩
      have hsa := size_to_map_aligned vaddr bytes hal
      have h4 := h3 (by omega)
      have h5 := hrp (by simpa using hf1)
      unfold BASE_PAGE_SIZE at h5
      omega

/-! ### The walk of `paging_map_fixed_attr` -/

theorem paging_map_fixed_loop_zero (k : Kernel) (frame flags fuel : Nat) (st : paging_state)
    (node : Option Nat) (vaddr : Nat) :
    paging_map_fixed_loop k frame flags fuel st node vaddr 0 = some (SYS_ERR_OK, st) := by
  rw [paging_map_fixed_loop.eq_def]
  simp

theorem paging_map_fixed_loop_spec (k : Kernel) (frame flags : Nat) (st : paging_state)
    (vaddr bytes : Nat) (hb : bytes ≠ 0) :
    ∀ (rest pre : List Nat) (prv cur : Option Nat) (fuel : Nat),
      IsList st (pre ++ rest) → chain st.mem prv cur rest → rest.length < fuel →
      ∃ res, paging_map_fixed_loop k frame flags fuel st cur vaddr bytes = some res ∧
        ((map_fixed_regions vaddr bytes (rest.map (region_at st.mem)) = none ∧
            res = (LIB_ERR_VREGION_MAP, st)) ∨
         (∃ rs st1 r, map_fixed_regions vaddr bytes (rest.map (region_at st.mem)) = some rs ∧
            links_ok st1 ∧ regions st1 = pre.map (region_at st.mem) ++ rs ∧ same_env st st1 ∧
            paging_map_pages k frame flags bytes st1 vaddr bytes 0 = some r ∧
            res = (r.err, r.st)))
  | [], pre, prv, cur, fuel, _, hc, hf => by
    have hcur : cur = none := hc
    subst hcur
    cases fuel with
    | zero => simp at hf
    | succ f =>
      refine ⟨(LIB_ERR_VREGION_MAP, st), ?_, Or.inl ⟨rfl, rfl⟩⟩
      rw [paging_map_fixed_loop]
      simp [hb]
  | p :: ps, pre, prv, cur, fuel, hl, hc, hf => by
    obtain ⟨h1, _, h3⟩ := hc
    subst h1
    cases fuel with
    | zero => simp at hf
    | succ f =>
      have hf2 : ps.length < f := by simpa using hf
      have hl2 : IsList st ((pre ++ [p]) ++ ps) := by simpa using hl
      have hrec := paging_map_fixed_loop_spec k frame flags st vaddr bytes hb ps (pre ++ [p])
        _ _ f hl2 h3 hf2
      rw [paging_map_fixed_loop]
      simp only [hb, if_false]
      by_cases hacc : accepts vaddr bytes (region_at st.mem p)
      · have hty : ¬ (st.mem p).type = NodeType_Allocated := hacc.1
        have hrg : ¬ (vaddr < (st.mem p).base ∨
            add32 (st.mem p).base (st.mem p).size < add32 vaddr bytes) := hacc.2
        rw [if_neg hty, if_neg hrg]
        obtain ⟨e1, e2, e3⟩ := paging_map_split_spec vaddr bytes hl
        obtain ⟨r, hr, _, hok⟩ := paging_map_pages_spec k frame flags bytes
          (paging_map_split st p vaddr bytes) vaddr bytes 0 (Nat.le_refl _)
        simp only [hr]
        by_cases hfail : err_is_fail r.err = true
        · rw [if_pos hfail]
          refine ⟨_, rfl, Or.inr ⟨split_region vaddr bytes (region_at st.mem p) ++
            ps.map (region_at st.mem), paging_map_split st p vaddr bytes, r, ?_, e1, ?_, e3, hr,
            rfl⟩⟩
          · simp [map_fixed_regions, hacc]
          · rw [e2]; simp
        · rw [if_neg hfail]
          obtain ⟨hz, herr, _⟩ := hok (by simpa using hfail)
          rw [hz, paging_map_fixed_loop_zero]
          refine ⟨_, rfl, Or.inr ⟨split_region vaddr bytes (region_at st.mem p) ++
            ps.map (region_at st.mem), paging_map_split st p vaddr bytes, r, ?_, e1, ?_, e3, hr,
            by rw [herr]⟩⟩
          · simp [map_fixed_regions, hacc]
          · rw [e2]; simp
      · obtain ⟨res, hres, hcase⟩ := hrec
        have hskip : paging_map_fixed_loop k frame flags (f + 1) st (some p) vaddr bytes
            = paging_map_fixed_loop k frame flags f st (st.mem p).next vaddr bytes := by
          rw [paging_map_fixed_loop]
          simp only [hb, if_false]
          by_cases hty : (st.mem p).type = NodeType_Allocated
          · rw [if_pos hty]
          · rw [if_neg hty]
            have hrg : vaddr < (st.mem p).base ∨
                add32 (st.mem p).base (st.mem p).size < add32 vaddr bytes := by
              by_contra hn
              exact hacc ⟨hty, hn⟩
            rw [if_pos hrg]
        rw [paging_map_fixed_loop] at hskip
        simp only [hb, if_false] at hskip
        rw [hskip]
        refine ⟨res, hres, ?_⟩
        rcases hcase with ⟨hn, hr⟩ | ⟨rs, st1, r, hs, e1, e2, e3, e4, e5⟩
        · left
          exact ⟨by simp [map_fixed_regions, hacc, hn], hr⟩
        · right
          refine ⟨region_at st.mem p :: rs, st1, r, by simp [map_fixed_regions, hacc, hs], e1,
            ?_, e3, e4, e5⟩
          rw [e2]; simp

/-- With nothing to map `paging_map_fixed_attr` succeeds and changes nothing. -/
theorem paging_map_fixed_attr_zero (k : Kernel) (st : paging_state) (vaddr frame flags : Nat) :
    paging_map_fixed_attr k st vaddr frame 0 flags = some (SYS_ERR_OK, st) :=
  paging_map_fixed_loop_zero k frame flags _ st _ vaddr

/-- On a proper list `paging_map_fixed_attr` returns: either no node passes
the test and the state is unchanged, or the first such node was split as
`map_fixed_regions` says and the result is that of the mapping loop. -/
theorem paging_map_fixed_attr_spec {st : paging_state} (k : Kernel) (vaddr frame bytes flags : Nat)
    (hb : bytes ≠ 0) (h : links_ok st) :
    ∃ res, paging_map_fixed_attr k st vaddr frame bytes flags = some res ∧
      ((map_fixed_regions vaddr bytes (regions st) = none ∧
          res = (LIB_ERR_VREGION_MAP, st)) ∨
       (∃ rs st1 r, map_fixed_regions vaddr bytes (regions st) = some rs ∧
          links_ok st1 ∧ regions st1 = rs ∧ same_env st st1 ∧
          paging_map_pages k frame flags bytes st1 vaddr bytes 0 = some r ∧
          res = (r.err, r.st))) := by
  have hl : IsList st ([] ++ node_ptrs st) := h
  have hlen : (node_ptrs st).length < st.slabs.cursor + 1 :=
    Nat.lt_succ_of_le (nodup_bounded_length h.2.1 h.2.2)
  have := paging_map_fixed_loop_spec k frame flags st vaddr bytes hb (node_ptrs st) [] none
    st.head _ hl h.1 hlen
  simpa [paging_map_fixed_attr, regions] using this

/-! ### Contiguous region lists -/

theorem total_size_append (l1 l2 : List region) :
    total_size (l1 ++ l2) = total_size l1 + total_size l2 := by
  simp [total_size]

theorem total_size_cons (r : region) (l : List region) :
    total_size (r :: l) = r.size + total_size l := by
  simp [total_size]

theorem spans_append : ∀ (l1 l2 : List region) (a : Nat),
    spans a (l1 ++ l2) ↔ spans a l1 ∧ spans (a + total_size l1) l2
  | [], l2, a => by simp [spans, total_size]
  | r :: l1, l2, a => by
    have ih := spans_append l1 l2 (a + r.size)
    have e : a + r.size + total_size l1 = a + total_size (r :: l1) := by
      rw [total_size_cons]; omega
    rw [e] at ih
    show (r.base = a ∧ spans (a + r.size) (l1 ++ l2)) ↔
      (r.base = a ∧ spans (a + r.size) l1) ∧ spans (a + total_size (r :: l1)) l2
    rw [ih]
    tauto

theorem contiguous_cons_iff_spans : ∀ (rs : List region) (r : region),
    contiguous (r :: rs) ↔ spans r.base (r :: rs)
  | [], r => by simp [contiguous, spans]
  | s :: rs, r => by
    have ih := contiguous_cons_iff_spans rs s
    show (r.base + r.size = s.base ∧ contiguous (s :: rs)) ↔ _
    rw [ih]
    show (r.base + r.size = s.base ∧ s.base = s.base ∧ spans (s.base + s.size) rs) ↔
      (r.base = r.base ∧ s.base = r.base + r.size ∧ spans (r.base + r.size + s.size) rs)
    constructor
    · rintro ⟨h1, _, h3⟩
      rw [h1]
      exact ⟨rfl, rfl, h3⟩
    · rintro ⟨_, h2, h3⟩
      rw [← h2] at h3
      exact ⟨h2.symm, rfl, h3⟩

theorem spans_contiguous : ∀ (rs : List region) (a : Nat), spans a rs → contiguous rs
  | [], _, _ => by simp [contiguous]
  | r :: rs, a, h => by
    rw [contiguous_cons_iff_spans]
    obtain ⟨h1, h2⟩ := h
    rw [h1]
    exact ⟨h1, h2⟩

theorem spans_base_ge : ∀ (rs : List region) (a : Nat), spans a rs → ∀ r ∈ rs, a ≤ r.base
  | [], _, _, r, hr => by simp at hr
  | s :: rs, a, h, r, hr => by
    obtain ⟨h1, h2⟩ := h
    rcases List.mem_cons.mp hr with rfl | hm
    · omega
    · have := spans_base_ge rs _ h2 r hm
      omega

theorem spans_end_le : ∀ (rs : List region) (a : Nat), spans a rs →
    ∀ r ∈ rs, r.base + r.size ≤ a + total_size rs
  | [], _, _, r, hr => by simp at hr
  | s :: rs, a, h, r, hr => by
    obtain ⟨h1, h2⟩ := h
    rw [total_size_cons]
    rcases List.mem_cons.mp hr with rfl | hm
    · omega
    · have := spans_end_le rs _ h2 r hm
      omega

theorem spans_sorted : ∀ (rs : List region) (a : Nat), spans a rs → address_sorted rs
  | [], _, _ => by simp [address_sorted]
  | s :: rs, a, h => by
    obtain ⟨h1, h2⟩ := h
    unfold address_sorted
    rw [List.pairwise_cons]
    refine ⟨fun r hr => ?_, spans_sorted rs _ h2⟩
    have := spans_base_ge rs _ h2 r hr
    omega

theorem contiguous_sorted (rs : List region) (h : contiguous rs) : address_sorted rs := by
  cases rs with
  | nil => simp [address_sorted]
  | cons r rs => exact spans_sorted _ _ ((contiguous_cons_iff_spans rs r).mp h)

/-- Replacing one region of a contiguous list by a contiguous run over the
same range keeps the list contiguous and within 32 bits, and keeps its first
base and its total size. -/
theorem replace_region {pre post mid : List region} {r : region}
    (hc : contiguous (pre ++ r :: post)) (hw : no_wrap (pre ++ r :: post))
    (hne : mid ≠ []) (hm : spans r.base mid) (ht : total_size mid = r.size) :
    contiguous (pre ++ mid ++ post) ∧ no_wrap (pre ++ mid ++ post) ∧
    address_sorted (pre ++ mid ++ post) ∧
    first_base (pre ++ mid ++ post) = first_base (pre ++ r :: post) ∧
    total_size (pre ++ mid ++ post) = total_size (pre ++ r :: post) := by
  have hfirst : first_base (pre ++ mid ++ post) = first_base (pre ++ r :: post) := by
    cases pre with
    | cons a pre => simp [first_base]
    | nil =>
      cases mid with
      | nil => exact absurd rfl hne
      | cons m mid => simp [first_base, hm.1]
  have htot : total_size (pre ++ mid ++ post) = total_size (pre ++ r :: post) := by
    simp only [total_size_append, total_size_cons, ht]
    omega
  have hsp : ∀ a, spans a (pre ++ r :: post) → spans a (pre ++ mid ++ post) := by
    intro a ha
    rw [spans_append] at ha
    obtain ⟨h1, h2, h3⟩ := ha
    rw [List.append_assoc, spans_append, spans_append]
    refine ⟨h1, ?_, ?_⟩
    · rw [← h2]; exact hm
    · rw [ht]; exact h3
  have hcont : contiguous (pre ++ mid ++ post) := by
    cases pre with
    | cons a pre =>
      exact spans_contiguous _ _ (hsp a.base ((contiguous_cons_iff_spans _ a).mp hc))
    | nil =>
      exact spans_contiguous _ _ (hsp r.base ((contiguous_cons_iff_spans _ r).mp hc))
  refine ⟨hcont, ?_, contiguous_sorted _ hcont, hfirst, htot⟩
  intro x hx
  have hx2 : x ∈ mid ∨ x ∈ pre ++ r :: post := by
    simp only [List.mem_append, List.mem_cons] at hx ⊢
    tauto
  rcases hx2 with hxm | hxo
  · have h1 := spans_end_le mid r.base hm x hxm
    have h2 := hw r (by simp)
    omega
  · exact hw x hxo

/-! ### The region-list operations on well-formed lists -/

theorem add32_eq {a b : Nat} (h : a + b < 2 ^ 32) : add32 a b = a + b :=
  Nat.mod_eq_of_lt h

theorem sub32_eq {a b : Nat} (h1 : b ≤ a) (h2 : a < 2 ^ 32) : sub32 a b = a - b := by
  unfold sub32
  have hb : b % 2 ^ 32 = b := Nat.mod_eq_of_lt (by omega)
  rw [hb]
  omega

theorem alloc_regions_some : ∀ {rs : List region} {bytes b : Nat} {rs2 : List region},
    alloc_regions bytes rs = some (b, rs2) →
    ∃ pre r post, rs = pre ++ r :: post ∧
      (∀ x ∈ pre, ¬ (x.type = NodeType_Free ∧ bytes ≤ x.size)) ∧
      (r.type = NodeType_Free ∧ bytes ≤ r.size) ∧ b = r.base ∧
      rs2 = pre ++ claim_region bytes r ++ post
  | [], _, _, _, h => by simp [alloc_regions] at h
  | r :: rs, bytes, b, rs2, h => by
    by_cases hc : r.type = NodeType_Free ∧ bytes ≤ r.size
    · simp only [alloc_regions, hc, and_self, if_true, Option.some.injEq, Prod.mk.injEq] at h
      exact ⟨[], r, rs, rfl, by simp, hc, h.1.symm, by simp [h.2]⟩
    · simp only [alloc_regions, hc, if_false, Option.map_eq_some'] at h
      obtain ⟨⟨b1, rs1⟩, h1, h2⟩ := h
      simp only [Prod.mk.injEq] at h2
      obtain ⟨pre, r1, post, e1, e2, e3, e4, e5⟩ := alloc_regions_some h1
      refine ⟨r :: pre, r1, post, by simp [e1], ?_, e3, by rw [← h2.1, e4], by simp [← h2.2, e5]⟩
      intro x hx
      rcases List.mem_cons.mp hx with rfl | hm
      · exact hc
      · exact e2 x hm

theorem alloc_regions_none : ∀ {rs : List region} {bytes : Nat},
    alloc_regions bytes rs = none ↔ ∀ x ∈ rs, ¬ (x.type = NodeType_Free ∧ bytes ≤ x.size)
  | [], _ => by simp [alloc_regions]
  | r :: rs, bytes => by
    by_cases hc : r.type = NodeType_Free ∧ bytes ≤ r.size
    · simp only [alloc_regions, hc, and_self, if_true]
      constructor
      · intro h; cases h
      · intro h; exact absurd hc (h r (by simp))
    · simp only [alloc_regions, hc, if_false, Option.map_eq_none', alloc_regions_none,
        List.mem_cons, forall_eq_or_imp, not_false_eq_true, true_and]

theorem map_fixed_regions_some : ∀ {rs : List region} {vaddr bytes : Nat} {rs2 : List region},
    map_fixed_regions vaddr bytes rs = some rs2 →
    ∃ pre r post, rs = pre ++ r :: post ∧ (∀ x ∈ pre, ¬ accepts vaddr bytes x) ∧
      accepts vaddr bytes r ∧ rs2 = pre ++ split_region vaddr bytes r ++ post
  | [], _, _, _, h => by simp [map_fixed_regions] at h
  | r :: rs, vaddr, bytes, rs2, h => by
    by_cases hc : accepts vaddr bytes r
    · simp only [map_fixed_regions, hc, if_true, Option.some.injEq] at h
      exact ⟨[], r, rs, rfl, by simp, hc, by simp [h]⟩
    · simp only [map_fixed_regions, hc, if_false, Option.map_eq_some'] at h
      obtain ⟨rs1, h1, h2⟩ := h
      obtain ⟨pre, r1, post, e1, e2, e3, e4⟩ := map_fixed_regions_some h1
      refine ⟨r :: pre, r1, post, by simp [e1], ?_, e3, by simp [← h2, e4]⟩
      intro x hx
      rcases List.mem_cons.mp hx with rfl | hm
      · exact hc
      · exact e2 x hm

theorem map_fixed_regions_none : ∀ {rs : List region} {vaddr bytes : Nat},
    map_fixed_regions vaddr bytes rs = none ↔ ∀ x ∈ rs, ¬ accepts vaddr bytes x
  | [], _, _ => by simp [map_fixed_regions]
  | r :: rs, vaddr, bytes => by
    by_cases hc : accepts vaddr bytes r
    · simp only [map_fixed_regions, hc, if_true]
      constructor
      · intro h; cases h
      · intro h; exact absurd hc (h r (by simp))
    · simp only [map_fixed_regions, hc, if_false, Option.map_eq_none', map_fixed_regions_none,
        List.mem_cons, forall_eq_or_imp, not_false_eq_true, true_and]

/-- Within 32 bits the claimed region is the first `bytes` bytes and the free
remainder is the rest. -/
theorem claim_region_spans (bytes : Nat) {r : region}
    (hw : r.base + r.size < 2 ^ 32) :
    claim_region bytes r ≠ [] ∧ spans r.base (claim_region bytes r) ∧
    total_size (claim_region bytes r) = r.size := by
  unfold claim_region
  by_cases hlt : bytes < r.size
  · rw [if_pos hlt, add32_eq (by omega)]
    refine ⟨by simp, ⟨rfl, rfl, trivial⟩, ?_⟩
    simp [total_size]
    omega
  · rw [if_neg hlt]
    exact ⟨by simp, ⟨rfl, trivial⟩, by simp [total_size]⟩

/-- When the range lies inside the region and nothing wraps, the split is a
free part below `vaddr` if there is room, the allocated range itself, and a
free part above it if there is room. -/
theorem split_region_exact {vaddr bytes : Nat} {r : region} (h1 : r.base ≤ vaddr)
    (h2 : vaddr + bytes ≤ r.base + r.size) (hw : r.base + r.size < 2 ^ 32) :
    split_region vaddr bytes r =
      (if r.base < vaddr then [⟨r.base, vaddr - r.base, NodeType_Free⟩] else []) ++
      [⟨vaddr, bytes, NodeType_Allocated⟩] ++
      (if vaddr + bytes < r.base + r.size then
        [⟨vaddr + bytes, r.base + r.size - (vaddr + bytes), NodeType_Free⟩] else []) := by
  unfold split_region
  have e1 : add32 vaddr bytes = vaddr + bytes := add32_eq (by omega)
  have e2 : add32 r.base r.size = r.base + r.size := add32_eq hw
  have e3 : sub32 vaddr r.base = vaddr - r.base := sub32_eq h1 (by omega)
  have e4 : sub32 r.size (vaddr - r.base) = r.size - (vaddr - r.base) :=
    sub32_eq (by omega) (by omega)
  have e5 : sub32 (r.size - (vaddr - r.base)) bytes = r.size - (vaddr - r.base) - bytes :=
    sub32_eq (by omega) (by omega)
  have e6 : sub32 r.size (r.size - (vaddr - r.base) - bytes)
      = r.size - (r.size - (vaddr - r.base) - bytes) := sub32_eq (by omega) (by omega)
  simp only [e1, e2, e3, e4, e5, e6]
  by_cases hR : vaddr + bytes < r.base + r.size
  · simp only [hR, if_true]
    by_cases hL : r.base < vaddr
    · simp only [hL, if_true]
      rw [sub32_eq (by omega) (by omega)]
      simp
      omega
    · simp only [hL, if_false]
      simp
      omega
  · simp only [hR, if_false]
    by_cases hL : r.base < vaddr
    · simp only [hL, if_true]
      rw [sub32_eq (by omega) (by omega)]
      simp
      omega
    · simp only [hL, if_false]
      simp
      omega

theorem split_region_spans {vaddr bytes : Nat} {r : region} (h1 : r.base ≤ vaddr)
    (h2 : vaddr + bytes ≤ r.base + r.size) (hw : r.base + r.size < 2 ^ 32) :
    split_region vaddr bytes r ≠ [] ∧ spans r.base (split_region vaddr bytes r) ∧
    total_size (split_region vaddr bytes r) = r.size := by
  rw [split_region_exact h1 h2 hw]
  by_cases hR : vaddr + bytes < r.base + r.size <;> by_cases hL : r.base < vaddr <;>
    simp [hR, hL, spans, total_size] <;> omega

theorem spans_end_lt : ∀ (rs : List region) (a : Nat), rs ≠ [] → spans a rs → no_wrap rs →
    a + total_size rs < 2 ^ 32
  | [], _, h, _, _ => absurd rfl h
  | [r], a, _, hs, hw => by
    have := hw r (by simp)
    have h1 : r.base = a := hs.1
    simp [total_size]
    omega
  | r :: s :: rs, a, _, hs, hw => by
    have ih := spans_end_lt (s :: rs) (a + r.size) (by simp) hs.2
      (fun x hx => hw x (List.mem_cons_of_mem _ hx))
    rw [total_size_cons]
    omega

theorem end_addr_lt {rs : List region} (hne : rs ≠ []) (hc : contiguous rs) (hw : no_wrap rs) :
    end_addr rs < 2 ^ 32 := by
  cases rs with
  | nil => exact absurd rfl hne
  | cons r rs => exact spans_end_lt _ _ hne ((contiguous_cons_iff_spans rs r).mp hc) hw

theorem mem_end_le {rs : List region} (hc : contiguous rs) {x : region} (hx : x ∈ rs) :
    x.base + x.size ≤ end_addr rs := by
  cases rs with
  | nil => simp at hx
  | cons r rs => exact spans_end_le _ _ ((contiguous_cons_iff_spans rs r).mp hc) x hx

theorem end_addr_eq {rs rs2 : List region} (h1 : first_base rs2 = first_base rs)
    (h2 : total_size rs2 = total_size rs) : end_addr rs2 = end_addr rs := by
  cases rs with
  | nil =>
    cases rs2 with
    | nil => rfl
    | cons r rs2 => simp [first_base] at h1
  | cons r rs =>
    cases rs2 with
    | nil => simp [first_base] at h1
    | cons r2 rs2 =>
      simp [first_base] at h1
      simp only [end_addr, h1, h2]

theorem alloc_regions_wf {rs rs2 : List region} {bytes b : Nat} (hc : contiguous rs)
    (hw : no_wrap rs) (h : alloc_regions bytes rs = some (b, rs2)) :
    contiguous rs2 ∧ no_wrap rs2 ∧ address_sorted rs2 ∧ first_base rs2 = first_base rs ∧
    total_size rs2 = total_size rs := by
  obtain ⟨pre, r, post, e1, _, e3, _, e5⟩ := alloc_regions_some h
  subst e1
  subst e5
  obtain ⟨a1, a2, a3⟩ := claim_region_spans bytes (hw r (by simp))
  exact replace_region hc hw a1 a2 a3

/-- A node that passes the test, for a range that ends within the list,
contains the range. -/
theorem accepts_inside {rs : List region} {vaddr bytes : Nat} {r : region}
    (hc : contiguous rs) (hw : no_wrap rs) (hr : r ∈ rs) (hend : vaddr + bytes ≤ end_addr rs)
    (ha : accepts vaddr bytes r) :
    r.base ≤ vaddr ∧ vaddr + bytes ≤ r.base + r.size := by
  have hlt := end_addr_lt (List.ne_nil_of_mem hr) hc hw
  have hrw := hw r hr
  obtain ⟨_, h2⟩ := ha
  rw [not_or] at h2
  obtain ⟨h3, h4⟩ := h2
  rw [add32_eq hrw, add32_eq (by omega)] at h4
  omega

theorem map_fixed_regions_wf {rs rs2 : List region} {vaddr bytes : Nat} (hc : contiguous rs)
    (hw : no_wrap rs) (hend : vaddr + bytes ≤ end_addr rs)
    (h : map_fixed_regions vaddr bytes rs = some rs2) :
    contiguous rs2 ∧ no_wrap rs2 ∧ address_sorted rs2 ∧ first_base rs2 = first_base rs ∧
    total_size rs2 = total_size rs := by
  obtain ⟨pre, r, post, e1, _, e3, e5⟩ := map_fixed_regions_some h
  subst e1
  subst e5
  obtain ⟨i1, i2⟩ := accepts_inside hc hw (by simp) hend e3
  obtain ⟨a1, a2, a3⟩ := split_region_spans i1 i2 (hw r (by simp))
  exact replace_region hc hw a1 a2 a3

/-- Both operations return on a well-formed state and keep it well-formed,
with the same first base, total size and end. -/
theorem wellformed_preserved_core (st : paging_state) (hwf : WellFormed st) :
    (∀ bytes, ∃ res, paging_alloc st bytes = some res ∧
      (res.1 = SYS_ERR_OK → WellFormed res.2.2 ∧
        first_base (regions res.2.2) = first_base (regions st) ∧
        total_size (regions res.2.2) = total_size (regions st) ∧
        end_addr (regions res.2.2) = end_addr (regions st))) ∧
    (∀ (k : Kernel) (vaddr frame bytes flags : Nat),
      vaddr + bytes ≤ end_addr (regions st) →
      ∃ res, paging_map_fixed_attr k st vaddr frame bytes flags = some res ∧
        (res.1 = SYS_ERR_OK → WellFormed res.2 ∧
          first_base (regions res.2) = first_base (regions st) ∧
          total_size (regions res.2) = total_size (regions st) ∧
          end_addr (regions res.2) = end_addr (regions st))) := by
  obtain ⟨hl, _, hc, hw⟩ := hwf
  constructor
  · intro bytes
    obtain ⟨res, hres, hcase⟩ := paging_alloc_spec bytes hl
    refine ⟨res, hres, fun hok => ?_⟩
    rcases hcase with ⟨_, hr⟩ | ⟨b, rs, hs, _, _, e3, e4, _⟩
    · rw [hr] at hok
      cases hok
    · obtain ⟨a1, a2, a3, a4, a5⟩ := alloc_regions_wf hc hw hs
      rw [e4]
      exact ⟨⟨e3, by rw [e4]; exact a3, by rw [e4]; exact a1, by rw [e4]; exact a2⟩, a4, a5,
        end_addr_eq a4 a5⟩
  · intro k vaddr frame bytes flags hend
    by_cases hb : bytes = 0
    · subst hb
      refine ⟨_, paging_map_fixed_attr_zero k st vaddr frame flags, fun _ => ?_⟩
      exact ⟨⟨hl, contiguous_sorted _ hc, hc, hw⟩, rfl, rfl, rfl⟩
    · obtain ⟨res, hres, hcase⟩ := paging_map_fixed_attr_spec k vaddr frame bytes flags hb hl
      refine ⟨res, hres, fun hok => ?_⟩
      rcases hcase with ⟨_, hr⟩ | ⟨rs, st1, r, hs, e1, e2, _, e4, e5⟩
      · rw [hr] at hok
        cases hok
      · obtain ⟨r2, hr2, hext, _⟩ := paging_map_pages_spec k frame flags bytes st1 vaddr bytes 0
          (Nat.le_refl _)
        rw [e4] at hr2
        cases hr2
        obtain ⟨a1, a2, a3, a4, a5⟩ := map_fixed_regions_wf hc hw hend hs
        have hreg : regions res.2 = rs := by
          rw [e5]
          exact hext.regions_same.trans e2
        have hlk : links_ok res.2 := by
          rw [e5]
          exact hext.keeps_links e1
        rw [hreg]
        exact ⟨⟨hlk, by rw [hreg]; exact a3, by rw [hreg]; exact a1, by rw [hreg]; exact a2⟩,
          a4, a5, end_addr_eq a4 a5⟩

/-! ### Claims C1 to C7 -/

/-- C2: evaluation at the failing input.  In the well-formed state after
`paging_init_state` at `0x40000000`, `paging_map_fixed_attr` of the range
`[0xFFF00000, 2^32)` succeeds (the 32-bit sum `vaddr + bytes` wraps to 0 and
passes the end test), and a later `paging_alloc(0xFFFFF000)` succeeds and
returns base 0, so the range `[0, 0xFFFFF000)` it hands out contains
`[0xFFF00000, 0xFFFFF000)` of the mapped range. -/
theorem map_fixed_then_alloc_overlaps :
    WellFormed init_state ∧
    (paging_map_fixed_attr ok_kernel init_state 0xFFF00000 7 0x100000 3).map (fun r => r.1)
      = some SYS_ERR_OK ∧
    (((paging_map_fixed_attr ok_kernel init_state 0xFFF00000 7 0x100000 3).bind
        (fun r => paging_alloc r.2 0xFFFFF000)).map (fun r => (r.1, r.2.1))
      = some (SYS_ERR_OK, 0)) ∧
    (0xFFF00000 + 0x100000 ≤ 2 ^ 32 ∧ 0 < 0xFFF00000 + 0x100000 ∧ 0xFFF00000 < 0 + 0xFFFFF000) ∧
    ((paging_map_fixed_attr ok_kernel init_state 0xFFF00000 7 0x100000 3).map
        (fun r => regions r.2)
      = some [⟨0x40000000, 0xBFF00000, NodeType_Free⟩, ⟨0xFFF00000, 0x100000, NodeType_Allocated⟩,
          ⟨0, 0xFFFFFFFF, NodeType_Free⟩]) := by
  decide

/-- C3 (counterexample): after `paging_init_state` at `0x40000000` the only
region has size `0xBFFFFFFF`, so it ends at `2^32 - 1` and not at `2^32`. -/
theorem init_state_end_counterexample :
    regions (paging_init_state blank_state 0x40000000 1 2).2
      = [⟨0x40000000, 0xBFFFFFFF, NodeType_Free⟩] ∧
    ¬ (∀ r ∈ regions (paging_init_state blank_state 0x40000000 1 2).2,
        r.base + r.size = 2 ^ 32) := by
  decide

/-- The head node that `paging_init_state` sets up. -/
theorem paging_init_state_head_core (st : paging_state) (start_vaddr : Nat) (pdir : capref)
    (ca : Nat) (hs : start_vaddr < 2 ^ 32) :
    (paging_init_state st start_vaddr pdir ca).1 = SYS_ERR_OK ∧
    (paging_init_state st start_vaddr pdir ca).2.head = some 0 ∧
    ((paging_init_state st start_vaddr pdir ca).2.mem 0).base = start_vaddr ∧
    ((paging_init_state st start_vaddr pdir ca).2.mem 0).size = 0xFFFFFFFF - start_vaddr ∧
    ((paging_init_state st start_vaddr pdir ca).2.mem 0).base
      + ((paging_init_state st start_vaddr pdir ca).2.mem 0).size = 2 ^ 32 - 1 ∧
    ((paging_init_state st start_vaddr pdir ca).2.mem 0).type = NodeType_Free ∧
    ((paging_init_state st start_vaddr pdir ca).2.mem 0).prev = none ∧
    ((paging_init_state st start_vaddr pdir ca).2.mem 0).next = (st.mem 0).next ∧
    ((st.mem 0).next = none →
      links_ok (paging_init_state st start_vaddr pdir ca).2 ∧
      regions (paging_init_state st start_vaddr pdir ca).2
        = [⟨start_vaddr, 0xFFFFFFFF - start_vaddr, NodeType_Free⟩]) := by
  have hsub : sub32 0xFFFFFFFF start_vaddr = 0xFFFFFFFF - start_vaddr :=
    sub32_eq (by omega) (by norm_num)
  refine ⟨rfl, rfl, ?_, ?_, ?_, ?_, ?_, ?_, ?_⟩
  · simp [paging_init_state, slab_alloc]
  · simp [paging_init_state, slab_alloc, hsub]
  · simp [paging_init_state, slab_alloc, hsub]
    omega
  · simp [paging_init_state, slab_alloc]
  · simp [paging_init_state, slab_alloc]
  · simp [paging_init_state, slab_alloc]
  · intro hn
    have hl : IsList (paging_init_state st start_vaddr pdir ca).2 [0] := by
      refine ⟨⟨rfl, ?_, ?_⟩, by simp, ?_⟩
      · simp [paging_init_state, slab_alloc]
      · show ((paging_init_state st start_vaddr pdir ca).2.mem 0).next = none
        simp [paging_init_state, slab_alloc, hn]
      · intro p hp
        simp at hp
        subst hp
        simp [paging_init_state, slab_alloc]
    refine ⟨hl.links_ok, ?_⟩
    rw [hl.regions_eq]
    simp [region_at, paging_init_state, slab_alloc, hsub]

/-- C3 (amended): `paging_init_state` with `start_vaddr < 2^32` returns
`SYS_ERR_OK`; the head is the first slab element, of type Free, with
`base = start_vaddr`, `size = 0xFFFFFFFF - start_vaddr` (so `base + size =
2^32 - 1`) and no predecessor.  Its `next` field keeps what the slab memory
held; when that read `NULL` the region list is exactly that one node. -/
theorem paging_init_state_head (st : paging_state) (start_vaddr : Nat) (pdir : capref)
    (ca : Nat) (hs : start_vaddr < 2 ^ 32) :
    (paging_init_state st start_vaddr pdir ca).1 = SYS_ERR_OK ∧
    (paging_init_state st start_vaddr pdir ca).2.head = some 0 ∧
    ((paging_init_state st start_vaddr pdir ca).2.mem 0).base = start_vaddr ∧
    ((paging_init_state st start_vaddr pdir ca).2.mem 0).size = 0xFFFFFFFF - start_vaddr ∧
    ((paging_init_state st start_vaddr pdir ca).2.mem 0).base
      + ((paging_init_state st start_vaddr pdir ca).2.mem 0).size = 2 ^ 32 - 1 ∧
    ((paging_init_state st start_vaddr pdir ca).2.mem 0).type = NodeType_Free ∧
    ((paging_init_state st start_vaddr pdir ca).2.mem 0).prev = none ∧
    ((paging_init_state st start_vaddr pdir ca).2.mem 0).next = (st.mem 0).next ∧
    ((st.mem 0).next = none →
      links_ok (paging_init_state st start_vaddr pdir ca).2 ∧
      regions (paging_init_state st start_vaddr pdir ca).2
        = [⟨start_vaddr, 0xFFFFFFFF - start_vaddr, NodeType_Free⟩]) :=
  paging_init_state_head_core st start_vaddr pdir ca hs

/-- C3 (amended), at a concrete input. -/
theorem paging_init_state_head_witness :
    (0x40000000 < 2 ^ 32) ∧
    ((paging_init_state blank_state 0x40000000 1 2).2.mem 0).size = 0xFFFFFFFF - 0x40000000 :=
  ⟨by decide, (paging_init_state_head blank_state 0x40000000 1 2 (by decide)).2.2.2.1⟩

/-- C4: on a list with consistent links `paging_alloc` returns; it returns
`LIB_ERR_VREGION_NOT_FOUND` exactly when no region is Free with
`size >= bytes`, then leaves the state unchanged and sets `*buf` to `NULL`;
in every other case it returns `SYS_ERR_OK`. -/
theorem paging_alloc_not_found_iff (st : paging_state) (bytes : Nat) (h : links_ok st) :
    ∃ res, paging_alloc st bytes = some res ∧
      (res.1 = LIB_ERR_VREGION_NOT_FOUND ↔
        ¬ ∃ r ∈ regions st, r.type = NodeType_Free ∧ bytes ≤ r.size) ∧
      (res.1 = LIB_ERR_VREGION_NOT_FOUND → res.2.2 = st ∧ res.2.1 = 0) ∧
      (res.1 ≠ LIB_ERR_VREGION_NOT_FOUND → res.1 = SYS_ERR_OK) := by
  obtain ⟨res, hres, hcase⟩ := paging_alloc_spec bytes h
  refine ⟨res, hres, ?_⟩
  rcases hcase with ⟨hn, hr⟩ | ⟨b, rs, hs, e1, _, _, _, _⟩
  · subst hr
    refine ⟨⟨fun _ => ?_, fun _ => rfl⟩, fun _ => ⟨rfl, rfl⟩, fun hne => absurd rfl hne⟩
    rintro ⟨r, hr, hp⟩
    exact alloc_regions_none.mp hn r hr hp
  · obtain ⟨pre, r, post, e2, _, e4, _, _⟩ := alloc_regions_some hs
    refine ⟨⟨fun hnf => ?_, fun hno => ?_⟩, fun hnf => ?_, fun _ => e1⟩
    · rw [e1] at hnf
      cases hnf
    · exact absurd ⟨r, by rw [e2]; simp, e4⟩ hno
    · rw [e1] at hnf
      cases hnf

/-- C4, at a concrete input. -/
theorem paging_alloc_not_found_iff_witness :
    links_ok init_state ∧
    ∃ res, paging_alloc init_state 4096 = some res ∧
      (res.1 = LIB_ERR_VREGION_NOT_FOUND ↔
        ¬ ∃ r ∈ regions init_state, r.type = NodeType_Free ∧ 4096 ≤ r.size) ∧
      (res.1 = LIB_ERR_VREGION_NOT_FOUND → res.2.2 = init_state ∧ res.2.1 = 0) ∧
      (res.1 ≠ LIB_ERR_VREGION_NOT_FOUND → res.1 = SYS_ERR_OK) :=
  ⟨by decide, paging_alloc_not_found_iff init_state 4096 (by decide)⟩

/-- First fit: what a successful `paging_alloc` does to a well-formed region
list. -/
theorem paging_alloc_first_fit_core (st : paging_state) (bytes buf : Nat) (st2 : paging_state)
    (hwf : WellFormed st) (hres : paging_alloc st bytes = some (SYS_ERR_OK, buf, st2)) :
    ∃ pre r post, regions st = pre ++ r :: post ∧
      (∀ x ∈ pre, ¬ (x.type = NodeType_Free ∧ bytes ≤ x.size)) ∧
      r.type = NodeType_Free ∧ bytes ≤ r.size ∧ buf = r.base ∧
      links_ok st2 ∧
      regions st2 = pre ++ ⟨r.base, bytes, NodeType_Claimed⟩ ::
        ((if bytes < r.size then [⟨r.base + bytes, r.size - bytes, NodeType_Free⟩] else [])
          ++ post) := by
  obtain ⟨hl, _, _, hw⟩ := hwf
  obtain ⟨res, hres2, hcase⟩ := paging_alloc_spec bytes hl
  rw [hres] at hres2
  cases hres2
  rcases hcase with ⟨_, hr⟩ | ⟨b, rs, hs, _, e2, e3, e4, _⟩
  · cases hr
  · obtain ⟨pre, r, post, a1, a2, a3, a4, a5⟩ := alloc_regions_some hs
    refine ⟨pre, r, post, a1, a2, a3.1, a3.2, (show buf = b from e2).trans a4, e3, ?_⟩
    have hrw : r.base + r.size < 2 ^ 32 := hw r (by rw [a1]; simp)
    rw [e4, a5]
    unfold claim_region
    by_cases hlt : bytes < r.size
    · simp [hlt, add32_eq (show r.base + bytes < 2 ^ 32 by omega)]
    · have : r.size = bytes := by omega
      simp [hlt, this]

/-- C5: on a well-formed state a successful `paging_alloc` returns the base
of the first region in list order that is Free with `size >= bytes`; that
region becomes Claimed with size `bytes`, a Free region covering the rest
`[base + bytes, base + size)` is inserted right after it exactly when the old
size was strictly greater, and every other region is unchanged.  From the
state after `paging_init_state` at `0x40000000`, `paging_alloc(4096)` yields
`0x40000000` and a second `paging_alloc(4096)` yields `0x40001000`. -/
theorem paging_alloc_first_fit :
    (∀ (st : paging_state) (bytes buf : Nat) (st2 : paging_state), WellFormed st →
      paging_alloc st bytes = some (SYS_ERR_OK, buf, st2) →
      ∃ pre r post, regions st = pre ++ r :: post ∧
        (∀ x ∈ pre, ¬ (x.type = NodeType_Free ∧ bytes ≤ x.size)) ∧
        r.type = NodeType_Free ∧ bytes ≤ r.size ∧ buf = r.base ∧
        links_ok st2 ∧
        regions st2 = pre ++ ⟨r.base, bytes, NodeType_Claimed⟩ ::
          ((if bytes < r.size then [⟨r.base + bytes, r.size - bytes, NodeType_Free⟩] else [])
            ++ post)) ∧
    ((paging_alloc init_state 4096).map (fun r => (r.1, r.2.1))
      = some (SYS_ERR_OK, 0x40000000)) ∧
    (((paging_alloc init_state 4096).bind (fun r => paging_alloc r.2.2 4096)).map
        (fun r => (r.1, r.2.1))
      = some (SYS_ERR_OK, 0x40001000)) :=
  ⟨paging_alloc_first_fit_core, by decide, by decide⟩

/-- C5, at a concrete input. -/
theorem paging_alloc_first_fit_witness :
    WellFormed init_state ∧
    ∃ pre r post, regions init_state = pre ++ r :: post ∧ (4096 : Nat) ≤ r.size ∧
      0x40000000 = r.base :=
  ⟨by decide, by
    obtain ⟨pre, r, post, h1, _, _, h4, h5, _⟩ :=
      paging_alloc_first_fit.1 init_state 4096 0x40000000
        (paging_alloc_claim init_state 0 4096).2.2 (by decide) rfl
    exact ⟨pre, r, post, h1, h4, h5⟩⟩

/-- C1: in a paging state whose region list has consistent links and is
address-sorted, contiguous and free of 32-bit wrap-around, `paging_alloc`
returns, `paging_map_fixed_attr` returns, and whenever either succeeds (the
latter for a range that does not reach beyond the end of the list) the list
is again well-formed with the same first base and the same total size. -/
theorem wellformed_preserved (st : paging_state) (hwf : WellFormed st) :
    (∀ bytes, ∃ res, paging_alloc st bytes = some res ∧
      (res.1 = SYS_ERR_OK → WellFormed res.2.2 ∧
        first_base (regions res.2.2) = first_base (regions st) ∧
        total_size (regions res.2.2) = total_size (regions st) ∧
        end_addr (regions res.2.2) = end_addr (regions st))) ∧
    (∀ (k : Kernel) (vaddr frame bytes flags : Nat),
      vaddr + bytes ≤ end_addr (regions st) →
      ∃ res, paging_map_fixed_attr k st vaddr frame bytes flags = some res ∧
        (res.1 = SYS_ERR_OK → WellFormed res.2 ∧
          first_base (regions res.2) = first_base (regions st) ∧
          total_size (regions res.2) = total_size (regions st) ∧
          end_addr (regions res.2) = end_addr (regions st))) :=
  wellformed_preserved_core st hwf

/-- C1, at a concrete input. -/
theorem wellformed_preserved_witness :
    WellFormed init_state ∧
    ∃ res, paging_alloc init_state 4096 = some res ∧
      (res.1 = SYS_ERR_OK → WellFormed res.2.2 ∧
        first_base (regions res.2.2) = first_base (regions init_state) ∧
        total_size (regions res.2.2) = total_size (regions init_state) ∧
        end_addr (regions res.2.2) = end_addr (regions init_state)) :=
  ⟨by decide, (wellformed_preserved init_state (by decide)).1 4096⟩

theorem map_fixed_regions_skip {vaddr bytes : Nat} :
    ∀ (pre rest : List region), (∀ x ∈ pre, ¬ accepts vaddr bytes x) →
      map_fixed_regions vaddr bytes (pre ++ rest)
        = (map_fixed_regions vaddr bytes rest).map (fun x => pre ++ x)
  | [], rest, _ => by simp
  | r :: pre, rest, h => by
    have hr : ¬ accepts vaddr bytes r := h r (by simp)
    have ih := map_fixed_regions_skip pre rest (fun x hx => h x (List.mem_cons_of_mem _ hx))
    show (if accepts vaddr bytes r then some (split_region vaddr bytes r ++ (pre ++ rest))
      else (map_fixed_regions vaddr bytes (pre ++ rest)).map (fun x => r :: x)) = _
    rw [if_neg hr, ih, Option.map_map]
    rfl

/-- In a well-formed list only the region that contains a non-empty range
can pass the test of `paging_map_fixed_attr` for it. -/
theorem map_fixed_regions_at {pre post : List region} {N : region} {vaddr bytes : Nat}
    (hc : contiguous (pre ++ N :: post)) (hw : no_wrap (pre ++ N :: post)) (hb : 0 < bytes)
    (h1 : N.base ≤ vaddr) (h2 : vaddr + bytes ≤ N.base + N.size) :
    (N.type ≠ NodeType_Allocated →
      map_fixed_regions vaddr bytes (pre ++ N :: post)
        = some (pre ++ split_region vaddr bytes N ++ post)) ∧
    (N.type = NodeType_Allocated →
      map_fixed_regions vaddr bytes (pre ++ N :: post) = none) := by
  have hNw : N.base + N.size < 2 ^ 32 := hw N (by simp)
  have hsp : ∃ a, spans a (pre ++ N :: post) := by
    cases pre with
    | nil => exact ⟨N.base, (contiguous_cons_iff_spans _ N).mp hc⟩
    | cons x pre => exact ⟨x.base, (contiguous_cons_iff_spans _ x).mp hc⟩
  obtain ⟨a, ha⟩ := hsp
  rw [spans_append] at ha
  obtain ⟨hpre, hN, hpost⟩ := ha
  have hnpre : ∀ x ∈ pre, ¬ accepts vaddr bytes x := by
    intro x hx hacc
    have hxe := spans_end_le pre a hpre x hx
    have hxw : x.base + x.size < 2 ^ 32 := hw x (by simp [hx])
    have := hacc.2
    rw [not_or, add32_eq hxw, add32_eq (by omega)] at this
    omega
  have hnpost : ∀ x ∈ post, ¬ accepts vaddr bytes x := by
    intro x hx hacc
    have hxb := spans_base_ge post _ hpost x hx
    have := hacc.2
    rw [not_or] at this
    omega
  have hpostn : map_fixed_regions vaddr bytes post = none := map_fixed_regions_none.mpr hnpost
  rw [map_fixed_regions_skip pre _ hnpre]
  constructor
  · intro hty
    have hacc : accepts vaddr bytes N := by
      refine ⟨hty, ?_⟩
      rw [not_or, add32_eq hNw, add32_eq (by omega)]
      omega
    simp [map_fixed_regions, hacc]
  · intro hty
    have hacc : ¬ accepts vaddr bytes N := fun h => h.1 hty
    simp [map_fixed_regions, hacc, hpostn]

/-- C6: in a well-formed state, when the region that contains the non-empty
range `[vaddr, vaddr + bytes)` is Allocated, `paging_map_fixed_attr` returns
`LIB_ERR_VREGION_MAP` and the state it returns is the state it was given: no
external call was made, and the region list and the L2 table cache are
unchanged. -/
theorem map_fixed_into_allocated_fails (k : Kernel) (st : paging_state)
    (vaddr frame bytes flags : Nat) (N : region) (hwf : WellFormed st) (hb : 0 < bytes)
    (hN : N ∈ regions st) (hty : N.type = NodeType_Allocated) (h1 : N.base ≤ vaddr)
    (h2 : vaddr + bytes ≤ N.base + N.size) :
    paging_map_fixed_attr k st vaddr frame bytes flags = some (LIB_ERR_VREGION_MAP, st) := by
  obtain ⟨hl, _, hc, hw⟩ := hwf
  obtain ⟨pre, post, hsplit⟩ := List.append_of_mem hN
  rw [hsplit] at hc hw
  have hnone := (map_fixed_regions_at hc hw hb h1 h2).2 hty
  rw [← hsplit] at hnone
  obtain ⟨res, hres, hcase⟩ := paging_map_fixed_attr_spec k vaddr frame bytes flags
    (Nat.pos_iff_ne_zero.mp hb) hl
  rcases hcase with ⟨_, hr⟩ | ⟨rs, _, _, hs, _⟩
  · rw [hres, hr]
  · rw [hnone] at hs
    cases hs

theorem arml2_alloc_ok {k : Kernel} (hk : always_ok k) (st : paging_state) :
    (arml2_alloc k st).1 = SYS_ERR_OK := by
  simp [arml2_alloc, slot_alloc_call, paging_state.invoke, hk _ _, err_is_fail]

theorem not_fail_of_ok {e : errval_t} (h : e = SYS_ERR_OK) : ¬ (err_is_fail e = true) := by
  rw [h]
  decide

theorem invoke_ok {k : Kernel} (hk : always_ok k) (st : paging_state) (c : Call) :
    (st.invoke k c).1 = SYS_ERR_OK := hk _ _

theorem slot_alloc_call_ok {k : Kernel} (hk : always_ok k) (st : paging_state) :
    (slot_alloc_call k st).1 = SYS_ERR_OK := hk _ _

theorem cb_ok {k : Kernel} (hk : always_ok k) (st : paging_state) (cap : capref) :
    (match st.mapping_cb with
      | some _ => st.invoke k (Call.mapping_cb cap)
      | none => (SYS_ERR_OK, st)).1 = SYS_ERR_OK := by
  cases st.mapping_cb with
  | none => rfl
  | some _ => exact hk _ _

theorem paging_get_l2_ok {k : Kernel} (hk : always_ok k) (st : paging_state) (i : Nat) :
    (paging_get_l2 k st i).1 = SYS_ERR_OK := by
  unfold paging_get_l2
  dsimp only
  by_cases h0 : (st.l2_pagetables i).initialized = true
  · rw [if_pos h0]
  · rw [if_neg h0, if_neg (not_fail_of_ok (arml2_alloc_ok hk st)),
      if_neg (not_fail_of_ok (slot_alloc_call_ok hk _)),
      if_neg (not_fail_of_ok (invoke_ok hk _ _)),
      if_neg (not_fail_of_ok (cb_ok hk _ _))]

theorem paging_map_round_ok {k : Kernel} (hk : always_ok k) (frame flags : Nat)
    (st : paging_state) (vaddr bytes mapped : Nat) :
    (paging_map_round k frame flags st vaddr bytes mapped).1 = SYS_ERR_OK := by
  unfold paging_map_round
  dsimp only
  rw [if_neg (not_fail_of_ok (paging_get_l2_ok hk st _)),
    if_neg (not_fail_of_ok (slot_alloc_call_ok hk _)),
    if_neg (not_fail_of_ok (invoke_ok hk _ _)),
    if_neg (not_fail_of_ok (cb_ok hk _ _))]

theorem paging_map_pages_ok {k : Kernel} (hk : always_ok k) (frame flags : Nat) :
    ∀ (fuel : Nat) (st : paging_state) (vaddr bytes mapped : Nat) (r : map_result),
      paging_map_pages k frame flags fuel st vaddr bytes mapped = some r → r.err = SYS_ERR_OK := by
  intro fuel
  induction fuel with
  | zero =>
    intro st vaddr bytes mapped r h
    rw [paging_map_pages] at h
    by_cases hb : bytes = 0
    · simp [hb] at h
      rw [← h]
    · simp [hb] at h
  | succ f ih =>
    intro st vaddr bytes mapped r h
    rw [paging_map_pages] at h
    by_cases hb : bytes = 0
    · simp [hb] at h
      rw [← h]
    · simp only [hb, if_false, paging_map_round_ok hk, err_is_fail] at h
      simp only [ne_eq, not_true_eq_false, decide_False, Bool.false_eq_true, if_false] at h
      exact ih _ _ _ _ r h

/-- What `paging_map_fixed_attr` does for a non-empty range inside the
region `N` of a well-formed list, `N` not being allocated. -/
theorem map_fixed_core (k : Kernel) (st : paging_state) (vaddr frame bytes flags : Nat)
    (pre post : List region) (N : region) (hwf : WellFormed st) (hb : 0 < bytes)
    (hreg : regions st = pre ++ N :: post) (hty : N.type ≠ NodeType_Allocated)
    (h1 : N.base ≤ vaddr) (h2 : vaddr + bytes ≤ N.base + N.size) :
    ∃ res, paging_map_fixed_attr k st vaddr frame bytes flags = some res ∧
      (always_ok k → res.1 = SYS_ERR_OK) ∧
      (res.1 = SYS_ERR_OK → links_ok res.2 ∧
        regions res.2 = pre ++
          ((if N.base < vaddr then [⟨N.base, vaddr - N.base, NodeType_Free⟩] else []) ++
          [⟨vaddr, bytes, NodeType_Allocated⟩] ++
          (if vaddr + bytes < N.base + N.size then
            [⟨vaddr + bytes, N.base + N.size - (vaddr + bytes), NodeType_Free⟩] else [])) ++
          post) := by
  obtain ⟨hl, _, hc, hw⟩ := hwf
  rw [hreg] at hc hw
  have hsome := (map_fixed_regions_at hc hw hb h1 h2).1 hty
  rw [← hreg] at hsome
  obtain ⟨res, hres, hcase⟩ := paging_map_fixed_attr_spec k vaddr frame bytes flags
    (Nat.pos_iff_ne_zero.mp hb) hl
  refine ⟨res, hres, ?_⟩
  rcases hcase with ⟨hn, _⟩ | ⟨rs, st1, r, hs, e1, e2, _, e4, e5⟩
  · rw [hn] at hsome
    cases hsome
  · rw [hsome] at hs
    cases hs
    obtain ⟨r2, hr2, hext, _⟩ := paging_map_pages_spec k frame flags bytes st1 vaddr bytes 0
      (Nat.le_refl _)
    rw [e4] at hr2
    cases hr2
    refine ⟨fun hk => ?_, fun _ => ?_⟩
    · rw [e5]
      exact paging_map_pages_ok hk frame flags _ _ _ _ _ _ e4
    · rw [e5]
      refine ⟨hext.keeps_links e1, ?_⟩
      show regions r.st = _
      rw [hext.regions_same, e2, split_region_exact h1 h2 (hw N (by simp))]

/-- C6, at a concrete input: mapping the page at `0x40000000` a second time. -/
theorem map_fixed_into_allocated_fails_witness :
    WellFormed mapped_state ∧
    (⟨0x40000000, 0x1000, NodeType_Allocated⟩ : region) ∈ regions mapped_state ∧
    paging_map_fixed_attr ok_kernel mapped_state 0x40000000 7 0x1000 3
      = some (LIB_ERR_VREGION_MAP, mapped_state) :=
  ⟨by decide, by decide,
    map_fixed_into_allocated_fails ok_kernel mapped_state 0x40000000 7 0x1000 3
      ⟨0x40000000, 0x1000, NodeType_Allocated⟩ (by decide) (by decide) (by decide) rfl
      (by decide) (by decide)⟩

/-- C7: in a well-formed state, when `paging_map_fixed_attr` succeeds for a
non-empty range inside a Free or Claimed region `N`, the region list keeps
every other region and has in place of `N` an Allocated region
`[vaddr, vaddr + bytes)`, preceded by a Free region `[N.base, vaddr)` exactly
when `vaddr > N.base` and followed by a Free region
`[vaddr + bytes, N.base + N.size)` exactly when `N.base + N.size > vaddr + bytes`.
In particular, after `paging_alloc(n)` returned `v` (`n > 0`),
`paging_map_fixed_attr(v, frame, n)` returns, succeeds when every external
call succeeds, and on success turns the Claimed region `[v, v + n)` into an
Allocated one and creates no region. -/
theorem map_fixed_splits_node :
    (∀ (k : Kernel) (st : paging_state) (vaddr frame bytes flags : Nat) (st2 : paging_state)
      (pre post : List region) (N : region), WellFormed st → 0 < bytes →
      regions st = pre ++ N :: post → N.type ≠ NodeType_Allocated →
      N.base ≤ vaddr → vaddr + bytes ≤ N.base + N.size →
      paging_map_fixed_attr k st vaddr frame bytes flags = some (SYS_ERR_OK, st2) →
      links_ok st2 ∧
      regions st2 = pre ++
        ((if N.base < vaddr then [⟨N.base, vaddr - N.base, NodeType_Free⟩] else []) ++
        [⟨vaddr, bytes, NodeType_Allocated⟩] ++
        (if vaddr + bytes < N.base + N.size then
          [⟨vaddr + bytes, N.base + N.size - (vaddr + bytes), NodeType_Free⟩] else [])) ++
        post) ∧
    (∀ (k : Kernel) (st : paging_state) (n frame flags v : Nat) (st1 : paging_state),
      WellFormed st → 0 < n → paging_alloc st n = some (SYS_ERR_OK, v, st1) →
      ∃ res, paging_map_fixed_attr k st1 v frame n flags = some res ∧
        (always_ok k → res.1 = SYS_ERR_OK) ∧
        (res.1 = SYS_ERR_OK → ∃ pre post,
          regions st1 = pre ++ ⟨v, n, NodeType_Claimed⟩ :: post ∧
          regions res.2 = pre ++ ⟨v, n, NodeType_Allocated⟩ :: post)) := by
  constructor
  · intro k st vaddr frame bytes flags st2 pre post N hwf hb hreg hty h1 h2 hres
    obtain ⟨res, hres2, _, hok⟩ := map_fixed_core k st vaddr frame bytes flags pre post N hwf hb
      hreg hty h1 h2
    rw [hres] at hres2
    cases hres2
    exact hok rfl
  · intro k st n frame flags v st1 hwf hn hres
    obtain ⟨pre, r, post, a1, _, _, _, a5, a6, a7⟩ :=
      paging_alloc_first_fit_core st n v st1 hwf hres
    have hwf1 : WellFormed st1 := by
      obtain ⟨res, hres2, hok⟩ := (wellformed_preserved_core st hwf).1 n
      rw [hres] at hres2
      cases hres2
      exact (hok rfl).1
    obtain ⟨res, hres3, hk, hok⟩ := map_fixed_core k st1 v frame n flags pre _
      ⟨r.base, n, NodeType_Claimed⟩ hwf1 hn a7 (by simp) (by simp [a5]) (by simp [a5])
    refine ⟨res, hres3, hk, fun h => ⟨pre,
      (if n < r.size then [⟨r.base + n, r.size - n, NodeType_Free⟩] else []) ++ post, ?_, ?_⟩⟩
    · rw [a7, a5]
    · rw [(hok h).2, a5]
      simp

/-! ### Reachable states -/

theorem list_step.regions_kept {st st2 : paging_state} (h : list_step st st2) :
    regions st2 = regions st := by
  unfold Paging.regions node_ptrs
  rw [h.1, h.2.1, h.2.2.1]

theorem list_step.links_kept {st st2 : paging_state} (h : list_step st st2)
    (hl : links_ok st) : links_ok st2 := by
  unfold Paging.links_ok IsList node_ptrs at *
  rw [h.1, h.2.1, h.2.2.1]
  exact hl

theorem refill_func_step (k : Kernel) (st : paging_state) :
    list_step st (refill_func k st).2 := by
  unfold refill_func
  dsimp only
  have hcalls : ∀ frame, pages_of frame [Call.refill_func] = 0 := fun _ => rfl
  by_cases hf : err_is_fail (st.invoke k Call.refill_func).1 = true
  · rw [if_pos hf]
    exact ⟨rfl, rfl, rfl, [Call.refill_func], rfl, hcalls⟩
  · rw [if_neg hf]
    exact ⟨rfl, rfl, rfl, [Call.refill_func], rfl, hcalls⟩

theorem paging_map_frame_refill_step (k : Kernel) (st : paging_state) :
    list_step st (paging_map_frame_refill k st).2 := by
  unfold paging_map_frame_refill
  by_cases hs : should_refill_slabs st = true
  · rw [if_pos hs]
    dsimp only
    have h := refill_func_step k { st with slab_refilling := true }
    by_cases hf : err_is_fail (refill_func k { st with slab_refilling := true }).1 = true
    · rw [if_pos hf]
      exact h
    · rw [if_neg hf]
      exact h
  · rw [if_neg hs]
    exact ⟨rfl, rfl, rfl, [], by simp, fun _ => rfl⟩

/-- A successful `paging_map_frame_attr` is the refill step, then a
successful `paging_alloc`, then a successful `paging_map_fixed_attr` at the
address that was returned. -/
theorem paging_map_frame_attr_ok {k : Kernel} {st st2 : paging_state}
    {bytes frame flags buf : Nat}
    (h : paging_map_frame_attr k st bytes frame flags = some (SYS_ERR_OK, some buf, st2)) :
    ∃ st1, paging_alloc (paging_map_frame_refill k st).2 bytes = some (SYS_ERR_OK, buf, st1) ∧
      paging_map_fixed_attr k st1 buf frame bytes flags = some (SYS_ERR_OK, st2) := by
  unfold paging_map_frame_attr at h
  change (if err_is_fail (paging_map_frame_refill k st).1 = true then _ else _) = _ at h
  by_cases hf : err_is_fail (paging_map_frame_refill k st).1 = true
  · rw [if_pos hf] at h
    simp at h
  · rw [if_neg hf] at h
    cases ha : paging_alloc (paging_map_frame_refill k st).2 bytes with
    | none => simp [ha] at h
    | some a =>
      obtain ⟨ea, ba, sa⟩ := a
      simp only [ha] at h
      by_cases hfa : err_is_fail ea = true
      · rw [if_pos hfa] at h
        simp only [Option.some.injEq, Prod.mk.injEq] at h
        rw [h.1] at hfa
        exact absurd hfa (by decide)
      · rw [if_neg hfa] at h
        cases hm : paging_map_fixed_attr k sa ba frame bytes flags with
        | none => simp [hm] at h
        | some m =>
          obtain ⟨em, sm⟩ := m
          simp only [hm, Option.some.injEq, Prod.mk.injEq] at h
          obtain ⟨h1, h2, h3⟩ := h
          subst h1
          subst h2
          subst h3
          have : ea = SYS_ERR_OK := err_is_fail_false.mp (by simpa using hfa)
          subst this
          exact ⟨sa, rfl, hm⟩

/-- A successful `paging_alloc` on a proper list, in the region-list view. -/
theorem paging_alloc_ok_regions {st st2 : paging_state} {bytes buf : Nat} (hl : links_ok st)
    (h : paging_alloc st bytes = some (SYS_ERR_OK, buf, st2)) :
    links_ok st2 ∧ alloc_regions bytes (regions st) = some (buf, regions st2) ∧
    same_env st st2 := by
  obtain ⟨res, hres, hcase⟩ := paging_alloc_spec bytes hl
  rw [h] at hres
  cases hres
  rcases hcase with ⟨_, hr⟩ | ⟨b, rs, hs, _, e2, e3, e4, e5⟩
  · cases hr
  · have hb : buf = b := e2
    have hrs : regions st2 = rs := e4
    rw [hb, hrs]
    exact ⟨e3, hs, e5⟩

/-- A successful `paging_map_fixed_attr` on a proper list, in the region-list
view, and the pages its frame mappings install. -/
theorem paging_map_fixed_ok_regions {k : Kernel} {st st2 : paging_state}
    {vaddr frame bytes flags : Nat} (hl : links_ok st)
    (h : paging_map_fixed_attr k st vaddr frame bytes flags = some (SYS_ERR_OK, st2)) :
    links_ok st2 ∧
    ((bytes = 0 ∧ st2 = st) ∨
      (bytes ≠ 0 ∧ map_fixed_regions vaddr bytes (regions st) = some (regions st2))) ∧
    (∃ new, st2.calls = st.calls ++ new ∧
      (bytes % 4096 = 0 → bytes / 4096 ≤ pages_of frame new)) := by
  by_cases hb : bytes = 0
  · subst hb
    rw [paging_map_fixed_attr_zero] at h
    cases h
    exact ⟨hl, Or.inl ⟨rfl, rfl⟩, [], by simp, fun _ => by simp⟩
  · obtain ⟨res, hres, hcase⟩ := paging_map_fixed_attr_spec k vaddr frame bytes flags hb hl
    rw [h] at hres
    cases hres
    rcases hcase with ⟨_, hr⟩ | ⟨rs, st1, r, hs, e1, e2, e3, e4, e5⟩
    · cases hr
    · obtain ⟨r2, hr2, hext, hok⟩ := paging_map_pages_spec k frame flags bytes st1 vaddr bytes 0
        (Nat.le_refl _)
      rw [e4] at hr2
      cases hr2
      simp only [Prod.mk.injEq] at e5
      obtain ⟨e5a, e5b⟩ := e5
      subst e5b
      refine ⟨hext.keeps_links e1, Or.inr ⟨hb, ?_⟩, ?_⟩
      · rw [hext.regions_same, e2]
        exact hs
      · obtain ⟨new, hnew⟩ := hext.2.2.2.2.2.2.2
        refine ⟨new, by rw [hnew, e3.1], fun hal => ?_⟩
        have hp := (hok (by rw [← e5a]; rfl)).2.2 hal
        rw [hnew, pages_of_append] at hp
        omega

/-- An invariant of the region list that the initial list has and that the
region-list views of the operations keep holds in every reachable state, and
the links of the list stay consistent. -/
theorem Reach.invariant {okI : Nat → Prop} {okA : List region → Nat → Prop}
    {okM : List region → Nat → Nat → Prop} {okF : List region → Nat → Prop}
    (P : List region → Prop)
    (hinit : ∀ start, okI start → start < 2 ^ 32 →
      P [⟨start, 0xFFFFFFFF - start, NodeType_Free⟩])
    (halloc : ∀ rs bytes b rs2, P rs → bytes < 2 ^ 32 → okA rs bytes →
      alloc_regions bytes rs = some (b, rs2) → P rs2)
    (hmap : ∀ rs vaddr bytes rs2, P rs → vaddr < 2 ^ 32 → bytes < 2 ^ 32 → okM rs vaddr bytes →
      map_fixed_regions vaddr bytes rs = some rs2 → P rs2)
    (hframe : ∀ rs bytes b rs1, P rs → bytes < 2 ^ 32 → okF rs bytes →
      alloc_regions bytes rs = some (b, rs1) →
      P rs1 ∧ ∀ rs2, map_fixed_regions b bytes rs1 = some rs2 → P rs2)
    {st : paging_state} (h : Reach okI okA okM okF st) : links_ok st ∧ P (regions st) := by
  induction h with
  | init st0 start pdir ca hal hlt hnext =>
    obtain ⟨_, _, _, _, _, _, _, _, hlist⟩ := paging_init_state_head_core st0 start pdir ca hlt
    obtain ⟨hl, hr⟩ := hlist hnext
    rw [hr]
    exact ⟨hl, hinit start hal hlt⟩
  | alloc st bytes buf st2 _ hb hok hres ih =>
    obtain ⟨hl2, hreg, _⟩ := paging_alloc_ok_regions ih.1 hres
    exact ⟨hl2, halloc _ _ _ _ ih.2 hb hok hreg⟩
  | map_fixed k st vaddr frame bytes flags st2 _ hv hb hok hres ih =>
    obtain ⟨hl2, hcase, _⟩ := paging_map_fixed_ok_regions ih.1 hres
    rcases hcase with ⟨_, hst⟩ | ⟨_, hreg⟩
    · rw [hst]
      exact ih
    · exact ⟨hl2, hmap _ _ _ _ ih.2 hv hb hok hreg⟩
  | map_frame k st bytes frame flags buf st2 _ hb hok hres ih =>
    obtain ⟨st1, ha, hm⟩ := paging_map_frame_attr_ok hres
    have hstep := paging_map_frame_refill_step k st
    have hl0 := hstep.links_kept ih.1
    obtain ⟨hl1, hreg1, _⟩ := paging_alloc_ok_regions hl0 ha
    rw [hstep.regions_kept] at hreg1
    obtain ⟨hp1, hp2⟩ := hframe _ _ _ _ ih.2 hb hok hreg1
    obtain ⟨hl2, hcase, _⟩ := paging_map_fixed_ok_regions hl1 hm
    rcases hcase with ⟨_, hst⟩ | ⟨_, hreg⟩
    · rw [hst]
      exact ⟨hl1, hp1⟩
    · exact ⟨hl2, hp2 _ hreg⟩

/-! ### Page alignment (claims C8 and C9) -/

theorem add32_mod (a b : Nat) : add32 a b % 4096 = (a + b) % 4096 := by
  unfold add32
  omega

theorem sub32_mod_zero {a b : Nat} (hb : b % 4096 = 0) : sub32 a b % 4096 = a % 4096 := by
  unfold sub32
  omega

theorem sub32_mod_same {a b : Nat} (h : a % 4096 = b % 4096) : sub32 a b % 4096 = 0 := by
  unfold sub32
  omega

theorem sizes_paged_cons (r : region) (post : List region) :
    sizes_paged (r :: post) ↔
      (post = [] → r.size % 4096 = 4095) ∧ (post ≠ [] → r.size % 4096 = 0 ∧ sizes_paged post) := by
  cases post with
  | nil => simp [sizes_paged]
  | cons b rest => simp [sizes_paged]

theorem sizes_paged_append : ∀ (l1 l2 : List region), l2 ≠ [] →
    (sizes_paged (l1 ++ l2) ↔ (∀ r ∈ l1, r.size % 4096 = 0) ∧ sizes_paged l2)
  | [], l2, _ => by simp
  | a :: l1, l2, h => by
    have ih := sizes_paged_append l1 l2 h
    have hne : l1 ++ l2 ≠ [] := by simp [h]
    rw [List.cons_append, sizes_paged_cons, ih]
    simp only [hne, false_implies, ne_eq, not_false_eq_true, true_implies, true_and,
      List.mem_cons, forall_eq_or_imp]
    tauto

/-- Replacing a region by a run whose sizes are page multiples up to the
last one, the last one having the residue of the old size, keeps the sizes
paged. -/
theorem sizes_paged_replace {pre post ini : List region} {r l : region}
    (h : sizes_paged (pre ++ r :: post)) (hi : ∀ x ∈ ini, x.size % 4096 = 0)
    (hlast : l.size % 4096 = r.size % 4096) :
    sizes_paged (pre ++ (ini ++ [l]) ++ post) := by
  rw [sizes_paged_append pre _ (by simp), sizes_paged_cons] at h
  have e : pre ++ (ini ++ [l]) ++ post = pre ++ (ini ++ (l :: post)) := by simp
  rw [e, sizes_paged_append pre _ (by simp), sizes_paged_append ini _ (by simp),
    sizes_paged_cons, hlast]
  exact ⟨h.1, hi, h.2⟩

theorem paged_replace {pre post ini : List region} {r l : region}
    (h : paged (pre ++ r :: post)) (hi : ∀ x ∈ ini, x.size % 4096 = 0)
    (hlast : l.size % 4096 = r.size % 4096) (hb : ∀ x ∈ ini ++ [l], x.base % 4096 = 0) :
    paged (pre ++ (ini ++ [l]) ++ post) := by
  refine ⟨fun x hx => ?_, sizes_paged_replace h.2 hi hlast⟩
  have hx2 : x ∈ ini ++ [l] ∨ x ∈ pre ++ r :: post := by
    simp only [List.mem_append, List.mem_cons, List.mem_singleton] at hx ⊢
    tauto
  rcases hx2 with h1 | h2
  · exact hb x h1
  · exact h.1 x h2

theorem claim_region_paged {bytes : Nat} {r : region} (hb : bytes % 4096 = 0)
    (hr : r.base % 4096 = 0) :
    ∃ ini l, claim_region bytes r = ini ++ [l] ∧ (∀ x ∈ ini, x.size % 4096 = 0) ∧
      l.size % 4096 = r.size % 4096 ∧ ∀ x ∈ ini ++ [l], x.base % 4096 = 0 := by
  unfold claim_region
  by_cases hlt : bytes < r.size
  · rw [if_pos hlt]
    refine ⟨[⟨r.base, bytes, NodeType_Claimed⟩],
      ⟨add32 r.base bytes, r.size - bytes, NodeType_Free⟩, rfl, by simpa using hb, ?_, ?_⟩
    · show (r.size - bytes) % 4096 = r.size % 4096
      omega
    · intro x hx
      simp only [List.mem_append, List.mem_singleton, List.mem_cons, List.not_mem_nil,
        or_false] at hx
      rcases hx with rfl | rfl
      · exact hr
      · show add32 r.base bytes % 4096 = 0
        rw [add32_mod]
        omega
  · rw [if_neg hlt]
    exact ⟨[], ⟨r.base, r.size, NodeType_Claimed⟩, rfl, by simp, rfl, by simpa using hr⟩

theorem split_region_paged {vaddr bytes : Nat} {r : region} (hv : vaddr % 4096 = 0)
    (hb : bytes % 4096 = 0) (hr : r.base % 4096 = 0) :
    ∃ ini l, split_region vaddr bytes r = ini ++ [l] ∧ (∀ x ∈ ini, x.size % 4096 = 0) ∧
      l.size % 4096 = r.size % 4096 ∧ ∀ x ∈ ini ++ [l], x.base % 4096 = 0 := by
  have hvb : sub32 vaddr r.base % 4096 = 0 := by
    rw [sub32_mod_zero hr]; exact hv
  have hrs : sub32 (sub32 r.size (sub32 vaddr r.base)) bytes % 4096 = r.size % 4096 := by
    rw [sub32_mod_zero hb, sub32_mod_zero hvb]
  have hs1 : sub32 r.size (sub32 (sub32 r.size (sub32 vaddr r.base)) bytes) % 4096 = 0 :=
    sub32_mod_same hrs.symm
  have hT : add32 vaddr bytes % 4096 = 0 := by
    rw [add32_mod]; omega
  unfold split_region
  by_cases hR : add32 vaddr bytes < add32 r.base r.size
  · by_cases hL : r.base < vaddr
    · simp only [hR, hL, if_true]
      refine ⟨[⟨r.base, sub32 vaddr r.base, NodeType_Free⟩,
        ⟨vaddr, sub32 (sub32 r.size (sub32 (sub32 r.size (sub32 vaddr r.base)) bytes))
          (sub32 vaddr r.base), NodeType_Allocated⟩],
        ⟨add32 vaddr bytes, sub32 (sub32 r.size (sub32 vaddr r.base)) bytes, NodeType_Free⟩,
        rfl, ?_, hrs, ?_⟩
      · intro x hx
        simp only [List.mem_cons, List.not_mem_nil, or_false] at hx
        rcases hx with rfl | rfl
        · exact hvb
        · show sub32 _ _ % 4096 = 0
          rw [sub32_mod_zero hvb]; exact hs1
      · intro x hx
        simp only [List.mem_append, List.mem_singleton, List.mem_cons, List.not_mem_nil,
          or_false] at hx
        rcases hx with (rfl | rfl) | rfl
        · exact hr
        · exact hv
        · exact hT
    · simp only [hR, hL, if_true, if_false]
      refine ⟨[⟨r.base, sub32 r.size (sub32 (sub32 r.size (sub32 vaddr r.base)) bytes),
          NodeType_Allocated⟩],
        ⟨add32 vaddr bytes, sub32 (sub32 r.size (sub32 vaddr r.base)) bytes, NodeType_Free⟩,
        rfl, by simpa using hs1, hrs, ?_⟩
      intro x hx
      simp only [List.mem_append, List.mem_singleton, List.mem_cons, List.not_mem_nil,
        or_false] at hx
      rcases hx with rfl | rfl
      · exact hr
      · exact hT
  · by_cases hL : r.base < vaddr
    · simp only [hR, hL, if_true, if_false]
      refine ⟨[⟨r.base, sub32 vaddr r.base, NodeType_Free⟩],
        ⟨vaddr, sub32 r.size (sub32 vaddr r.base), NodeType_Allocated⟩,
        rfl, by simpa using hvb, sub32_mod_zero hvb, ?_⟩
      intro x hx
      simp only [List.mem_append, List.mem_singleton, List.mem_cons, List.not_mem_nil,
        or_false] at hx
      rcases hx with rfl | rfl
      · exact hr
      · exact hv
    · simp only [hR, hL, if_false]
      exact ⟨[], ⟨r.base, r.size, NodeType_Allocated⟩, rfl, by simp, rfl, by simpa using hr⟩

theorem alloc_regions_paged {rs rs2 : List region} {bytes b : Nat} (hp : paged rs)
    (hb : bytes % 4096 = 0) (h : alloc_regions bytes rs = some (b, rs2)) :
    paged rs2 ∧ b % 4096 = 0 := by
  obtain ⟨pre, r, post, e1, _, e3, e4, e5⟩ := alloc_regions_some h
  subst e1
  subst e5
  have hr : r.base % 4096 = 0 := hp.1 r (by simp)
  obtain ⟨ini, l, a1, a2, a3, a4⟩ := claim_region_paged (r := r) hb hr
  rw [a1]
  exact ⟨paged_replace hp a2 a3 a4, by rw [e4]; exact hr⟩

theorem map_fixed_regions_paged {rs rs2 : List region} {vaddr bytes : Nat} (hp : paged rs)
    (hv : vaddr % 4096 = 0) (hb : bytes % 4096 = 0)
    (h : map_fixed_regions vaddr bytes rs = some rs2) : paged rs2 := by
  obtain ⟨pre, r, post, e1, _, _, e5⟩ := map_fixed_regions_some h
  subst e1
  subst e5
  have hr : r.base % 4096 = 0 := hp.1 r (by simp)
  obtain ⟨ini, l, a1, a2, a3, a4⟩ := split_region_paged hv hb hr
  rw [a1]
  exact paged_replace hp a2 a3 a4

theorem sizes_paged_last : ∀ (rs : List region), sizes_paged rs →
    (∀ r ∈ rs.dropLast, r.size % 4096 = 0) ∧
    (∀ r, rs.getLast? = some r → r.size % 4096 = 4095)
  | [], _ => by simp
  | [a], h => by
    have ha : a.size % 4096 = 4095 := h
    simp [ha]
  | a :: b :: rest, h => by
    obtain ⟨h1, h2⟩ := h
    have ih := sizes_paged_last (b :: rest) h2
    constructor
    · intro r hr
      rw [List.dropLast_cons₂] at hr
      rcases List.mem_cons.mp hr with rfl | hm
      · exact h1
      · exact ih.1 r hm
    · intro r hr
      rw [List.getLast?_cons_cons] at hr
      exact ih.2 r hr

/-- In every state reachable by page-multiple calls the region list is paged
and its links are consistent. -/
theorem ReachablePaged.is_paged {st : paging_state} (h : ReachablePaged st) :
    links_ok st ∧ paged (regions st) := by
  refine Reach.invariant Paging.paged ?_ ?_ ?_ ?_ h
  · intro start hal hlt
    unfold BASE_PAGE_SIZE at hal
    refine ⟨by simpa using hal, ?_⟩
    show (0xFFFFFFFF - start) % 4096 = 4095
    omega
  · intro rs bytes b rs2 hp _ hb hs
    exact (alloc_regions_paged hp hb hs).1
  · intro rs vaddr bytes rs2 hp _ _ hok hs
    exact map_fixed_regions_paged hp hok.1 hok.2 hs
  · intro rs bytes b rs1 hp _ hb hs
    obtain ⟨hp1, hbal⟩ := alloc_regions_paged hp hb hs
    exact ⟨hp1, fun rs2 hs2 => map_fixed_regions_paged hp1 hbal hb hs2⟩

theorem init_state_reachable : ReachableAligned init_state :=
  Reach.init blank_state 0x40000000 1 2 (by decide) (by decide) rfl

theorem alloc1_state_reachable : ReachableAligned alloc1_state :=
  Reach.alloc init_state 1 0x40000000 alloc1_state init_state_reachable (by decide) trivial rfl

theorem claimed_state_reachable : Reachable claimed_state :=
  Reach.alloc init_state 0x2000 0x40000000 claimed_state
    (Reach.init blank_state 0x40000000 1 2 trivial (by decide) rfl) (by decide) trivial rfl

theorem part_mapped_state_reachable : Reachable part_mapped_state :=
  Reach.map_fixed ok_kernel claimed_state 0x40000000 7 0x1000 3 part_mapped_state
    claimed_state_reachable (by decide) (by decide) trivial rfl

/-- C9 (counterexample): the state right after `paging_init_state` at
`0x40000000` is reachable and its region has size `0xBFFFFFFF`, not a
multiple of 4096; the state after `paging_alloc(1)` is reachable and has a
region with base `0x40000001`, not a multiple of 4096. -/
theorem reachable_not_page_aligned :
    (ReachableAligned init_state ∧
      ¬ (∀ r ∈ regions init_state, r.base % 4096 = 0 ∧ r.size % 4096 = 0)) ∧
    (ReachableAligned alloc1_state ∧
      regions alloc1_state = [⟨0x40000000, 1, NodeType_Claimed⟩,
        ⟨0x40000001, 0xBFFFFFFE, NodeType_Free⟩] ∧
      ¬ (∀ r ∈ regions alloc1_state, r.base % 4096 = 0)) :=
  ⟨⟨init_state_reachable, by decide⟩, alloc1_state_reachable, by decide, by decide⟩

/-- C9 (amended): in every paging state reachable from `paging_init_state`
(page-aligned `start_vaddr`) by successful `paging_alloc`,
`paging_map_fixed_attr` and `paging_map_frame_attr` calls whose sizes and
addresses are multiples of 4096, every region's base is a multiple of 4096,
every region's size except the last one's is a multiple of 4096, and the
last region's size is 4095 modulo 4096. -/
theorem reachable_paged_aligned (st : paging_state) (h : ReachablePaged st) :
    (∀ r ∈ regions st, r.base % 4096 = 0) ∧
    (∀ r ∈ (regions st).dropLast, r.size % 4096 = 0) ∧
    (∀ r, (regions st).getLast? = some r → r.size % 4096 = 4095) := by
  obtain ⟨_, hb, hs⟩ := h.is_paged
  exact ⟨hb, sizes_paged_last _ hs⟩

theorem init_state_reachable_paged : ReachablePaged init_state :=
  Reach.init blank_state 0x40000000 1 2 (by decide) (by decide) rfl

theorem whole_mapped_state_reachable_paged : ReachablePaged whole_mapped_state :=
  Reach.map_fixed ok_kernel claimed_state 0x40000000 7 0x2000 3 whole_mapped_state
    (Reach.alloc init_state 0x2000 0x40000000 claimed_state init_state_reachable_paged
      (by decide) (by decide) rfl)
    (by decide) (by decide) (by decide) rfl

/-- C9 (amended), at a concrete input: after `paging_alloc(0x2000)` and the
mapping of the claimed region. -/
theorem reachable_paged_aligned_witness :
    ReachablePaged whole_mapped_state ∧
    (∀ r ∈ regions whole_mapped_state, r.base % 4096 = 0) ∧
    (∀ r ∈ (regions whole_mapped_state).dropLast, r.size % 4096 = 0) ∧
    (∀ r, (regions whole_mapped_state).getLast? = some r → r.size % 4096 = 4095) :=
  ⟨whole_mapped_state_reachable_paged,
    reachable_paged_aligned whole_mapped_state whole_mapped_state_reachable_paged⟩

/-- C8 (counterexample): in the reachable state `init_state`,
`paging_map_frame_attr` of `0x1001` bytes succeeds and its only mapping of
the frame installs 1 page, fewer than the 2 pages that `0x1001` bytes need;
in the reachable state `alloc1_state`, `paging_map_frame_attr` of `0x1000`
bytes succeeds and returns `0x40000001`, not a multiple of 4096. -/
theorem map_frame_not_page_aligned :
    (ReachableAligned init_state ∧
      (paging_map_frame_attr ok_kernel init_state 0x1001 7 3).map
          (fun r => (r.1, r.2.1, pages_of 7 r.2.2.calls))
        = some (SYS_ERR_OK, some 0x40000000, 1) ∧
      pages_of 7 init_state.calls = 0 ∧ ¬ ((0x1001 + 4095) / 4096 ≤ 1)) ∧
    (ReachableAligned alloc1_state ∧
      (paging_map_frame_attr ok_kernel alloc1_state 0x1000 7 3).map (fun r => (r.1, r.2.1))
        = some (SYS_ERR_OK, some 0x40000001) ∧
      ¬ (0x40000001 % 4096 = 0)) :=
  ⟨⟨init_state_reachable, by decide, by decide, by decide⟩,
    alloc1_state_reachable, by decide, by decide⟩

/-- C8 (amended): in every paging state reachable by page-multiple calls, a
successful `paging_map_frame_attr` of `n` bytes, `n` a multiple of 4096,
returns an address that is a multiple of 4096, and the `vnode_map` calls of
the frame that it issues install at least `n / 4096` pages in all. -/
theorem map_frame_paged (k : Kernel) (st st2 : paging_state) (n frame flags buf : Nat)
    (hreach : ReachablePaged st) (hn : n % 4096 = 0)
    (h : paging_map_frame_attr k st n frame flags = some (SYS_ERR_OK, some buf, st2)) :
    buf % 4096 = 0 ∧
    ∃ new, st2.calls = st.calls ++ new ∧ n / 4096 ≤ pages_of frame new := by
  obtain ⟨hl, hp⟩ := hreach.is_paged
  obtain ⟨st1, ha, hm⟩ := paging_map_frame_attr_ok h
  have hstep := paging_map_frame_refill_step k st
  obtain ⟨hl1, hreg1, henv⟩ := paging_alloc_ok_regions (hstep.links_kept hl) ha
  rw [hstep.regions_kept] at hreg1
  obtain ⟨_, _, new1, hc1, hp1⟩ := paging_map_fixed_ok_regions hl1 hm
  obtain ⟨new0, hc0, _⟩ := hstep.2.2.2
  refine ⟨(alloc_regions_paged hp hn hreg1).2, new0 ++ new1, ?_, ?_⟩
  · rw [hc1, henv.1, hc0, List.append_assoc]
  · rw [pages_of_append]
    exact Nat.le_trans (hp1 hn) (Nat.le_add_left _ _)

/-- C8 (amended), at a concrete input. -/
theorem map_frame_paged_witness :
    ReachablePaged init_state ∧ (0x1000 % 4096 = 0) ∧ (0x40000000 % 4096 = 0) :=
  ⟨init_state_reachable_paged, by decide,
    (map_frame_paged ok_kernel init_state
      (match paging_map_frame_attr ok_kernel init_state 0x1000 7 3 with
        | some r => r.2.2
        | none => init_state)
      0x1000 7 3 0x40000000 init_state_reachable_paged (by decide) rfl).1⟩

/-! ### Adjacent free regions (claim C10) -/

theorem naf_tail {a : region} {l : List region} (h : no_adjacent_free (a :: l)) :
    no_adjacent_free l := by
  cases l with
  | nil => trivial
  | cons b rest => exact h.2

theorem naf_cons {a : region} {l : List region}
    (h1 : ∀ b, l.head? = some b → ¬ (a.type = NodeType_Free ∧ b.type = NodeType_Free))
    (h2 : no_adjacent_free l) : no_adjacent_free (a :: l) := by
  cases l with
  | nil => trivial
  | cons b rest => exact ⟨h1 b rfl, h2⟩

/-- A run without adjacent free regions can be put in front of a list
without them whose first region is not free. -/
theorem naf_append_left : ∀ (mid post : List region), no_adjacent_free mid →
    no_adjacent_free post → (∀ b, post.head? = some b → b.type ≠ NodeType_Free) →
    no_adjacent_free (mid ++ post)
  | [], post, _, h2, _ => h2
  | [a], post, _, h2, h3 => naf_cons (fun b hb hf => h3 b hb hf.2) h2
  | a :: b :: rest, post, h1, h2, h3 => by
    have ih := naf_append_left (b :: rest) post h1.2 h2 h3
    exact ⟨h1.1, ih⟩

/-- Replacing a free region by a run without adjacent free regions keeps the
list without them. -/
theorem naf_replace_free {mid post : List region} {r : region} :
    ∀ (pre : List region), no_adjacent_free (pre ++ r :: post) → r.type = NodeType_Free →
      no_adjacent_free mid → no_adjacent_free (pre ++ mid ++ post)
  | [], h, hr, hm => by
    have hpost : no_adjacent_free post := naf_tail h
    have hhead : ∀ b, post.head? = some b → b.type ≠ NodeType_Free := by
      intro b hb hf
      cases post with
      | nil => simp at hb
      | cons c rest =>
        simp at hb
        subst hb
        exact h.1 ⟨hr, hf⟩
    exact naf_append_left mid post hm hpost hhead
  | [a], h, hr, hm => by
    have ha : a.type ≠ NodeType_Free := fun hf => h.1 ⟨hf, hr⟩
    have ih := naf_replace_free [] (naf_tail h) hr hm
    exact naf_cons (fun b _ hf => ha hf.1) ih
  | a :: b :: pre, h, hr, hm => by
    have ih := naf_replace_free (b :: pre) (naf_tail h) hr hm
    exact ⟨h.1, ih⟩

/-- Replacing a region by one that is not free keeps the list without
adjacent free regions. -/
theorem naf_replace_nonfree {post : List region} {r x : region} (hx : x.type ≠ NodeType_Free) :
    ∀ (pre : List region), no_adjacent_free (pre ++ r :: post) →
      no_adjacent_free (pre ++ x :: post)
  | [], h => naf_cons (fun b _ hf => hx hf.1) (naf_tail h)
  | [a], h => by
    have ih := naf_replace_nonfree hx [] (naf_tail h)
    exact naf_cons (fun b hb hf => by
      simp at hb
      subst hb
      exact hx hf.2) ih
  | a :: b :: pre, h => by
    have ih := naf_replace_nonfree hx (b :: pre) (naf_tail h)
    exact ⟨h.1, ih⟩

theorem claim_region_naf (bytes : Nat) (r : region) :
    no_adjacent_free (claim_region bytes r) := by
  unfold claim_region
  split <;> simp [no_adjacent_free]

theorem split_region_naf (vaddr bytes : Nat) (r : region) :
    no_adjacent_free (split_region vaddr bytes r) := by
  unfold split_region
  by_cases hR : add32 vaddr bytes < add32 r.base r.size <;> by_cases hL : r.base < vaddr <;>
    simp [hR, hL, no_adjacent_free]

theorem alloc_regions_naf {rs rs2 : List region} {bytes b : Nat} (hp : no_adjacent_free rs)
    (h : alloc_regions bytes rs = some (b, rs2)) : no_adjacent_free rs2 := by
  obtain ⟨pre, r, post, e1, _, e3, _, e5⟩ := alloc_regions_some h
  subst e1
  subst e5
  exact naf_replace_free pre hp e3.1 (claim_region_naf bytes r)

theorem map_fixed_regions_naf {rs rs2 : List region} {vaddr bytes : Nat}
    (hp : no_adjacent_free rs) (hw : whole_claimed rs vaddr bytes)
    (h : map_fixed_regions vaddr bytes rs = some rs2) : no_adjacent_free rs2 := by
  obtain ⟨pre, r, post, e1, _, e3, e5⟩ := map_fixed_regions_some h
  subst e1
  subst e5
  cases hty : r.type with
  | NodeType_Free => exact naf_replace_free pre hp hty (split_region_naf vaddr bytes r)
  | NodeType_Allocated => exact absurd hty e3.1
  | NodeType_Claimed =>
    obtain ⟨hb, he⟩ := hw r (by simp) hty e3
    have hsplit : split_region vaddr bytes r = [⟨r.base, r.size, NodeType_Allocated⟩] := by
      unfold split_region
      have hR : ¬ (add32 vaddr bytes < add32 r.base r.size) := by omega
      have hL : ¬ (r.base < vaddr) := by omega
      simp [hR, hL]
    rw [hsplit]
    have := naf_replace_nonfree (x := ⟨r.base, r.size, NodeType_Allocated⟩) (by simp) pre hp
    simpa using this

theorem part_mapped_state_whole_fails :
    ¬ whole_claimed (regions claimed_state) 0x40000000 0x1000 := by
  intro h
  have := h ⟨0x40000000, 0x2000, NodeType_Claimed⟩ (by decide) rfl (by decide)
  exact absurd this.2 (by decide)

/-- C10 (counterexample): after `paging_init_state` at `0x40000000`,
`paging_alloc(0x2000)` and `paging_map_fixed_attr(0x40000000, frame, 0x1000)`
both succeed, and the region list is then an Allocated region followed by two
adjacent Free regions. -/
theorem reachable_adjacent_free :
    Reachable part_mapped_state ∧
    regions part_mapped_state = [⟨0x40000000, 0x1000, NodeType_Allocated⟩,
      ⟨0x40001000, 0x1000, NodeType_Free⟩, ⟨0x40002000, 0xBFFFDFFF, NodeType_Free⟩] ∧
    ¬ no_adjacent_free (regions part_mapped_state) :=
  ⟨part_mapped_state_reachable, by decide, by decide⟩

/-- C10 (amended): in every paging state reachable from `paging_init_state`
by successful `paging_alloc` calls and successful `paging_map_fixed_attr`
calls that do not split a Claimed region (a Claimed region that passes the
test for the range starts and ends with it), no two adjacent regions of the
region list are both Free. -/
theorem reachable_whole_no_adjacent_free (st : paging_state) (h : ReachableWhole st) :
    no_adjacent_free (regions st) := by
  refine (Reach.invariant no_adjacent_free ?_ ?_ ?_ ?_ h).2
  · intro start _ _
    trivial
  · intro rs bytes b rs2 hp _ _ hs
    exact alloc_regions_naf hp hs
  · intro rs vaddr bytes rs2 hp _ _ hok hs
    exact map_fixed_regions_naf hp hok hs
  · intro rs bytes b rs1 _ _ hok _
    exact absurd hok (fun hf => hf)

theorem whole_mapped_state_reachable : ReachableWhole whole_mapped_state :=
  Reach.map_fixed ok_kernel claimed_state 0x40000000 7 0x2000 3 whole_mapped_state
    (Reach.alloc init_state 0x2000 0x40000000 claimed_state
      (Reach.init blank_state 0x40000000 1 2 trivial (by decide) rfl) (by decide) trivial rfl)
    (by decide) (by decide) (by decide) rfl

/-- C10 (amended), at a concrete input: after `paging_alloc(0x2000)` and the
mapping of the whole claimed region. -/
theorem reachable_whole_no_adjacent_free_witness :
    ReachableWhole whole_mapped_state ∧
    regions whole_mapped_state = [⟨0x40000000, 0x2000, NodeType_Allocated⟩,
      ⟨0x40002000, 0xBFFFDFFF, NodeType_Free⟩] ∧
    no_adjacent_free (regions whole_mapped_state) :=
  ⟨whole_mapped_state_reachable, by decide,
    reachable_whole_no_adjacent_free whole_mapped_state whole_mapped_state_reachable⟩

/-- C7, at a concrete input: mapping the second page of the free region of
`init_state` splits it in three. -/
theorem map_fixed_splits_node_witness :
    WellFormed init_state ∧
    regions init_state = [] ++ ⟨0x40000000, 0xBFFFFFFF, NodeType_Free⟩ :: [] ∧
    regions (match paging_map_fixed_attr ok_kernel init_state 0x40001000 7 0x1000 3 with
        | some r => r.2
        | none => init_state)
      = [⟨0x40000000, 0x1000, NodeType_Free⟩, ⟨0x40001000, 0x1000, NodeType_Allocated⟩,
          ⟨0x40002000, 0xBFFFDFFF, NodeType_Free⟩] :=
  ⟨by decide, by decide,
    (map_fixed_splits_node.1 ok_kernel init_state 0x40001000 7 0x1000 3
      (match paging_map_fixed_attr ok_kernel init_state 0x40001000 7 0x1000 3 with
        | some r => r.2
        | none => init_state)
      [] [] ⟨0x40000000, 0xBFFFFFFF, NodeType_Free⟩ (by decide) (by decide) (by decide)
      (by decide) (by decide) (by decide) rfl).2⟩

/-! ### The refill flag and the wrap-around (claims C18 and C19) -/

/-- C18 at a failing input: in a reachable state with five free slab elements
and `slab_refilling` false, with a refill hook that fails,
`paging_map_frame_attr` runs the hook, returns `LIB_ERR_VREGION_MAP` and leaves
`slab_refilling` true. -/
theorem map_frame_leaves_refilling_set :
    slab_freecount drained_state = 5 ∧ drained_state.slab_refilling = false ∧
    (paging_map_frame_attr refill_fails_kernel drained_state 0x1000 7 3).map
        (fun r => (r.1, r.2.1, r.2.2.slab_refilling, r.2.2.calls))
      = some (LIB_ERR_VREGION_MAP, none, true, [Call.refill_func]) := by
  decide!

/-- C19 at a failing input: after `paging_init_state` at `0x40000000` the one
region ends at `0xFFFFFFFF`; `paging_map_fixed_attr(0xFFF00000, frame, 0x200000)`
succeeds although no region holds the range `[0xFFF00000, 0x100100000)`: the
32-bit sum `vaddr + bytes` is `0x100000`. -/
theorem map_fixed_accepts_wrapped_range :
    WellFormed init_state ∧
    regions init_state = [⟨0x40000000, 0xBFFFFFFF, NodeType_Free⟩] ∧
    (paging_map_fixed_attr ok_kernel init_state 0xFFF00000 7 0x200000 3).map Prod.fst
      = some SYS_ERR_OK ∧
    ¬ ∃ r ∈ regions init_state, r.type ≠ NodeType_Allocated ∧ r.base ≤ 0xFFF00000 ∧
        0xFFF00000 + 0x200000 ≤ r.base + r.size := by
  decide!

/-! ### The region type of an address (claim C20) -/

theorem type_at_append (l1 l2 : List region) (a : Nat) :
    type_at (l1 ++ l2) a = if (∃ r ∈ l1, r.has a = true) then type_at l1 a else type_at l2 a := by
  unfold type_at
  rw [List.find?_append]
  by_cases h : ∃ r ∈ l1, r.has a = true
  · rw [if_pos h]
    obtain ⟨r, hr, ha⟩ := h
    cases hf : l1.find? (fun r => r.has a) with
    | none =>
      rw [List.find?_eq_none] at hf
      exact absurd ha (hf r hr)
    | some x => rfl
  · rw [if_neg h]
    have hf : l1.find? (fun r => r.has a) = none := by
      rw [List.find?_eq_none]
      intro r hr ha
      exact h ⟨r, hr, ha⟩
    rw [hf]
    rfl

theorem type_at_skip (l1 l2 : List region) (a : Nat) (h : ∀ r ∈ l1, r.has a = false) :
    type_at (l1 ++ l2) a = type_at l2 a := by
  rw [type_at_append, if_neg]
  rintro ⟨r, hr, ha⟩
  rw [h r hr] at ha
  cases ha

theorem type_at_head (r : region) (l : List region) (a : Nat) (h : r.has a = true) :
    type_at (r :: l) a = some r.type := by
  simp [type_at, List.find?_cons, h]

theorem type_at_tail (r : region) (l : List region) (a : Nat) (h : r.has a = false) :
    type_at (r :: l) a = type_at l a := by
  simp [type_at, List.find?_cons, h]

/-- The regions before a region of a contiguous list lie below it. -/
theorem pre_below {pre post : List region} {N : region} (hc : contiguous (pre ++ N :: post))
    (a : Nat) (ha : N.base ≤ a) : ∀ r ∈ pre, r.has a = false := by
  intro r hr
  cases pre with
  | nil => simp at hr
  | cons x pre =>
    have hsp := (contiguous_cons_iff_spans _ x).mp hc
    have hsp2 : spans x.base ((x :: pre) ++ N :: post) := hsp
    rw [spans_append] at hsp2
    obtain ⟨h1, h2⟩ := hsp2
    have hN : N.base = x.base + total_size (x :: pre) := h2.1
    have hle := spans_end_le _ _ h1 r hr
    simp only [region.has, decide_eq_false_iff_not, not_and, not_lt]
    intro _
    omega

/-- The types of the addresses of a region after a range inside it was
mapped: the range is Allocated, the rest of the region is Free. -/
theorem type_at_split (N : region) (vaddr bytes a : Nat) (post : List region)
    (h1 : N.base ≤ vaddr) (h2 : vaddr + bytes ≤ N.base + N.size)
    (ha1 : N.base ≤ a) (ha2 : a < N.base + N.size) :
    type_at (((if N.base < vaddr then [⟨N.base, vaddr - N.base, NodeType_Free⟩] else []) ++
        [⟨vaddr, bytes, NodeType_Allocated⟩] ++
        (if vaddr + bytes < N.base + N.size then
          [⟨vaddr + bytes, N.base + N.size - (vaddr + bytes), NodeType_Free⟩] else [])) ++ post) a
      = some (if vaddr ≤ a ∧ a < vaddr + bytes then NodeType_Allocated else NodeType_Free) := by
  by_cases hlow : a < vaddr
  · have hl : N.base < vaddr := by omega
    have hcond : ¬ (vaddr ≤ a ∧ a < vaddr + bytes) := by omega
    rw [if_pos hl, if_neg hcond]
    exact type_at_head _ _ _ (by simp only [region.has, decide_eq_true_eq]; omega)
  · have hleft : ∀ r ∈ (if N.base < vaddr then
        [(⟨N.base, vaddr - N.base, NodeType_Free⟩ : region)] else []), r.has a = false := by
      intro r hr
      split at hr
      · simp only [List.mem_singleton] at hr
        subst hr
        simp only [region.has, decide_eq_false_iff_not]
        omega
      · simp at hr
    rw [List.append_assoc, List.append_assoc, type_at_skip _ _ _ hleft]
    by_cases hin : a < vaddr + bytes
    · have hcond : vaddr ≤ a ∧ a < vaddr + bytes := ⟨by omega, hin⟩
      rw [if_pos hcond]
      exact type_at_head _ _ _ (by simp only [region.has, decide_eq_true_eq]; omega)
    · have hcond : ¬ (vaddr ≤ a ∧ a < vaddr + bytes) := by omega
      have hr : vaddr + bytes < N.base + N.size := by omega
      rw [if_neg hcond, if_pos hr]
      simp only [List.singleton_append, List.cons_append, List.nil_append]
      rw [type_at_tail _ _ _ (by simp only [region.has, decide_eq_false_iff_not]; omega)]
      exact type_at_head _ _ _ (by simp only [region.has, decide_eq_true_eq]; omega)

/-- The regions that replace a region hold no address outside it. -/
theorem split_has_not (N : region) (vaddr bytes a : Nat)
    (h1 : N.base ≤ vaddr) (h2 : vaddr + bytes ≤ N.base + N.size)
    (hout : ¬ (N.base ≤ a ∧ a < N.base + N.size)) :
    ∀ r ∈ ((if N.base < vaddr then [(⟨N.base, vaddr - N.base, NodeType_Free⟩ : region)] else []) ++
        [⟨vaddr, bytes, NodeType_Allocated⟩] ++
        (if vaddr + bytes < N.base + N.size then
          [⟨vaddr + bytes, N.base + N.size - (vaddr + bytes), NodeType_Free⟩] else [])),
      r.has a = false := by
  intro r hr
  simp only [List.mem_append, List.mem_singleton] at hr
  simp only [region.has, decide_eq_false_iff_not]
  rcases hr with (hr | hr) | hr
  · split at hr
    · simp only [List.mem_singleton] at hr
      subst hr
      simp only
      omega
    · simp at hr
  · subst hr
    simp only
    omega
  · split at hr
    · simp only [List.mem_singleton] at hr
      subst hr
      simp only
      omega
    · simp at hr

/-- C20 (amended): when `paging_map_fixed_attr` succeeds on a well-formed
state for a non-empty range inside a region `N` that is Free or Claimed, no
address outside `N` changes its region type; every address of `N` outside
`[vaddr, vaddr + bytes)` is Free afterwards, also when `N` was Claimed, and
every address of the range is Allocated. -/
theorem map_fixed_type_outside (k : Kernel) (st : paging_state) (vaddr frame bytes flags : Nat)
    (st2 : paging_state) (pre post : List region) (N : region) (hwf : WellFormed st)
    (hb : 0 < bytes) (hreg : regions st = pre ++ N :: post) (hty : N.type ≠ NodeType_Allocated)
    (h1 : N.base ≤ vaddr) (h2 : vaddr + bytes ≤ N.base + N.size)
    (hres : paging_map_fixed_attr k st vaddr frame bytes flags = some (SYS_ERR_OK, st2))
    (a : Nat) :
    (N.base ≤ a ∧ a < N.base + N.size →
      type_at (regions st) a = some N.type ∧
      type_at (regions st2) a
        = some (if vaddr ≤ a ∧ a < vaddr + bytes then NodeType_Allocated else NodeType_Free)) ∧
    (¬ (N.base ≤ a ∧ a < N.base + N.size) → type_at (regions st2) a = type_at (regions st) a) := by
  obtain ⟨res, hres2, _, hok⟩ := map_fixed_core k st vaddr frame bytes flags pre post N hwf hb
    hreg hty h1 h2
  rw [hres] at hres2
  cases hres2
  obtain ⟨_, hreg2⟩ := hok rfl
  have hc : contiguous (pre ++ N :: post) := by rw [← hreg]; exact hwf.2.2.1
  rw [hreg, hreg2]
  constructor
  · rintro ⟨ha1, ha2⟩
    have hpre := pre_below hc a ha1
    rw [type_at_skip _ _ _ hpre, List.append_assoc, type_at_skip _ _ _ hpre]
    exact ⟨type_at_head _ _ _ (by simp only [region.has, decide_eq_true_eq]; omega),
      type_at_split N vaddr bytes a post h1 h2 ha1 ha2⟩
  · intro hout
    rw [List.append_assoc, type_at_append pre (N :: post), type_at_append pre]
    by_cases hp : ∃ r ∈ pre, r.has a = true
    · rw [if_pos hp, if_pos hp]
    · rw [if_neg hp, if_neg hp]
      rw [type_at_tail N _ _ (by simp only [region.has, decide_eq_false_iff_not]; omega)]
      exact type_at_skip _ _ _ (split_has_not N vaddr bytes a h1 h2 hout)

/-- C20 at a concrete input: after `paging_alloc(0x2000)` the address
`0x40001000` belongs to a Claimed region; mapping the first page of that
region succeeds and leaves the address, which is outside the mapped range, in
a Free region. -/
theorem map_fixed_frees_claimed_rest :
    WellFormed claimed_state ∧
    type_at (regions claimed_state) 0x40001000 = some NodeType_Claimed ∧
    paging_map_fixed_attr ok_kernel claimed_state 0x40000000 7 0x1000 3
      = some (SYS_ERR_OK, part_mapped_state) ∧
    ¬ (0x40000000 ≤ 0x40001000 ∧ 0x40001000 < 0x40000000 + 0x1000) ∧
    type_at (regions part_mapped_state) 0x40001000 = some NodeType_Free :=
  ⟨by decide, by decide, rfl, by decide, by decide⟩

theorem map_fixed_type_outside_witness :
    WellFormed claimed_state ∧
    regions claimed_state = [] ++ ⟨0x40000000, 0x2000, NodeType_Claimed⟩ ::
      [⟨0x40002000, 0xBFFFDFFF, NodeType_Free⟩] ∧
    (0x40000000 ≤ 0x40001000 ∧ 0x40001000 < 0x40000000 + 0x2000 →
      type_at (regions claimed_state) 0x40001000 = some NodeType_Claimed ∧
      type_at (regions part_mapped_state) 0x40001000
        = some (if 0x40000000 ≤ 0x40001000 ∧ 0x40001000 < 0x40000000 + 0x1000
            then NodeType_Allocated else NodeType_Free)) ∧
    (¬ (0x40000000 ≤ 0x40001000 ∧ 0x40001000 < 0x40000000 + 0x2000) →
      type_at (regions part_mapped_state) 0x40001000
        = type_at (regions claimed_state) 0x40001000) :=
  ⟨by decide, by decide,
    map_fixed_type_outside ok_kernel claimed_state 0x40000000 7 0x1000 3 part_mapped_state
      [] [⟨0x40002000, 0xBFFFDFFF, NodeType_Free⟩] ⟨0x40000000, 0x2000, NodeType_Claimed⟩
      (by decide) (by decide) (by decide) (by decide) (by decide) (by decide) rfl 0x40001000⟩

/-! ### The frame mappings of a call (claim C16) -/

theorem frame_maps_append (frame : capref) :
    ∀ (a b : List Call), frame_maps frame (a ++ b) = frame_maps frame a ++ frame_maps frame b
  | [], b => by simp [frame_maps]
  | c :: cs, b => by
    cases c <;> simp [frame_maps, frame_maps_append frame cs b]
    split <;> simp

theorem l2_kept.unchanged (st : paging_state) : l2_kept st st := fun _ _ => rfl

theorem l2_kept.next {a b c : paging_state} (h1 : l2_kept a b) (h2 : l2_kept b c) :
    l2_kept a c := by
  intro j hj
  have e1 := h1 j hj
  have hj2 : (b.l2_pagetables j).initialized = true := by rw [e1]; exact hj
  rw [h2 j hj2, e1]

theorem l2_kept_of_eq {a b : paging_state} (h : b.l2_pagetables = a.l2_pagetables) :
    l2_kept a b := fun j _ => by rw [h]

/-- The L2 lookup keeps the initialised entries of the cache, and on success
the entry of the index is initialised and holds the returned table. -/
theorem paging_get_l2_kept (k : Kernel) (st : paging_state) (i : Nat) :
    l2_kept st (paging_get_l2 k st i).2.2 ∧
    ((paging_get_l2 k st i).1 = SYS_ERR_OK →
      ((paging_get_l2 k st i).2.2.l2_pagetables i).initialized = true ∧
      ((paging_get_l2 k st i).2.2.l2_pagetables i).cap = (paging_get_l2 k st i).2.1) := by
  unfold paging_get_l2
  by_cases h0 : (st.l2_pagetables i).initialized = true
  · rw [if_pos h0]
    exact ⟨l2_kept.unchanged st, fun _ => ⟨h0, rfl⟩⟩
  rw [if_neg h0]
  have hne : ∀ {e : errval_t}, err_is_fail e = true → e ≠ SYS_ERR_OK := by
    intro e he h
    rw [h] at he
    cases he
  have hl2 : ∀ (s : paging_state) (c : Call),
      (s.invoke k c).2.l2_pagetables = s.l2_pagetables := fun _ _ => rfl
  have ha : (arml2_alloc k st).2.2.l2_pagetables = st.l2_pagetables := by
    unfold arml2_alloc slot_alloc_call paging_state.invoke
    dsimp only
    split <;> [rfl; (split <;> rfl)]
  have hs : (slot_alloc_call k (arml2_alloc k st).2.2).2.2.l2_pagetables = st.l2_pagetables := by
    rw [← ha]
    rfl
  dsimp only
  by_cases hf1 : err_is_fail (arml2_alloc k st).1 = true
  · rw [if_pos hf1]
    exact ⟨l2_kept_of_eq ha, fun h => absurd h (hne hf1)⟩
  rw [if_neg hf1]
  by_cases hf2 : err_is_fail (slot_alloc_call k (arml2_alloc k st).2.2).1 = true
  · rw [if_pos hf2]
    exact ⟨l2_kept_of_eq hs, fun h => absurd h (hne hf2)⟩
  rw [if_neg hf2]
  split
  · rename_i hf3
    exact ⟨l2_kept_of_eq (by rw [hl2, hs]), fun h => absurd h (hne hf3)⟩
  · have hc : ∀ (s : paging_state) (cap : capref), (match s.mapping_cb with
        | some _ => s.invoke k (Call.mapping_cb cap)
        | none => (SYS_ERR_OK, s)).2.l2_pagetables = s.l2_pagetables := by
      intro s cap
      cases s.mapping_cb <;> rfl
    split
    · rename_i hf4
      exact ⟨l2_kept_of_eq ((hc _ _).trans ((hl2 _ _).trans hs)), fun h => absurd h (hne hf4)⟩
    · refine ⟨?_, fun _ => ⟨by simp, by simp⟩⟩
      intro j hj
      have hji : j ≠ i := fun e => h0 (e ▸ hj)
      simp only [Function.update_apply, if_neg hji]
      exact congrFun ((hc _ _).trans ((hl2 _ _).trans hs)) j

/-- One round of the mapping loop keeps the initialised entries of the
cache. -/
theorem paging_map_round_kept (k : Kernel) (frame flags : Nat) (st : paging_state)
    (vaddr bytes mapped : Nat) :
    l2_kept st (paging_map_round k frame flags st vaddr bytes mapped).2 := by
  unfold paging_map_round
  dsimp only
  have hg := (paging_get_l2_kept k st (ARM_L1_OFFSET vaddr)).1
  have hc : ∀ (s : paging_state) (cap : capref), (match s.mapping_cb with
      | some _ => s.invoke k (Call.mapping_cb cap)
      | none => (SYS_ERR_OK, s)).2.l2_pagetables = s.l2_pagetables := by
    intro s cap
    cases s.mapping_cb <;> rfl
  split
  · exact hg
  split
  · exact hg.next (l2_kept_of_eq rfl)
  split
  · exact hg.next (l2_kept_of_eq rfl)
  split
  · exact hg.next (l2_kept_of_eq ((hc _ _).trans rfl))
  · exact hg.next (l2_kept_of_eq ((hc _ _).trans rfl))

/-- The mapping loop keeps the initialised entries of the cache. -/
theorem paging_map_pages_kept (k : Kernel) (frame flags : Nat) :
    ∀ (fuel : Nat) (st : paging_state) (vaddr bytes mapped : Nat) (r : map_result),
      paging_map_pages k frame flags fuel st vaddr bytes mapped = some r → l2_kept st r.st := by
  intro fuel
  induction fuel with
  | zero =>
    intro st vaddr bytes mapped r h
    rw [paging_map_pages] at h
    by_cases hb : bytes = 0
    · simp [hb] at h
      rw [← h]
      exact l2_kept.unchanged st
    · simp [hb] at h
  | succ f ih =>
    intro st vaddr bytes mapped r h
    rw [paging_map_pages] at h
    by_cases hb : bytes = 0
    · simp [hb] at h
      rw [← h]
      exact l2_kept.unchanged st
    · simp only [hb, if_false] at h
      have hr := paging_map_round_kept k frame flags st vaddr bytes mapped
      split at h
      · injection h with h
        rw [← h]
        exact hr
      · exact hr.next (ih _ _ _ _ _ h)

/-- What a call of the walk amounts to: no node passes the test and the state
is returned as it was, or one node is split and the result is that of the
mapping loop on the state after the split. -/
theorem paging_map_fixed_loop_cases (k : Kernel) (frame flags vaddr bytes : Nat) (hb : bytes ≠ 0) :
    ∀ (fuel : Nat) (st : paging_state) (node : Option Nat) (res : errval_t) (st2 : paging_state),
      paging_map_fixed_loop k frame flags fuel st node vaddr bytes = some (res, st2) →
      (res = LIB_ERR_VREGION_MAP ∧ st2 = st) ∨
      ∃ p r, paging_map_pages k frame flags bytes (paging_map_split st p vaddr bytes) vaddr bytes 0
          = some r ∧ res = r.err ∧ st2 = r.st := by
  intro fuel
  induction fuel with
  | zero =>
    intro st node res st2 h
    rw [paging_map_fixed_loop.eq_def] at h
    simp [hb] at h
  | succ f ih =>
    intro st node res st2 h
    cases node with
    | none =>
      rw [paging_map_fixed_loop] at h
      simp only [hb, if_false, Option.some.injEq, Prod.mk.injEq] at h
      exact Or.inl ⟨h.1.symm, h.2.symm⟩
    | some p =>
      rw [paging_map_fixed_loop] at h
      simp only [hb, if_false] at h
      split at h
      · exact ih _ _ _ _ h
      split at h
      · exact ih _ _ _ _ h
      obtain ⟨r, hr, _, hok⟩ := paging_map_pages_spec k frame flags bytes
        (paging_map_split st p vaddr bytes) vaddr bytes 0 (Nat.le_refl _)
      simp only [hr] at h
      split at h
      · simp only [Option.some.injEq, Prod.mk.injEq] at h
        exact Or.inr ⟨p, r, hr, h.1.symm, h.2.symm⟩
      · rename_i hfail
        obtain ⟨hz, herr, _⟩ := hok (by simpa using hfail)
        rw [hz, paging_map_fixed_loop_zero] at h
        simp only [Option.some.injEq, Prod.mk.injEq] at h
        exact Or.inr ⟨p, r, hr, by rw [herr]; exact h.1.symm, h.2.symm⟩

/-- The split of a node touches nothing but the region list. -/
theorem paging_map_split_env (st : paging_state) (p vaddr bytes : Nat) :
    same_env st (paging_map_split st p vaddr bytes) := by
  unfold paging_map_split
  dsimp only
  have h0 : same_env st (st.set_type p NodeType_Allocated) := ⟨rfl, rfl, rfl, rfl, rfl, rfl⟩
  have tr : ∀ {a b c : paging_state}, same_env a b → same_env b c → same_env a c := by
    intro a b c h1 h2
    unfold same_env at *
    refine ⟨?_, ?_, ?_, ?_, ?_, ?_⟩
    · rw [h2.1, h1.1]
    · rw [h2.2.1, h1.2.1]
    · rw [h2.2.2.1, h1.2.2.1]
    · rw [h2.2.2.2.1, h1.2.2.2.1]
    · rw [h2.2.2.2.2.1, h1.2.2.2.2.1]
    · rw [h2.2.2.2.2.2, h1.2.2.2.2.2]
  have h1 : same_env st (if add32 vaddr bytes
      < add32 ((st.set_type p NodeType_Allocated).mem p).base
          ((st.set_type p NodeType_Allocated).mem p).size
      then paging_map_split_right (st.set_type p NodeType_Allocated) p vaddr bytes
      else st.set_type p NodeType_Allocated) := by
    split
    · exact tr h0 (paging_map_split_right_frame _ p vaddr bytes).2.2
    · exact h0
  have h2 : ∀ s : paging_state,
      same_env s (if (s.mem p).base < vaddr then paging_map_split_left s p vaddr else s) := by
    intro s
    split
    · exact (paging_map_split_left_frame s p vaddr).2.2
    · exact ⟨rfl, rfl, rfl, rfl, rfl, rfl⟩
  exact tr h1 (h2 _)

/-- A call of `paging_map_fixed_attr` keeps the initialised entries of the L2
table cache. -/
theorem paging_map_fixed_attr_kept (k : Kernel) (st st2 : paging_state)
    (vaddr frame bytes flags : Nat) (res : errval_t)
    (h : paging_map_fixed_attr k st vaddr frame bytes flags = some (res, st2)) :
    l2_kept st st2 := by
  by_cases hb : bytes = 0
  · subst hb
    rw [paging_map_fixed_attr_zero] at h
    simp only [Option.some.injEq, Prod.mk.injEq] at h
    rw [← h.2]
    exact l2_kept.unchanged st
  rcases paging_map_fixed_loop_cases k frame flags vaddr bytes hb _ _ _ _ _ h with
    ⟨_, e⟩ | ⟨p, r, hr, _, e⟩
  · rw [e]
    exact l2_kept.unchanged st
  · rw [e]
    exact (l2_kept_of_eq (paging_map_split_env st p vaddr bytes).2.1).next
      (paging_map_pages_kept k frame flags _ _ _ _ _ _ hr)

theorem frame_quiet.idle (frame : capref) (st : paging_state) : frame_quiet frame st st :=
  ⟨[], by simp, rfl⟩

theorem frame_quiet.both {frame : capref} {a b c : paging_state} (h1 : frame_quiet frame a b)
    (h2 : frame_quiet frame b c) : frame_quiet frame a c := by
  obtain ⟨n1, e1, q1⟩ := h1
  obtain ⟨n2, e2, q2⟩ := h2
  refine ⟨n1 ++ n2, ?_, ?_⟩
  · rw [e2, e1, List.append_assoc]
  · rw [frame_maps_append, q1, q2]
    rfl

theorem frame_quiet_invoke (k : Kernel) (frame : capref) (st : paging_state) (c : Call)
    (hc : frame_maps frame [c] = []) : frame_quiet frame st (st.invoke k c).2 :=
  ⟨[c], rfl, hc⟩

theorem frame_quiet_cb (k : Kernel) (frame : capref) (st : paging_state) (cap : capref) :
    frame_quiet frame st (match st.mapping_cb with
      | some _ => st.invoke k (Call.mapping_cb cap)
      | none => (SYS_ERR_OK, st)).2 := by
  cases st.mapping_cb with
  | none => exact frame_quiet.idle frame st
  | some _ => exact frame_quiet_invoke k frame st _ rfl

theorem arml2_alloc_cap (k : Kernel) (st : paging_state) :
    (arml2_alloc k st).2.1 = k.slot st.calls := by
  unfold arml2_alloc slot_alloc_call
  dsimp only
  split <;> [rfl; (split <;> rfl)]

theorem frame_quiet_arml2_alloc (k : Kernel) (frame : capref) (st : paging_state) :
    frame_quiet frame st (arml2_alloc k st).2.2 := by
  unfold arml2_alloc
  dsimp only
  have h1 : frame_quiet frame st (slot_alloc_call k st).2.2 :=
    frame_quiet_invoke k frame st Call.slot_alloc rfl
  have h2 := h1.both (frame_quiet_invoke k frame (slot_alloc_call k st).2.2
    (Call.vnode_create (slot_alloc_call k st).2.1 objtype.ObjType_VNode_ARM_l2) rfl)
  split
  · exact h1
  · split <;> exact h2

/-- The L2 lookup maps no page of a frame whose capability is not a slot the
allocator hands out. -/
theorem frame_quiet_get_l2 (k : Kernel) (frame : capref) (hfr : ∀ h, k.slot h ≠ frame)
    (st : paging_state) (i : Nat) : frame_quiet frame st (paging_get_l2 k st i).2.2 := by
  unfold paging_get_l2
  dsimp only
  split
  · exact frame_quiet.idle frame st
  have h1 := frame_quiet_arml2_alloc k frame st
  split
  · exact h1
  have h2 := h1.both (frame_quiet_invoke k frame (arml2_alloc k st).2.2 Call.slot_alloc rfl)
  split
  · exact h2
  have hm : frame_maps frame [Call.vnode_map st.l1_pagetable (arml2_alloc k st).2.1 i
      VREGION_FLAGS_READ_WRITE 0 1 (slot_alloc_call k (arml2_alloc k st).2.2).2.1] = [] := by
    have : (arml2_alloc k st).2.1 ≠ frame := by
      rw [arml2_alloc_cap]
      exact hfr _
    simp [frame_maps, this]
  have h3 := h2.both (frame_quiet_invoke k frame (slot_alloc_call k (arml2_alloc k st).2.2).2.2
    _ hm)
  split
  · exact h3
  have h4 := h3.both (frame_quiet_cb k frame _ (slot_alloc_call k (arml2_alloc k st).2.2).2.1)
  split
  · exact h4
  · obtain ⟨n, e, q⟩ := h4
    exact ⟨n, e, q⟩

/-- A successful round of the mapping loop issues one mapping of the frame:
into the table cached for the L1 index of the address, which is initialised
afterwards, at the L2 slot of the address, with the offset and the page count
of the round. -/
theorem paging_map_round_frame (k : Kernel) (frame flags : Nat) (hfr : ∀ h, k.slot h ≠ frame)
    (st : paging_state) (vaddr bytes mapped : Nat)
    (hok : (paging_map_round k frame flags st vaddr bytes mapped).1 = SYS_ERR_OK) :
    ((paging_map_round k frame flags st vaddr bytes mapped).2.l2_pagetables
      (ARM_L1_OFFSET vaddr)).initialized = true ∧
    ∃ new, (paging_map_round k frame flags st vaddr bytes mapped).2.calls = st.calls ++ new ∧
      frame_maps frame new =
        [(((paging_map_round k frame flags st vaddr bytes mapped).2.l2_pagetables
            (ARM_L1_OFFSET vaddr)).cap, ARM_L2_OFFSET vaddr, flags, mapped,
          size_to_map vaddr bytes / BASE_PAGE_SIZE)] := by
  have hne : ∀ {e : errval_t}, err_is_fail e = true → e ≠ SYS_ERR_OK := by
    intro e he h
    rw [h] at he
    cases he
  have hg := paging_get_l2_kept k st (ARM_L1_OFFSET vaddr)
  have hq := frame_quiet_get_l2 k frame hfr st (ARM_L1_OFFSET vaddr)
  revert hok
  unfold paging_map_round
  dsimp only
  generalize paging_get_l2 k st (ARM_L1_OFFSET vaddr) = g at hg hq
  split
  · rename_i hf
    exact fun h => absurd h (hne hf)
  rename_i hf1
  obtain ⟨hin, hcap⟩ := hg.2 (err_is_fail_false.mp (by simpa using hf1))
  split
  · rename_i hf
    exact fun h => absurd h (hne hf)
  split
  · rename_i hf
    exact fun h => absurd h (hne hf)
  have hc : ∀ (s : paging_state) (cap : capref), (match s.mapping_cb with
      | some _ => s.invoke k (Call.mapping_cb cap)
      | none => (SYS_ERR_OK, s)).2.l2_pagetables = s.l2_pagetables := by
    intro s cap
    cases s.mapping_cb <;> rfl
  have hl2 : ∀ (c : errval_t × paging_state), c.2.l2_pagetables = g.2.2.l2_pagetables →
      (c.2.l2_pagetables (ARM_L1_OFFSET vaddr)).initialized = true ∧
      (c.2.l2_pagetables (ARM_L1_OFFSET vaddr)).cap = g.2.1 := by
    intro c e
    rw [e]
    exact ⟨hin, hcap⟩
  have hs : frame_quiet frame g.2.2 (slot_alloc_call k g.2.2).2.2 :=
    frame_quiet_invoke k frame g.2.2 Call.slot_alloc rfl
  obtain ⟨n1, e1, q1⟩ := hq.both hs
  have key : ∀ (c : errval_t × paging_state),
      c.2.l2_pagetables = g.2.2.l2_pagetables →
      frame_quiet frame ((slot_alloc_call k g.2.2).2.2.invoke k
        (Call.vnode_map g.2.1 frame (ARM_L2_OFFSET vaddr) flags mapped
          (size_to_map vaddr bytes / BASE_PAGE_SIZE) (slot_alloc_call k g.2.2).2.1)).2 c.2 →
      (c.2.l2_pagetables (ARM_L1_OFFSET vaddr)).initialized = true ∧
      ∃ new, c.2.calls = st.calls ++ new ∧ frame_maps frame new =
        [((c.2.l2_pagetables (ARM_L1_OFFSET vaddr)).cap, ARM_L2_OFFSET vaddr, flags, mapped,
          size_to_map vaddr bytes / BASE_PAGE_SIZE)] := by
    intro c e hcq
    obtain ⟨n2, e2, q2⟩ := hcq
    refine ⟨(hl2 c e).1, n1 ++ [Call.vnode_map g.2.1 frame (ARM_L2_OFFSET vaddr) flags mapped
      (size_to_map vaddr bytes / BASE_PAGE_SIZE) (slot_alloc_call k g.2.2).2.1] ++ n2, ?_, ?_⟩
    · rw [e2]
      show ((slot_alloc_call k g.2.2).2.2.calls ++ _) ++ n2 = _
      rw [e1]
      simp only [List.append_assoc]
    · rw [frame_maps_append, frame_maps_append, q1, q2, (hl2 c e).2]
      simp [frame_maps]
  split
  · intro _
    exact key _ ((hc _ _).trans rfl) (frame_quiet_cb k frame _ _)
  · intro _
    exact key (SYS_ERR_OK, _) ((hc _ _).trans rfl) (frame_quiet_cb k frame _ _)

theorem ARM_L1_OFFSET_mod (addr : Nat) : ARM_L1_OFFSET (addr % 2 ^ 32) = ARM_L1_OFFSET addr := by
  unfold ARM_L1_OFFSET
  omega

theorem ARM_L2_OFFSET_mod (addr : Nat) : ARM_L2_OFFSET (addr % 2 ^ 32) = ARM_L2_OFFSET addr := by
  unfold ARM_L2_OFFSET
  omega

/-- For a page multiple the size of a round is the page count of the claim's
mapping, in bytes. -/
theorem size_to_map_pages (addr bytes : Nat) (hb : bytes % 4096 = 0) :
    size_to_map (addr % 2 ^ 32) bytes
      = min (bytes / BASE_PAGE_SIZE) (ARM_L2_MAX_ENTRIES - ARM_L2_OFFSET addr) * BASE_PAGE_SIZE := by
  unfold size_to_map
  rw [ARM_L2_OFFSET_mod]
  unfold BASE_PAGE_SIZE
  generalize ARM_L2_MAX_ENTRIES - ARM_L2_OFFSET addr = n
  split <;> omega

/-- A successful run of the mapping loop issues the frame mappings of the
claim, each into the table that the cache holds for its L1 index at the
end. -/
theorem paging_map_pages_frame (k : Kernel) (frame flags : Nat) (hfr : ∀ h, k.slot h ≠ frame) :
    ∀ (fuel : Nat) (st : paging_state) (addr bytes mapped : Nat) (r : map_result) (F : Nat),
      bytes % 4096 = 0 → bytes / BASE_PAGE_SIZE ≤ F → mapped + bytes < 2 ^ 32 →
      paging_map_pages k frame flags fuel st (addr % 2 ^ 32) bytes mapped = some r →
      r.err = SYS_ERR_OK →
      ∃ new, r.st.calls = st.calls ++ new ∧
        frame_maps frame new = (slice_maps F addr (bytes / BASE_PAGE_SIZE) mapped).map (fun m =>
          ((r.st.l2_pagetables (ARM_L1_OFFSET m.addr)).cap, ARM_L2_OFFSET m.addr, flags,
            m.offset, m.pages)) := by
  intro fuel
  induction fuel with
  | zero =>
    intro st addr bytes mapped r F hal hF h32 h hok
    rw [paging_map_pages] at h
    by_cases hb : bytes = 0
    · simp [hb] at h
      subst hb
      rw [← h]
      refine ⟨[], by simp, ?_⟩
      cases F <;> simp [slice_maps, frame_maps]
    · simp [hb] at h
  | succ f ih =>
    intro st addr bytes mapped r F hal hF h32 h hok
    rw [paging_map_pages] at h
    by_cases hb : bytes = 0
    · simp [hb] at h
      subst hb
      rw [← h]
      refine ⟨[], by simp, ?_⟩
      cases F <;> simp [slice_maps, frame_maps]
    simp only [hb, if_false] at h
    have hne : ∀ {e : errval_t}, err_is_fail e = true → e ≠ SYS_ERR_OK := by
      intro e he h
      rw [h] at he
      cases he
    split at h
    · rename_i hf
      injection h with h
      rw [← h] at hok
      exact absurd hok (hne hf)
    rename_i hf
    have hrok : (paging_map_round k frame flags st (addr % 2 ^ 32) bytes mapped).1
        = SYS_ERR_OK := err_is_fail_false.mp (Bool.eq_false_iff.mpr hf)
    obtain ⟨hin, n1, e1, q1⟩ := paging_map_round_frame k frame flags hfr st (addr % 2 ^ 32) bytes
      mapped hrok
    have hsz := size_to_map_pages addr bytes hal
    have hle := size_to_map_le (addr % 2 ^ 32) bytes
    have hpos := size_to_map_pos (addr % 2 ^ 32) bytes hb
    have hsa := size_to_map_aligned (addr % 2 ^ 32) bytes hal
    generalize hS : size_to_map (addr % 2 ^ 32) bytes = S at h hsz hle hpos hsa q1
    have ha : add32 (addr % 2 ^ 32) S = (addr + S) % 2 ^ 32 := by
      unfold add32
      omega
    have hm : add32 mapped S = mapped + S := by
      unfold add32
      omega
    rw [ha, hm] at h
    have hpg : 1 ≤ bytes / BASE_PAGE_SIZE := by
      unfold BASE_PAGE_SIZE
      omega
    obtain ⟨F1, hF1⟩ : ∃ F1, F = F1 + 1 := ⟨F - 1, by omega⟩
    subst hF1
    have hrest : (bytes - S) / BASE_PAGE_SIZE
        = bytes / BASE_PAGE_SIZE
          - min (bytes / BASE_PAGE_SIZE) (ARM_L2_MAX_ENTRIES - ARM_L2_OFFSET addr) := by
      generalize min (bytes / BASE_PAGE_SIZE) (ARM_L2_MAX_ENTRIES - ARM_L2_OFFSET addr) = n at hsz
      unfold BASE_PAGE_SIZE at hsz ⊢
      omega
    have hSp : 1 ≤ S / BASE_PAGE_SIZE := by
      unfold BASE_PAGE_SIZE
      omega
    have hF1 : (bytes - S) / BASE_PAGE_SIZE ≤ F1 := by
      unfold BASE_PAGE_SIZE at hF hSp ⊢
      omega
    obtain ⟨n2, e2, q2⟩ := ih _ (addr + S) (bytes - S) (mapped + S) r F1 (by omega)
      hF1 (by omega) h hok
    have hkept := paging_map_pages_kept k frame flags _ _ _ _ _ _ h
    refine ⟨n1 ++ n2, by rw [e2, e1, List.append_assoc], ?_⟩
    rw [frame_maps_append, q1, q2, slice_maps]
    have hp0 : bytes / BASE_PAGE_SIZE ≠ 0 := by omega
    rw [if_neg hp0, ← hsz, hrest]
    simp only [List.map_cons, List.singleton_append]
    rw [← hkept _ hin, ARM_L1_OFFSET_mod, ARM_L2_OFFSET_mod]
    have hpc : S / BASE_PAGE_SIZE
        = min (bytes / BASE_PAGE_SIZE) (ARM_L2_MAX_ENTRIES - ARM_L2_OFFSET addr) := by
      rw [hsz]
      unfold BASE_PAGE_SIZE
      omega
    rw [hpc]

/-- The page counts of the claim's mappings sum to the number of pages. -/
theorem slice_maps_pages : ∀ (F addr pages offset : Nat), pages ≤ F →
    ((slice_maps F addr pages offset).map slice_map.pages).sum = pages
  | 0, _, pages, _, h => by
    have : pages = 0 := by omega
    subst this
    rfl
  | F + 1, addr, pages, offset, h => by
    rw [slice_maps]
    by_cases hp : pages = 0
    · rw [if_pos hp, hp]
      rfl
    rw [if_neg hp]
    have hpos : 0 < ARM_L2_MAX_ENTRIES - ARM_L2_OFFSET addr := by
      unfold ARM_L2_MAX_ENTRIES ARM_L2_OFFSET
      omega
    simp only [List.map_cons, List.sum_cons]
    rw [slice_maps_pages F _ _ _ (by omega)]
    omega

/-- The claim's mappings start in consecutive 1 MiB slices: one for each slice
that the range meets, in ascending order. -/
theorem slice_maps_slices : ∀ (F addr pages offset : Nat), pages ≤ F → 0 < pages →
    addr % 4096 = 0 →
    (slice_maps F addr pages offset).map (fun m => m.addr / 2 ^ 20)
      = List.range' (addr / 2 ^ 20) ((addr + pages * 4096 - 1) / 2 ^ 20 - addr / 2 ^ 20 + 1)
  | 0, _, pages, _, h, hp, _ => by omega
  | F + 1, addr, pages, offset, h, hp, hal => by
    rw [slice_maps, if_neg (by omega)]
    simp only [List.map_cons]
    unfold ARM_L2_MAX_ENTRIES ARM_L2_OFFSET BASE_PAGE_SIZE
    by_cases hlast : pages ≤ 256 - addr / 2 ^ 12 % 256
    · rw [Nat.min_eq_left hlast, Nat.sub_self]
      have h0 : ∀ a o, slice_maps F a 0 o = [] := by
        intro a o
        cases F <;> simp [slice_maps]
      rw [h0]
      have : (addr + pages * 4096 - 1) / 2 ^ 20 - addr / 2 ^ 20 + 1 = 1 := by omega
      rw [this]
      rfl
    · have hmin : min pages (256 - addr / 2 ^ 12 % 256) = 256 - addr / 2 ^ 12 % 256 := by
        omega
      rw [hmin]
      have ih := slice_maps_slices F (addr + (256 - addr / 2 ^ 12 % 256) * 4096)
        (pages - (256 - addr / 2 ^ 12 % 256)) (offset + (256 - addr / 2 ^ 12 % 256) * 4096)
        (by omega) (by omega) (by omega)
      rw [ih]
      have e1 : (addr + (256 - addr / 2 ^ 12 % 256) * 4096) / 2 ^ 20 = addr / 2 ^ 20 + 1 := by
        omega
      have e2 : addr + (256 - addr / 2 ^ 12 % 256) * 4096
          + (pages - (256 - addr / 2 ^ 12 % 256)) * 4096 = addr + pages * 4096 := by omega
      have e3 : (addr + pages * 4096 - 1) / 2 ^ 20 - addr / 2 ^ 20 + 1
          = ((addr + pages * 4096 - 1) / 2 ^ 20 - (addr / 2 ^ 20 + 1) + 1) + 1 := by omega
      rw [e1, e2, e3]
      exact (List.range'_succ _ _ _).symm

theorem map_fixed_frame_core (k : Kernel) (st st2 : paging_state)
    (vaddr frame bytes flags : Nat) (hb : bytes % 4096 = 0) (hpos : 0 < bytes)
    (hv32 : vaddr < 2 ^ 32) (hb32 : bytes < 2 ^ 32) (hfr : ∀ h, k.slot h ≠ frame)
    (hres : paging_map_fixed_attr k st vaddr frame bytes flags = some (SYS_ERR_OK, st2)) :
    ∃ new, st2.calls = st.calls ++ new ∧
      frame_maps frame new = (frame_slices vaddr bytes).map (fun m =>
        ((st2.l2_pagetables (ARM_L1_OFFSET m.addr)).cap, ARM_L2_OFFSET m.addr, flags,
          m.offset, m.pages)) := by
  rcases paging_map_fixed_loop_cases k frame flags vaddr bytes (by omega) _ _ _ _ _ hres with
    ⟨e, _⟩ | ⟨p, r, hr, e1, e2⟩
  · cases e
  have hmod : vaddr % 2 ^ 32 = vaddr := Nat.mod_eq_of_lt hv32
  rw [← hmod] at hr
  obtain ⟨new, e3, q⟩ := paging_map_pages_frame k frame flags hfr bytes _ vaddr bytes 0 r
    (bytes / BASE_PAGE_SIZE) hb (Nat.le_refl _) (by omega) hr e1.symm
  refine ⟨new, ?_, ?_⟩
  · rw [e2, e3, (paging_map_split_env st p _ bytes).1]
  · rw [e2]
    exact q

/-- C16: for a page multiple `bytes > 0` a successful `paging_map_fixed_attr`
issues, as its mappings of the frame, exactly the mappings `frame_slices`
lists, in that order: each goes into the L2 table cached for the L1 index of
its address, at the L2 slot of that address, installs the remaining pages or
the pages up to the end of that table when these are fewer, and gets as
offset the bytes installed before it.  For a page-aligned `vaddr` these
mappings start in the consecutive 1 MiB slices that the range meets, one in
each, in ascending order, and their page counts sum to `bytes / 4096`.  The
capability of the frame is assumed not to be a slot that the slot allocator
hands out. -/
theorem map_fixed_frame_maps (k : Kernel) (st st2 : paging_state)
    (vaddr frame bytes flags : Nat) (hv : vaddr % 4096 = 0) (hb : bytes % 4096 = 0)
    (hpos : 0 < bytes) (hv32 : vaddr < 2 ^ 32) (hb32 : bytes < 2 ^ 32)
    (hfr : ∀ h, k.slot h ≠ frame)
    (hres : paging_map_fixed_attr k st vaddr frame bytes flags = some (SYS_ERR_OK, st2)) :
    (∃ new, st2.calls = st.calls ++ new ∧
      frame_maps frame new = (frame_slices vaddr bytes).map (fun m =>
        ((st2.l2_pagetables (ARM_L1_OFFSET m.addr)).cap, ARM_L2_OFFSET m.addr, flags,
          m.offset, m.pages))) ∧
    (frame_slices vaddr bytes).map (fun m => m.addr / 2 ^ 20)
      = List.range' (vaddr / 2 ^ 20) ((vaddr + bytes - 1) / 2 ^ 20 - vaddr / 2 ^ 20 + 1) ∧
    ((frame_slices vaddr bytes).map slice_map.pages).sum = bytes / 4096 := by
  refine ⟨map_fixed_frame_core k st st2 vaddr frame bytes flags hb hpos hv32 hb32 hfr hres,
    ?_, ?_⟩
  · have h := slice_maps_slices (bytes / BASE_PAGE_SIZE) vaddr (bytes / BASE_PAGE_SIZE) 0
      (Nat.le_refl _) (by unfold BASE_PAGE_SIZE; omega) hv
    have e : bytes / BASE_PAGE_SIZE * 4096 = bytes := by
      unfold BASE_PAGE_SIZE
      omega
    rw [e] at h
    exact h
  · exact slice_maps_pages _ _ _ _ (Nat.le_refl _)

theorem map_fixed_frame_maps_witness :
    paging_map_fixed_attr ok_kernel init_state 0x40000000 7 0x200000 3
      = some (SYS_ERR_OK, two_tables_state) ∧
    frame_maps 7 two_tables_state.calls = [(1000, 0, 3, 0, 256), (1006, 0, 3, 0x100000, 256)] ∧
    l2_creations two_tables_state.calls = 2 ∧
    ((∃ new, two_tables_state.calls = init_state.calls ++ new ∧
      frame_maps 7 new = (frame_slices 0x40000000 0x200000).map (fun m =>
        ((two_tables_state.l2_pagetables (ARM_L1_OFFSET m.addr)).cap, ARM_L2_OFFSET m.addr, 3,
          m.offset, m.pages))) ∧
    (frame_slices 0x40000000 0x200000).map (fun m => m.addr / 2 ^ 20)
      = List.range' (0x40000000 / 2 ^ 20)
          ((0x40000000 + 0x200000 - 1) / 2 ^ 20 - 0x40000000 / 2 ^ 20 + 1) ∧
    ((frame_slices 0x40000000 0x200000).map slice_map.pages).sum = 0x200000 / 4096) :=
  ⟨rfl, by decide!, by decide!,
    map_fixed_frame_maps ok_kernel init_state two_tables_state 0x40000000 7 0x200000 3
      (by decide) (by decide) (by decide) (by decide) (by decide)
      (fun h => by show 1000 + h.length ≠ 7; omega) rfl⟩

/-! ### The L2 creation path (claim C17) -/

theorem l1_installs_append (k : Kernel) (pdir : capref) (i : Nat) :
    ∀ (a done b : List Call), l1_installs k pdir i done (a ++ b)
      = l1_installs k pdir i done a + l1_installs k pdir i (done ++ a) b
  | [], done, b => by simp [l1_installs]
  | c :: cs, done, b => by
    have ih := l1_installs_append k pdir i cs (done ++ [c]) b
    rw [List.append_assoc, List.singleton_append] at ih
    rw [List.cons_append, l1_installs, l1_installs, ih, Nat.add_assoc]

/-- The invariant is kept by a step that appends calls among which no table
was mapped into the directory with success, and keeps the cache. -/
theorem l1_inv.after_calls {k : Kernel} {pdir : capref} {h0 : List Call} {st st2 : paging_state}
    (h : l1_inv k pdir h0 st) (add : List Call) (hcb : st2.mapping_cb = st.mapping_cb)
    (hl1 : st2.l1_pagetable = st.l1_pagetable) (hl2 : st2.l2_pagetables = st.l2_pagetables)
    (hcalls : st2.calls = st.calls ++ add)
    (hadd : ∀ i, l1_installs k pdir i st.calls add = 0) : l1_inv k pdir h0 st2 := by
  obtain ⟨a1, a2, a3, new, a4, a5⟩ := h
  refine ⟨by rw [hcb, a1], by rw [hl1, a2], by rw [hl2]; exact a3, new ++ add, ?_, ?_⟩
  · rw [hcalls, a4, List.append_assoc]
  · intro i hi
    rw [l1_installs_append, ← a4, hadd, hl2, a5 i hi]
    rfl

/-- An external call that maps no table into the directory with success keeps
the invariant. -/
theorem l1_inv.after_invoke {k : Kernel} {pdir : capref} {h0 : List Call} {st : paging_state}
    (h : l1_inv k pdir h0 st) (c : Call)
    (hc : ∀ i, ¬ (Call.maps_l1 pdir i c = true ∧ k.ret st.calls c = SYS_ERR_OK)) :
    l1_inv k pdir h0 (st.invoke k c).2 :=
  h.after_calls [c] rfl rfl rfl rfl (fun i => by simp only [l1_installs, if_neg (hc i)])

theorem l1_inv.after_slot_alloc {k : Kernel} {pdir : capref} {h0 : List Call} {st : paging_state}
    (h : l1_inv k pdir h0 st) : l1_inv k pdir h0 (slot_alloc_call k st).2.2 :=
  h.after_invoke Call.slot_alloc (fun _ hc => Bool.noConfusion hc.1)

theorem l1_inv.after_arml2_alloc {k : Kernel} {pdir : capref} {h0 : List Call} {st : paging_state}
    (h : l1_inv k pdir h0 st) : l1_inv k pdir h0 (arml2_alloc k st).2.2 := by
  unfold Paging.arml2_alloc
  dsimp only
  have h1 := h.after_slot_alloc
  have h2 := h1.after_invoke (Call.vnode_create (slot_alloc_call k st).2.1 objtype.ObjType_VNode_ARM_l2)
    (fun _ hc => Bool.noConfusion hc.1)
  split
  · exact h1
  · split <;> exact h2

theorem arml2_alloc_l2 (k : Kernel) (st : paging_state) :
    (arml2_alloc k st).2.2.l2_pagetables = st.l2_pagetables := by
  unfold arml2_alloc slot_alloc_call paging_state.invoke
  dsimp only
  split <;> [rfl; (split <;> rfl)]

theorem Call.maps_l1_slot {pdir : capref} {i j : Nat} {c : Call}
    (hi : Call.maps_l1 pdir i c = true) (hj : Call.maps_l1 pdir j c = true) : j = i := by
  cases c <;> simp [Call.maps_l1] at hi hj
  rw [← hi.2, ← hj.2]

/-- The invariant is kept by the successful mapping of a table, which is not
the directory, into the directory at a slot whose entry of the cache was not
initialised and is initialised with that table afterwards. -/
theorem l1_inv.after_install {k : Kernel} {pdir : capref} {h0 : List Call}
    {st st2 : paging_state} (h : l1_inv k pdir h0 st) (i : Nat) (c : Call)
    (hc : Call.maps_l1 pdir i c = true) (hret : k.ret st.calls c = SYS_ERR_OK)
    (hnot : ¬ (st.l2_pagetables i).initialized = true)
    (hcb : st2.mapping_cb = st.mapping_cb) (hl1 : st2.l1_pagetable = st.l1_pagetable)
    (hcalls : st2.calls = st.calls ++ [c])
    (hother : ∀ j, j ≠ i → st2.l2_pagetables j = st.l2_pagetables j)
    (hin : (st2.l2_pagetables i).initialized = true)
    (hcap : (st2.l2_pagetables i).cap ≠ pdir) : l1_inv k pdir h0 st2 := by
  obtain ⟨a1, a2, a3, new, a4, a5⟩ := h
  refine ⟨by rw [hcb, a1], by rw [hl1, a2], ?_, new ++ [c], ?_, ?_⟩
  · intro j hj hjn
    by_cases hji : j = i
    · rw [hji]
      exact hcap
    · rw [hother j hji] at hjn ⊢
      exact a3 j hj hjn
  · rw [hcalls, a4, List.append_assoc]
  · intro j hj
    rw [l1_installs_append, ← a4, a5 j hj]
    by_cases hji : j = i
    · rw [hji, if_neg hnot, if_pos hin]
      simp only [l1_installs, hc, hret, and_self, if_true]
    · rw [hother j hji]
      have hcj : ¬ (Call.maps_l1 pdir j c = true ∧ k.ret st.calls c = SYS_ERR_OK) :=
        fun hh => hji (Call.maps_l1_slot hc hh.1)
      simp only [l1_installs, if_neg hcj]
      rfl

/-- The L2 lookup keeps the invariant, when the slot allocator does not hand
out the slot of the directory. -/
theorem l1_inv.after_get_l2 {k : Kernel} {pdir : capref} {h0 : List Call} {st : paging_state}
    (hslot : ∀ h, k.slot h ≠ pdir) (h : l1_inv k pdir h0 st) (i : Nat) :
    l1_inv k pdir h0 (paging_get_l2 k st i).2.2 := by
  unfold paging_get_l2
  dsimp only
  split
  · exact h
  rename_i hnot
  have hA := h.after_arml2_alloc
  split
  · exact hA
  have hS := hA.after_slot_alloc
  have hl2 : (slot_alloc_call k (arml2_alloc k st).2.2).2.2.l2_pagetables = st.l2_pagetables :=
    arml2_alloc_l2 k st
  have hl1 : (slot_alloc_call k (arml2_alloc k st).2.2).2.2.l1_pagetable = pdir := hS.2.1
  have hst1 : st.l1_pagetable = pdir := h.2.1
  split
  · exact hS
  generalize (slot_alloc_call k (arml2_alloc k st).2.2).2.1 = slot at *
  generalize (slot_alloc_call k (arml2_alloc k st).2.2).2.2 = s at *
  split
  · rename_i hf
    refine hS.after_invoke _ (fun j hc => ?_)
    have hret : (s.invoke k (Call.vnode_map st.l1_pagetable (arml2_alloc k st).2.1 i
        VREGION_FLAGS_READ_WRITE 0 1 slot)).1 = SYS_ERR_OK := hc.2
    rw [hret] at hf
    cases hf
  rename_i hf
  have hcbm : (s.invoke k (Call.vnode_map st.l1_pagetable (arml2_alloc k st).2.1 i
      VREGION_FLAGS_READ_WRITE 0 1 slot)).2.mapping_cb = none := hS.1
  simp only [hcbm]
  rw [if_neg (by decide)]
  refine hS.after_install i (Call.vnode_map st.l1_pagetable (arml2_alloc k st).2.1 i
      VREGION_FLAGS_READ_WRITE 0 1 slot) ?_ ?_ ?_ hS.1.symm rfl rfl ?_ ?_ ?_
  · simp [Call.maps_l1, hst1]
  · exact err_is_fail_false.mp (Bool.eq_false_iff.mpr hf)
  · rw [hl2]
    exact hnot
  · intro j hji
    simp [Function.update_apply, hji, paging_state.invoke]
  · simp
  · simp only [Function.update_same]
    rw [arml2_alloc_cap]
    exact hslot _

/-- One round of the mapping loop keeps the invariant: the table that the
frame is mapped into is a cached one, not the directory. -/
theorem l1_inv.after_round {k : Kernel} {pdir : capref} {h0 : List Call} {st : paging_state}
    (hslot : ∀ h, k.slot h ≠ pdir) (h : l1_inv k pdir h0 st)
    (frame flags vaddr bytes mapped : Nat) :
    l1_inv k pdir h0 (paging_map_round k frame flags st vaddr bytes mapped).2 := by
  unfold paging_map_round
  dsimp only
  have hG := h.after_get_l2 hslot (ARM_L1_OFFSET vaddr)
  have hk := (paging_get_l2_kept k st (ARM_L1_OFFSET vaddr)).2
  generalize paging_get_l2 k st (ARM_L1_OFFSET vaddr) = g at hG hk
  split
  · exact hG
  rename_i hf1
  obtain ⟨hin, hcap⟩ := hk (err_is_fail_false.mp (Bool.eq_false_iff.mpr hf1))
  have hidx : ARM_L1_OFFSET vaddr < L1_PAGETABLE_ENTRIES := by
    unfold ARM_L1_OFFSET L1_PAGETABLE_ENTRIES
    omega
  have hne : g.2.1 ≠ pdir := by
    rw [← hcap]
    exact hG.2.2.1 _ hidx hin
  have hS := hG.after_slot_alloc
  split
  · exact hS
  have hM := hS.after_invoke (Call.vnode_map g.2.1 frame (ARM_L2_OFFSET vaddr) flags mapped
    (size_to_map vaddr bytes / BASE_PAGE_SIZE) (slot_alloc_call k g.2.2).2.1)
    (fun j hc => by simp [Call.maps_l1, hne] at hc)
  split
  · exact hM
  have hcbm : ((slot_alloc_call k g.2.2).2.2.invoke k (Call.vnode_map g.2.1 frame
      (ARM_L2_OFFSET vaddr) flags mapped (size_to_map vaddr bytes / BASE_PAGE_SIZE)
      (slot_alloc_call k g.2.2).2.1)).2.mapping_cb = none := hM.1
  simp only [hcbm]
  split <;> exact hM

/-- The mapping loop keeps the invariant. -/
theorem l1_inv.after_pages {k : Kernel} {pdir : capref} {h0 : List Call}
    (hslot : ∀ h, k.slot h ≠ pdir) (frame flags : Nat) :
    ∀ (fuel : Nat) (st : paging_state) (vaddr bytes mapped : Nat) (r : map_result),
      l1_inv k pdir h0 st →
      paging_map_pages k frame flags fuel st vaddr bytes mapped = some r →
      l1_inv k pdir h0 r.st := by
  intro fuel
  induction fuel with
  | zero =>
    intro st vaddr bytes mapped r hst h
    rw [paging_map_pages] at h
    by_cases hb : bytes = 0
    · simp [hb] at h
      rw [← h]
      exact hst
    · simp [hb] at h
  | succ f ih =>
    intro st vaddr bytes mapped r hst h
    rw [paging_map_pages] at h
    by_cases hb : bytes = 0
    · simp [hb] at h
      rw [← h]
      exact hst
    · simp only [hb, if_false] at h
      have hr := hst.after_round hslot frame flags vaddr bytes mapped
      split at h
      · injection h with h
        rw [← h]
        exact hr
      · exact ih _ _ _ _ _ hr h

/-- A call of `paging_map_fixed_attr` keeps the invariant, whatever it
returns. -/
theorem l1_inv.after_map_fixed {k : Kernel} {pdir : capref} {h0 : List Call}
    {st st2 : paging_state} (hslot : ∀ h, k.slot h ≠ pdir) (hst : l1_inv k pdir h0 st)
    (vaddr frame bytes flags : Nat) (res : errval_t)
    (h : paging_map_fixed_attr k st vaddr frame bytes flags = some (res, st2)) :
    l1_inv k pdir h0 st2 := by
  by_cases hb : bytes = 0
  · subst hb
    rw [paging_map_fixed_attr_zero] at h
    simp only [Option.some.injEq, Prod.mk.injEq] at h
    rw [← h.2]
    exact hst
  rcases paging_map_fixed_loop_cases k frame flags vaddr bytes hb _ _ _ _ _ h with
    ⟨_, e⟩ | ⟨p, r, hr, _, e⟩
  · rw [e]
    exact hst
  · rw [e]
    obtain ⟨e1, e2, e3, _, e5, _⟩ := paging_map_split_env st p vaddr bytes
    have hsp : l1_inv k pdir h0 (paging_map_split st p vaddr bytes) :=
      hst.after_calls [] e5 e3 e2 (by rw [e1, List.append_nil]) (fun _ => rfl)
    exact l1_inv.after_pages hslot frame flags _ _ _ _ _ _ hsp hr

/-- After `paging_init_state` the invariant holds for the given directory and
the history so far. -/
theorem l1_inv_init (k : Kernel) (pre : paging_state) (start_vaddr : Nat) (pdir : capref)
    (ca : Nat) : l1_inv k pdir pre.calls (paging_init_state pre start_vaddr pdir ca).2 := by
  have hl2 : ∀ i, i < L1_PAGETABLE_ENTRIES →
      ((paging_init_state pre start_vaddr pdir ca).2.l2_pagetables i).initialized = false := by
    intro i hi
    simp [paging_init_state, slab_alloc, hi]
  refine ⟨rfl, rfl, ?_, [], ?_, ?_⟩
  · intro i hi hin
    rw [hl2 i hi] at hin
    cases hin
  · simp [paging_init_state, slab_alloc]
  · intro i hi
    rw [hl2 i hi]
    rfl

theorem MapSeq.keeps_inv {k : Kernel} {pdir : capref} {h0 : List Call} {st0 st : paging_state}
    (hslot : ∀ h, k.slot h ≠ pdir) (hseq : MapSeq k st0 st) (h : l1_inv k pdir h0 st0) :
    l1_inv k pdir h0 st := by
  induction hseq with
  | start => exact h
  | call vaddr frame bytes flags res _ hres ih =>
    exact ih.after_map_fixed hslot vaddr frame bytes flags res hres

theorem MapSeq.keeps_l2 {k : Kernel} {st st2 : paging_state} (hseq : MapSeq k st st2) :
    l2_kept st st2 := by
  induction hseq with
  | start => exact l2_kept.unchanged _
  | call vaddr frame bytes flags res _ hres ih =>
    exact ih.next (paging_map_fixed_attr_kept k _ _ vaddr frame bytes flags res hres)

/-- C17 (counterexample): the L2 creation path runs twice for one L1 index.
In the state after `paging_init_state`, with an environment whose first mapping
into the directory fails, the call for one page at `0x40000000` creates an L2
table, fails to map it and returns the error; the next call, for the page at
`0x40001000` with the same L1 index `0x400`, creates a second L2 table and maps
it at the same directory slot. -/
theorem l2_creation_runs_twice :
    init_state = (paging_init_state blank_state 0x40000000 1 2).2 ∧
    paging_map_fixed_attr l1_map_fails_once init_state 0x40000000 7 0x1000 3
      = some (KERNEL_ERR 1, failed_map_state) ∧
    paging_map_fixed_attr l1_map_fails_once failed_map_state 0x40001000 7 0x1000 3
      = some (SYS_ERR_OK, retried_map_state) ∧
    ARM_L1_OFFSET 0x40000000 = 0x400 ∧ ARM_L1_OFFSET 0x40001000 = 0x400 ∧
    init_state.calls = [] ∧
    retried_map_state.calls =
      [Call.slot_alloc, Call.vnode_create 1000 objtype.ObjType_VNode_ARM_l2, Call.slot_alloc,
       Call.vnode_map 1 1000 0x400 3 0 1 1002,
       Call.slot_alloc, Call.vnode_create 1004 objtype.ObjType_VNode_ARM_l2, Call.slot_alloc,
       Call.vnode_map 1 1004 0x400 3 0 1 1006,
       Call.slot_alloc, Call.vnode_map 1004 7 1 3 0 1 1008] ∧
    l2_creations retried_map_state.calls = 2 ∧
    l1_maps 1 0x400 retried_map_state.calls = 2 :=
  ⟨rfl, rfl, rfl, by decide, by decide, by decide!, by decide!, by decide!, by decide!⟩

/-- C17 (amended): over every sequence of `paging_map_fixed_attr` calls on a
paging state after `paging_init_state`, whatever the calls return, the L2
creation path runs to its end, the successful mapping of the new table into
the L1 directory, at most once for each L1 index `i`: the number of such
mappings since the initialisation is 1 if `l2_pagetables[i]` is initialised
and 0 otherwise.  Once the entry is initialised, every further sequence of
calls leaves it as it is: `initialized` stays true and `cap` does not change.
The slot allocator is assumed never to hand out the slot of the
directory. -/
theorem l2_created_once (k : Kernel) (pre : paging_state) (start_vaddr : Nat) (pdir : capref)
    (ca : Nat) (hslot : ∀ h, k.slot h ≠ pdir) (st : paging_state)
    (hseq : MapSeq k (paging_init_state pre start_vaddr pdir ca).2 st) (i : Nat)
    (hi : i < L1_PAGETABLE_ENTRIES) :
    (∃ new, st.calls = pre.calls ++ new ∧
      l1_installs k pdir i pre.calls new
        = (if (st.l2_pagetables i).initialized = true then 1 else 0) ∧
      l1_installs k pdir i pre.calls new ≤ 1) ∧
    ∀ st2, MapSeq k st st2 → (st.l2_pagetables i).initialized = true →
      st2.l2_pagetables i = st.l2_pagetables i := by
  obtain ⟨_, _, _, new, e, hcount⟩ := hseq.keeps_inv hslot (l1_inv_init k pre start_vaddr pdir ca)
  refine ⟨⟨new, e, hcount i hi, ?_⟩, fun st2 h2 hin => h2.keeps_l2 i hin⟩
  rw [hcount i hi]
  split <;> omega

theorem l2_created_once_witness :
    (∀ h, l1_map_fails_once.slot h ≠ 1) ∧
    MapSeq l1_map_fails_once (paging_init_state blank_state 0x40000000 1 2).2
      retried_map_state ∧
    0x400 < L1_PAGETABLE_ENTRIES ∧
    (retried_map_state.l2_pagetables 0x400).initialized = true ∧
    ((∃ new, retried_map_state.calls = blank_state.calls ++ new ∧
      l1_installs l1_map_fails_once 1 0x400 blank_state.calls new
        = (if (retried_map_state.l2_pagetables 0x400).initialized = true then 1 else 0) ∧
      l1_installs l1_map_fails_once 1 0x400 blank_state.calls new ≤ 1) ∧
    ∀ st2, MapSeq l1_map_fails_once retried_map_state st2 →
      (retried_map_state.l2_pagetables 0x400).initialized = true →
      st2.l2_pagetables 0x400 = retried_map_state.l2_pagetables 0x400) :=
  have hslot : ∀ h, l1_map_fails_once.slot h ≠ 1 := fun h => by
    show 1000 + h.length ≠ 1
    omega
  have hseq : MapSeq l1_map_fails_once (paging_init_state blank_state 0x40000000 1 2).2
      retried_map_state :=
    MapSeq.call 0x40001000 7 0x1000 3 SYS_ERR_OK
      (MapSeq.call 0x40000000 7 0x1000 3 (KERNEL_ERR 1) (MapSeq.start _) rfl) rfl
  ⟨hslot, hseq, by decide, by decide!,
    l2_created_once l1_map_fails_once blank_state 0x40000000 1 2 hslot retried_map_state hseq
      0x400 (by decide)⟩

end Paging

namespace Spawn

/-! ### The tokenizer -/

theorem peek_append_right (pre x : List Nat) : peek (pre ++ x) pre.length = x.headD 0 := by
  induction pre with
  | nil => cases x <;> simp [peek]
  | cons a pre ih => simpa [peek] using ih

theorem peek_eq_zero_of_le (buf : List Nat) (i : Nat) (h : buf.length ≤ i) : peek buf i = 0 := by
  simp [peek, List.getElem?_eq_none h]

theorem peek_lt_of_ne_zero (buf : List Nat) (i : Nat) (h : peek buf i ≠ 0) : i < buf.length := by
  by_contra hn
  exact h (peek_eq_zero_of_le buf i (Nat.le_of_not_lt hn))

theorem takeWhile_nonzero (rest zs : List Nat) (hr : ∀ c ∈ rest, c ≠ 0) (hz : zs.headD 0 = 0) :
    (rest ++ zs).takeWhile (fun c => decide (c ≠ 0)) = rest := by
  rw [List.takeWhile_append_of_pos (by simpa using hr)]
  cases zs with
  | nil => simp
  | cons z zs =>
    have : z = 0 := by simpa using hz
    subst this
    simp

theorem cstr_at (pre rest zs : List Nat) (hr : ∀ c ∈ rest, c ≠ 0) (hz : zs.headD 0 = 0) :
    cstr (pre ++ rest ++ zs) pre.length = rest := by
  unfold cstr
  rw [List.append_assoc, List.drop_left]
  exact takeWhile_nonzero rest zs hr hz

theorem strlen_at (pre rest zs : List Nat) (hr : ∀ c ∈ rest, c ≠ 0) (hz : zs.headD 0 = 0) :
    strlen (pre ++ rest ++ zs) pre.length = rest.length := by
  have := cstr_at pre rest zs hr hz
  unfold cstr at this
  unfold strlen
  rw [this]

theorem map_peek_range (pre x y : List Nat) :
    (List.range x.length).map (fun i => peek (pre ++ x ++ y) (pre.length + i)) = x := by
  apply List.ext_getElem
  · simp
  · intro n h1 h2
    simp [peek, List.getElem?_append_right, List.getElem?_append_left, h2]

theorem memmove_quote (pre rest zs : List Nat) (c : Nat) (hz : zs.headD 0 = 0) :
    memmove (pre ++ c :: rest ++ zs) pre.length (pre.length + 1) (rest.length + 1)
      = pre ++ rest ++ 0 :: zs := by
  unfold memmove
  have h1 : (pre ++ c :: rest ++ zs).take pre.length = pre := by
    rw [List.append_assoc, List.take_left]
  have h2 : (pre ++ c :: rest ++ zs).drop (pre.length + (rest.length + 1)) = zs := by
    have : pre.length + (rest.length + 1) = (pre ++ c :: rest).length := by simp
    rw [this, List.drop_left]
  have h3 : (List.range (rest.length + 1)).map
      (fun i => peek (pre ++ c :: rest ++ zs) (pre.length + 1 + i)) = rest ++ [0] := by
    rw [List.range_succ, List.map_append]
    congr 1
    · have := map_peek_range (pre ++ [c]) rest zs
      simpa using this
    · show [peek (pre ++ c :: rest ++ zs) (pre.length + 1 + rest.length)] = [0]
      have e : pre.length + 1 + rest.length = (pre ++ c :: rest).length := by
        simp only [List.length_append, List.length_cons]
        omega
      rw [e, peek_append_right, hz]
  rw [h1, h2, h3]
  simp

theorem skip_blanks_spec (pre : List Nat) :
    ∀ (bl x : List Nat) (fuel : Nat), (∀ c ∈ bl, c = 32 ∨ c = 9) →
      ¬ (x.headD 0 = 32 ∨ x.headD 0 = 9) → bl.length < fuel →
      skip_blanks (pre ++ bl ++ x) fuel (pre.length) = some (pre.length + bl.length) := by
  intro bl
  induction bl generalizing pre with
  | nil =>
    intro x fuel _ hx hf
    cases fuel with
    | zero => simp at hf
    | succ f =>
      have hp : peek (pre ++ [] ++ x) pre.length = x.headD 0 := by
        simpa using peek_append_right pre x
      simp only [skip_blanks, hp, if_neg hx, List.length_nil, Nat.add_zero]
  | cons b bl ih =>
    intro x fuel hb hx hf
    cases fuel with
    | zero => simp at hf
    | succ f =>
      have hp : peek (pre ++ b :: bl ++ x) pre.length = b := by
        have := peek_append_right pre (b :: bl ++ x)
        simpa using this
      have hbb : b = 32 ∨ b = 9 := hb b (List.mem_cons_self _ _)
      simp only [skip_blanks, hp, if_pos hbb]
      have := ih (pre ++ [b]) x f (fun c hc => hb c (List.mem_cons_of_mem _ hc)) hx
        (by simpa using hf)
      simp only [List.append_assoc, List.singleton_append, List.length_append,
        List.length_singleton, List.cons_append, List.nil_append] at this ⊢
      rw [this]
      simp only [List.length_cons, Option.some.injEq]
      omega

theorem set_at (pre x : List Nat) (c v : Nat) :
    (pre ++ c :: x).set pre.length v = pre ++ v :: x := by
  rw [List.set_append_right _ _ (Nat.le_refl _)]
  simp

theorem tok_inv.peek_s {argv_len : Nat} {t : tokenizer} {done : List (List Nat)}
    {pre0 cur rest zs : List Nat} (h : tok_inv argv_len t done pre0 cur rest zs) :
    peek t.buf t.s = (rest ++ zs).headD 0 := by
  have h1 : t.buf = (pre0 ++ cur) ++ (rest ++ zs) := by rw [h.1]; simp
  have h2 : t.s = (pre0 ++ cur).length := by rw [h.2.1]; simp
  rw [h1, h2, peek_append_right]

/-- At the head of the loop the entries of `argv` point to the finished
tokens and to the open token, which runs up to the terminator. -/
theorem tok_inv.final {argv_len : Nat} {t : tokenizer} {done : List (List Nat)}
    {pre0 cur rest zs : List Nat} (h : tok_inv argv_len t done pre0 cur rest zs) :
    tok_final argv_len t.buf.length t (done ++ [cur ++ rest]) := by
  obtain ⟨hbuf, _, hcur, hrest, hzs, hpos, hargc, hroom, hst, hopen, hdone⟩ := h
  refine ⟨by simp [hargc], hroom, hst, rfl, ?_⟩
  intro i tok hi
  by_cases hlt : i < done.length
  · rw [List.getElem?_append_left hlt] at hi
    obtain ⟨a, b, hp, hav, hnz⟩ := hdone i tok hi
    refine ⟨a.length, hav, ?_, ?_⟩
    · rw [hbuf, hp]
      simp only [List.length_append, List.length_cons]
      omega
    · have hb : t.buf = a ++ tok ++ (0 :: (b ++ cur ++ rest ++ zs)) := by
        rw [hbuf, hp]; simp
      rw [hb]
      exact cstr_at a tok _ hnz rfl
  · have hge : done.length ≤ i := Nat.le_of_not_lt hlt
    rw [List.getElem?_append_right hge] at hi
    have hi0 : i - done.length = 0 := by
      by_contra hne
      have : ([cur ++ rest] : List (List Nat))[i - done.length]? = none := by
        apply List.getElem?_eq_none
        simp
        omega
      rw [this] at hi
      cases hi
    rw [hi0] at hi
    have htok : tok = cur ++ rest := by simpa using hi.symm
    have hidx : i = done.length := by omega
    subst hidx
    refine ⟨pre0.length, hopen, ?_, ?_⟩
    · rw [hbuf]
      simp only [List.length_append] at hpos ⊢
      omega
    · have hb : t.buf = pre0 ++ (cur ++ rest) ++ zs := by rw [hbuf]; simp
      rw [hb, htok]
      refine cstr_at pre0 (cur ++ rest) zs ?_ hzs
      intro c hc
      rcases List.mem_append.mp hc with h1 | h1
      · exact hcur c h1
      · exact hrest c h1

theorem tok_final_of_s {argv_len len : Nat} {t : tokenizer} {toks : List (List Nat)} (p : Nat)
    (h : tok_final argv_len len { t with s := p } toks) : tok_final argv_len len t toks := h

theorem tokenize_loop_exit (argv_len fuel : Nat) (t : tokenizer)
    (h : ¬ (t.argc + 1 < argv_len ∧ peek t.buf t.s ≠ 0)) :
    tokenize_loop argv_len (fuel + 1) t = some t := by
  rw [tokenize_loop, if_neg h]

/-- The loop body at a double quote: the quote is removed from the buffer. -/
theorem tokenize_body_quote {argv_len : Nat} {t : tokenizer} {done : List (List Nat)}
    {pre0 cur rest zs : List Nat} (h : tok_inv argv_len t done pre0 cur (34 :: rest) zs) :
    ∃ t1, tokenize_body t = some t1 ∧ tok_inv argv_len t1 done pre0 cur rest (0 :: zs) ∧
      t1.inquote = (!t.inquote) ∧ t1.argc = t.argc ∧ t1.buf.length = t.buf.length := by
  have hp : peek t.buf t.s = 34 := by rw [h.peek_s]; rfl
  obtain ⟨hbuf, hs, hcur, hrest, hzs, hpos, hargc, hroom, hst, hopen, hdone⟩ := h
  have hb1 : t.buf = (pre0 ++ cur) ++ (34 :: rest) ++ zs := by rw [hbuf]
  have hs1 : t.s = (pre0 ++ cur).length := by rw [hs]; simp
  have hlen : strlen t.buf t.s = rest.length + 1 := by
    rw [hb1, hs1, strlen_at _ _ _ hrest hzs]
    rfl
  have hmv : memmove t.buf t.s (t.s + 1) (strlen t.buf t.s) = pre0 ++ cur ++ rest ++ 0 :: zs := by
    rw [hlen, hb1, hs1]
    exact memmove_quote (pre0 ++ cur) rest zs 34 hzs
  refine ⟨{ t with inquote := !t.inquote,
                   buf := memmove t.buf t.s (t.s + 1) (strlen t.buf t.s) }, ?_, ?_, rfl, rfl, ?_⟩
  · simp only [tokenize_body, hp, if_true]
  · refine ⟨hmv, hs, hcur, fun c hc => hrest c (List.mem_cons_of_mem _ hc), rfl, ?_, hargc,
      hroom, hst, hopen, hdone⟩
    simp
  · show (memmove t.buf t.s (t.s + 1) (strlen t.buf t.s)).length = t.buf.length
    rw [hmv, hbuf]
    simp only [List.length_append, List.length_cons]
    omega

/-- The loop body at a character that does not end the token. -/
theorem tokenize_body_char {argv_len : Nat} {t : tokenizer} {done : List (List Nat)}
    {pre0 cur rest zs : List Nat} {c : Nat}
    (h : tok_inv argv_len t done pre0 cur (c :: rest) zs) (hq : c ≠ 34)
    (hb : ¬ ((c = 32 ∨ c = 9) ∧ t.inquote = false)) :
    ∃ t1, tokenize_body t = some t1 ∧ tok_inv argv_len t1 done pre0 (cur ++ [c]) rest zs ∧
      t1.inquote = t.inquote ∧ t1.argc = t.argc ∧ t1.buf.length = t.buf.length := by
  have hp : peek t.buf t.s = c := by rw [h.peek_s]; rfl
  obtain ⟨hbuf, hs, hcur, hrest, hzs, hpos, hargc, hroom, hst, hopen, hdone⟩ := h
  refine ⟨{ t with s := t.s + 1 }, ?_, ?_, rfl, rfl, rfl⟩
  · simp only [tokenize_body, hp, if_neg hq, if_neg hb]
  · refine ⟨?_, ?_, ?_, fun x hx => hrest x (List.mem_cons_of_mem _ hx), hzs, ?_, hargc,
      hroom, hst, hopen, hdone⟩
    · show t.buf = _
      rw [hbuf]; simp
    · show t.s + 1 = _
      rw [hs]; simp; omega
    · intro x hx
      rcases List.mem_append.mp hx with h1 | h1
      · exact hcur x h1
      · have : x = c := by simpa using h1
        rw [this]
        exact hrest c (List.mem_cons_self _ _)
    · simp

theorem takeWhile_blank_all (l : List Nat) :
    ∀ c ∈ l.takeWhile is_blank, c = 32 ∨ c = 9 := by
  intro c hc
  have := List.mem_takeWhile_imp hc
  simpa [is_blank] using this

theorem dropWhile_blank_head (l zs : List Nat) (hz : zs.headD 0 = 0) :
    ¬ (((l.dropWhile is_blank) ++ zs).headD 0 = 32 ∨ ((l.dropWhile is_blank) ++ zs).headD 0 = 9) := by
  cases hd : l.dropWhile is_blank with
  | nil =>
    rw [List.nil_append, hz]
    decide
  | cons d r =>
    have := List.head?_dropWhile_not is_blank l
    rw [hd] at this
    simpa [is_blank] using this

/-- The loop body at a blank outside quotes: the token is closed, the blanks
after it are passed, and the next token is opened when one starts there. -/
theorem tokenize_body_blank {argv_len : Nat} {t : tokenizer} {done : List (List Nat)}
    {pre0 cur rest zs : List Nat} {c : Nat}
    (h : tok_inv argv_len t done pre0 cur (c :: rest) zs) (hc : c = 32 ∨ c = 9)
    (hq : t.inquote = false) (hroom2 : t.argc + 1 < argv_len) :
    ∃ t1, tokenize_body t = some t1 ∧ t1.buf.length = t.buf.length ∧
      ((rest.dropWhile is_blank = [] ∧ peek t1.buf t1.s = 0 ∧
          tok_final argv_len t.buf.length t1 (done ++ [cur])) ∨
       (rest.dropWhile is_blank ≠ [] ∧ t1.inquote = false ∧ t1.argc = t.argc + 1 ∧
          tok_inv argv_len t1 (done ++ [cur]) (pre0 ++ cur ++ 0 :: rest.takeWhile is_blank) []
            (rest.dropWhile is_blank) zs)) := by
  have hp : peek t.buf t.s = c := by rw [h.peek_s]; rfl
  obtain ⟨hbuf, hs, hcur, hrest, hzs, hpos, hargc, hroom, hst, hopen, hdone⟩ := h
  have hq34 : c ≠ 34 := by rcases hc with h1 | h1 <;> omega
  have hsplit : rest.takeWhile is_blank ++ rest.dropWhile is_blank = rest :=
    List.takeWhile_append_dropWhile is_blank rest
  have hset : t.buf.set t.s 0
      = (pre0 ++ cur ++ [0]) ++ rest.takeWhile is_blank ++ (rest.dropWhile is_blank ++ zs) := by
    have h1 : t.buf = (pre0 ++ cur) ++ c :: (rest ++ zs) := by rw [hbuf]; simp
    have h2 : t.s = (pre0 ++ cur).length := by rw [hs]; simp
    have e : rest ++ zs = rest.takeWhile is_blank ++ (rest.dropWhile is_blank ++ zs) := by
      rw [← List.append_assoc, hsplit]
    rw [h1, h2, set_at, e]
    simp
  have hlen : (t.buf.set t.s 0).length = t.buf.length := List.length_set _ _ _
  have hskip : skip_blanks (t.buf.set t.s 0) ((t.buf.set t.s 0).length + 1) (t.s + 1)
      = some (t.s + 1 + (rest.takeWhile is_blank).length) := by
    have hs2 : t.s + 1 = (pre0 ++ cur ++ [0]).length := by
      rw [hs]
      simp only [List.length_append, List.length_singleton]
    rw [hs2]
    nth_rewrite 1 [hset]
    refine skip_blanks_spec _ _ _ _ (takeWhile_blank_all rest) (dropWhile_blank_head rest zs hzs) ?_
    rw [hset]
    simp only [List.length_append]
    omega
  have hpk : peek (t.buf.set t.s 0) (t.s + 1 + (rest.takeWhile is_blank).length)
      = (rest.dropWhile is_blank ++ zs).headD 0 := by
    have hs2 : t.s + 1 + (rest.takeWhile is_blank).length
        = ((pre0 ++ cur ++ [0]) ++ rest.takeWhile is_blank).length := by
      rw [hs]
      simp only [List.length_append, List.length_singleton]
    rw [hs2, hset, peek_append_right]
  have hbody : tokenize_body t = some
      (if peek (t.buf.set t.s 0) (t.s + 1 + (rest.takeWhile is_blank).length) ≠ 0 then
        tokenizer.store_arg { t with buf := t.buf.set t.s 0,
                                     s := t.s + 1 + (rest.takeWhile is_blank).length }
       else { t with buf := t.buf.set t.s 0,
                     s := t.s + 1 + (rest.takeWhile is_blank).length }) := by
    simp only [tokenize_body, hp, if_neg hq34, hc, hq, and_self, if_true, hskip]
  refine ⟨_, hbody, ?_, ?_⟩
  · split
    · exact hlen
    · exact hlen
  · cases hd : rest.dropWhile is_blank with
    | nil =>
      left
      rw [hd] at hpk
      have hpk0 : peek (t.buf.set t.s 0) (t.s + 1 + (rest.takeWhile is_blank).length) = 0 := by
        rw [hpk]; simpa using hzs
      rw [if_neg (by simp [hpk0])]
      refine ⟨rfl, hpk0, ?_⟩
      have hinv : tok_inv argv_len
          { t with buf := t.buf.set t.s 0, s := pre0.length + cur.length } done pre0 cur []
          (0 :: (rest.takeWhile is_blank ++ zs)) := by
        refine ⟨?_, rfl, hcur, by simp, rfl, by simp, hargc, hroom, hst, hopen, hdone⟩
        show t.buf.set t.s 0 = _
        rw [hset, hd]
        simp
      have hfin := hinv.final
      rw [List.append_nil] at hfin
      have hfin2 : tok_final argv_len t.buf.length
          { t with buf := t.buf.set t.s 0, s := pre0.length + cur.length } (done ++ [cur]) := by
        have e : t.buf.length = (t.buf.set t.s 0).length := hlen.symm
        rw [e]
        exact hfin
      exact hfin2
    | cons d r =>
      right
      rw [hd] at hpk
      have hdmem : d ∈ rest := by
        have : d ∈ rest.dropWhile is_blank := by rw [hd]; exact List.mem_cons_self _ _
        exact (List.dropWhile_sublist is_blank).subset this
      have hd0 : d ≠ 0 := hrest d (List.mem_cons_of_mem _ hdmem)
      have hpk0 : peek (t.buf.set t.s 0) (t.s + 1 + (rest.takeWhile is_blank).length) ≠ 0 := by
        rw [hpk]; simpa using hd0
      rw [if_pos hpk0]
      refine ⟨by simp, hq, rfl, ?_⟩
      refine ⟨?_, ?_, by simp, ?_, hzs, by simp, ?_, ?_, ?_, ?_, ?_⟩
      · show t.buf.set t.s 0 = _
        rw [hset, hd]
        simp
      · show t.s + 1 + (rest.takeWhile is_blank).length = _
        rw [hs]; simp; omega
      · intro x hx
        have : x ∈ rest.dropWhile is_blank := by rw [hd]; exact hx
        exact hrest x (List.mem_cons_of_mem _ ((List.dropWhile_sublist is_blank).subset this))
      · show t.argc + 1 = _
        rw [hargc]; simp
      · show t.argc + 1 + 1 ≤ argv_len
        omega
      · show t.stores ++ [t.argc] = List.range (t.argc + 1)
        rw [hst, List.range_succ]
      · show Function.update t.argv t.argc (some (t.s + 1 + (rest.takeWhile is_blank).length))
          (done ++ [cur]).length = _
        have : (done ++ [cur]).length = t.argc := by rw [hargc]; simp
        rw [this, Function.update_same, hs]
        simp
        omega
      · intro i tok hi
        have hne : ∀ j, j ≤ done.length → Function.update t.argv t.argc
            (some (t.s + 1 + (rest.takeWhile is_blank).length)) j = t.argv j := by
          intro j hj
          rw [Function.update_noteq]
          omega
        by_cases hlt : i < done.length
        · rw [List.getElem?_append_left hlt] at hi
          obtain ⟨a, b, hp2, hav, hnz⟩ := hdone i tok hi
          refine ⟨a, b ++ cur ++ 0 :: rest.takeWhile is_blank, ?_, ?_, hnz⟩
          · rw [hp2]; simp
          · show Function.update t.argv t.argc _ i = _
            rw [hne i (Nat.le_of_lt hlt)]
            exact hav
        · have hge : done.length ≤ i := Nat.le_of_not_lt hlt
          rw [List.getElem?_append_right hge] at hi
          have hi0 : i - done.length = 0 := by
            by_contra hne2
            have : ([cur] : List (List Nat))[i - done.length]? = none := by
              apply List.getElem?_eq_none
              simp
              omega
            rw [this] at hi
            cases hi
          rw [hi0] at hi
          have htok : tok = cur := by simpa using hi.symm
          have hidx : i = done.length := by omega
          subst hidx
          refine ⟨pre0, rest.takeWhile is_blank, ?_, ?_, ?_⟩
          · rw [htok]
          · show Function.update t.argv t.argc _ done.length = _
            rw [hne _ (Nat.le_refl _)]
            exact hopen
          · rw [htok]; exact hcur

/-- The main loop returns, and leaves in `argv` the finished tokens followed
by what the list view of the loop makes of the open token and the rest. -/
theorem tokenize_loop_spec (argv_len : Nat) :
    ∀ (fuel : Nat) (t : tokenizer) (done : List (List Nat)) (pre0 cur rest zs : List Nat),
      tok_inv argv_len t done pre0 cur rest zs → rest.length < fuel →
      ∃ t2, tokenize_loop argv_len fuel t = some t2 ∧
        tok_final argv_len t.buf.length t2
          (done ++ tokens_loop (argv_len - 1 - t.argc) t.inquote cur rest) := by
  intro fuel
  induction fuel with
  | zero =>
    intro _ _ _ _ rest _ _ hf
    exact absurd hf (Nat.not_lt_zero _)
  | succ f ih =>
    intro t done pre0 cur rest zs h hf
    cases rest with
    | nil =>
      have hp : peek t.buf t.s = 0 := by
        rw [h.peek_s]
        simpa using h.2.2.2.2.1
      refine ⟨t, tokenize_loop_exit _ _ _ (by simp [hp]), ?_⟩
      have hfin := h.final
      rw [List.append_nil] at hfin
      rw [tokens_loop]
      exact hfin
    | cons c rest =>
      have hp : peek t.buf t.s = c := by rw [h.peek_s]; rfl
      have hc0 : c ≠ 0 := h.2.2.2.1 c (List.mem_cons_self _ _)
      by_cases hroom : t.argc + 1 < argv_len
      · obtain ⟨r, hr⟩ : ∃ r, argv_len - 1 - t.argc = r + 1 :=
          ⟨argv_len - 1 - t.argc - 1, by omega⟩
        have hloop : tokenize_loop argv_len (f + 1) t
            = match tokenize_body t with
              | none => none
              | some t1 => tokenize_loop argv_len f t1 := by
          rw [tokenize_loop, if_pos ⟨hroom, by rw [hp]; exact hc0⟩]
        have hf2 : rest.length < f := by simpa using hf
        rw [hloop, hr]
        by_cases hq : c = 34
        · subst hq
          obtain ⟨t1, hb, hinv, hinq, hargc, hlen⟩ := tokenize_body_quote h
          rw [hb]
          obtain ⟨t2, h2, hfin⟩ := ih t1 done pre0 cur rest (0 :: zs) hinv hf2
          refine ⟨t2, h2, ?_⟩
          rw [tokens_loop]
          simp only [if_true]
          rw [hlen, hinq, hargc, hr] at hfin
          exact hfin
        · by_cases hb : (c = 32 ∨ c = 9) ∧ t.inquote = false
          · obtain ⟨t1, hbody, hlen, hcase⟩ := tokenize_body_blank h hb.1 hb.2 hroom
            rw [hbody]
            rw [tokens_loop]
            simp only [if_neg hq, hb, and_self, if_true]
            rcases hcase with ⟨hnil, hpk, hfin⟩ | ⟨hne, hinq, hargc, hinv⟩
            · have hf1 : ∃ g, f = g + 1 := ⟨f - 1, by omega⟩
              obtain ⟨g, hg⟩ := hf1
              refine ⟨t1, ?_, ?_⟩
              · rw [hg]
                exact tokenize_loop_exit _ _ _ (by simp [hpk])
              · rw [if_pos hnil]
                exact hfin
            · have hlt : (rest.dropWhile is_blank).length < f := by
                have := (@List.dropWhile_sublist Nat rest is_blank).length_le
                omega
              obtain ⟨t2, h2, hfin⟩ := ih t1 (done ++ [cur]) _ [] _ zs hinv hlt
              refine ⟨t2, h2, ?_⟩
              rw [if_neg hne]
              have hr2 : argv_len - 1 - t1.argc = r := by omega
              rw [hlen, hinq, hr2] at hfin
              simpa using hfin
          · obtain ⟨t1, hbody, hinv, hinq, hargc, hlen⟩ := tokenize_body_char h hq hb
            rw [hbody]
            obtain ⟨t2, h2, hfin⟩ := ih t1 done pre0 (cur ++ [c]) rest zs hinv hf2
            refine ⟨t2, h2, ?_⟩
            rw [tokens_loop]
            simp only [if_neg hq, if_neg hb]
            rw [hlen, hinq, hargc, hr] at hfin
            exact hfin
      · have hz : argv_len - 1 - t.argc = 0 := by omega
        refine ⟨t, tokenize_loop_exit _ _ _ (fun hh => hroom hh.1), ?_⟩
        rw [hz, tokens_loop]
        exact h.final

/-- `spawn_tokenize_cmdargs` returns; it assigns the entries `0 .. argc` of
`argv` in order, the last of them `NULL`, and the entries before it point into
the buffer at the tokens of the list view. -/
theorem spawn_tokenize_cmdargs_spec (s : List Nat) (argv : Nat → Option Nat) (argv_len : Nat)
    (h : 1 < argv_len) :
    ∃ t, spawn_tokenize_cmdargs s argv argv_len = some (t.argc, t) ∧
      t.argv t.argc = none ∧ t.stores = List.range (t.argc + 1) ∧ t.argc + 1 ≤ argv_len ∧
      t.buf.length = s.length ∧ t.argc = (tokens_view argv_len s).length ∧
      ∀ i tok, (tokens_view argv_len s)[i]? = some tok →
        ∃ p, t.argv i = some p ∧ p < s.length ∧ cstr t.buf p = tok := by
  have hsplit : s = s.takeWhile is_blank ++ s.dropWhile is_blank :=
    (List.takeWhile_append_dropWhile is_blank s).symm
  have hx : s.dropWhile is_blank
      = (s.dropWhile is_blank).takeWhile (fun c => decide (c ≠ 0))
        ++ (s.dropWhile is_blank).dropWhile (fun c => decide (c ≠ 0)) :=
    (List.takeWhile_append_dropWhile _ _).symm
  generalize hbl : s.takeWhile is_blank = bl at hsplit
  generalize hbody : (s.dropWhile is_blank).takeWhile (fun c => decide (c ≠ 0)) = body at hx
  generalize hzs : (s.dropWhile is_blank).dropWhile (fun c => decide (c ≠ 0)) = zs at hx
  have hzs0 : zs.headD 0 = 0 := by
    have := List.head?_dropWhile_not (fun c => decide (c ≠ 0)) (s.dropWhile is_blank)
    rw [hzs] at this
    cases zs with
    | nil => rfl
    | cons z zs => simpa using this
  have hbody0 : ∀ c ∈ body, c ≠ 0 := by
    intro c hc
    rw [← hbody] at hc
    simpa using List.mem_takeWhile_imp hc
  have hskip : skip_blanks s (s.length + 1) 0 = some bl.length := by
    have := skip_blanks_spec [] bl (s.dropWhile is_blank) (s.length + 1)
      (by rw [← hbl]; exact takeWhile_blank_all s)
      (by simpa using dropWhile_blank_head s [] rfl)
      (by
        have : bl.length ≤ s.length := by
          rw [← hbl]
          exact (List.takeWhile_sublist is_blank).length_le
        omega)
    simpa [← hsplit] using this
  have hpk : peek s bl.length = (body ++ zs).headD 0 := by
    have := peek_append_right bl (s.dropWhile is_blank)
    rw [← hsplit] at this
    rw [this, ← hx]
  have hview : tokens_view argv_len s
      = if body = [] then [] else tokens_loop (argv_len - 2) false [] body := by
    unfold tokens_view
    rw [hbody]
  rw [hview]
  obtain ⟨t0, ht0⟩ : ∃ t0, t0 = { tokenizer.entry s argv with s := bl.length } := ⟨_, rfl⟩
  have hrun : spawn_tokenize_cmdargs s argv argv_len
      = match tokenize_loop argv_len (s.length + 1)
          (if peek s bl.length ≠ 0 then t0.store_arg else t0) with
        | none => none
        | some t => some (t.store_null.argc, t.store_null) := by
    unfold spawn_tokenize_cmdargs
    simp only [h, not_true_eq_false, if_false]
    show (match skip_blanks s (s.length + 1) 0 with
      | none => none
      | some p => _) = _
    rw [hskip, ht0]
    by_cases hz : peek s bl.length ≠ 0
    · simp only [tokenizer.entry, if_pos hz]
      rfl
    · simp only [tokenizer.entry, if_neg hz]
  rw [hrun]
  by_cases hb : body = []
  · -- the string holds blanks only: no token
    have hpk0 : peek s bl.length = 0 := by
      rw [hpk, hb]
      simpa using hzs0
    have hexit : tokenize_loop argv_len (s.length + 1) t0 = some t0 :=
      tokenize_loop_exit _ _ _ (by rw [ht0]; simp [tokenizer.entry, hpk0])
    rw [if_neg (by simp [hpk0]), hexit]
    refine ⟨t0.store_null, rfl, ?_, ?_, ?_, ?_, ?_, ?_⟩
    · rw [ht0]; simp [tokenizer.store_null, tokenizer.entry]
    · rw [ht0]; rfl
    · rw [ht0]; show 0 + 1 ≤ argv_len; omega
    · rw [ht0]; rfl
    · rw [ht0]; simp [hb, tokenizer.store_null, tokenizer.entry]
    · intro i tok hi
      simp [hb] at hi
  · -- the first token is opened and the main loop runs
    have hpk0 : peek s bl.length ≠ 0 := by
      rw [hpk]
      cases body with
      | nil => exact absurd rfl hb
      | cons c cs => simpa using hbody0 c (List.mem_cons_self _ _)
    rw [if_pos hpk0]
    have hinv : tok_inv argv_len t0.store_arg [] bl [] body zs := by
      rw [ht0]
      refine ⟨?_, by simp [tokenizer.store_arg], by simp, hbody0, hzs0, ?_, rfl, ?_, rfl, ?_, ?_⟩
      · show s = _
        rw [List.append_nil, List.append_assoc, ← hx, ← hsplit]
      · cases body with
        | nil => exact absurd rfl hb
        | cons c cs => simp
      · show 0 + 1 + 1 ≤ argv_len
        omega
      · simp [tokenizer.store_arg, tokenizer.entry]
      · intro i tok hi
        simp at hi
    obtain ⟨t2, h2, hfin⟩ := tokenize_loop_spec argv_len (s.length + 1) _ [] bl [] body zs hinv
      (by
        have h1 : body.length ≤ (s.dropWhile is_blank).length := by
          rw [← hbody]
          exact (List.takeWhile_sublist _).length_le
        have h2 : (s.dropWhile is_blank).length ≤ s.length :=
          (List.dropWhile_sublist is_blank).length_le
        omega)
    obtain ⟨f1, f2, f3, f4, f5⟩ := hfin
    have hroom : argv_len - 1 - t0.store_arg.argc = argv_len - 2 := by
      rw [ht0]
      show argv_len - 1 - (0 + 1) = argv_len - 2
      omega
    have hinq : t0.store_arg.inquote = false := by rw [ht0]; rfl
    have hlen0 : t0.store_arg.buf.length = s.length := by rw [ht0]; rfl
    rw [hroom, hinq] at f1 f5
    rw [hlen0] at f4 f5
    simp only [List.nil_append] at f1 f5
    rw [h2]
    refine ⟨t2.store_null, rfl, ?_, ?_, f2, f4, ?_, ?_⟩
    · show Function.update t2.argv t2.argc none t2.argc = none
      rw [Function.update_same]
    · show t2.stores ++ [t2.argc] = List.range (t2.argc + 1)
      rw [f3, List.range_succ]
    · rw [if_neg hb]
      exact f1
    · intro i tok hi
      rw [if_neg hb] at hi
      obtain ⟨p, hp1, hp2, hp3⟩ := f5 i tok hi
      refine ⟨p, ?_, hp2, hp3⟩
      show Function.update t2.argv t2.argc none i = some p
      have hlt : i < t2.argc := by
        rw [f1]
        exact (List.getElem?_eq_some_iff.mp hi).1
      rw [Function.update_noteq (by omega)]
      exact hp1

/-! ### The tokens of the claim -/

theorem tokenizer.tokens_eq {argv_len len : Nat} {t : tokenizer} {toks : List (List Nat)}
    (h1 : t.argc = toks.length)
    (h2 : ∀ i tok, toks[i]? = some tok → ∃ p, t.argv i = some p ∧ p < len ∧ cstr t.buf p = tok)
    (_h3 : t.argc + 1 ≤ argv_len) : t.tokens = toks := by
  unfold tokenizer.tokens
  apply List.ext_getElem
  · simp [h1]
  · intro i hi1 hi2
    have hi : toks[i]? = some toks[i] := List.getElem?_eq_getElem hi2
    obtain ⟨p, hp1, _, hp3⟩ := h2 i _ hi
    simp [hp1, hp3]

theorem pieces_tokens_nil_cons (ps : List (List (Nat × Bool))) :
    pieces_tokens ([] :: ps) = pieces_tokens ps := by
  simp [pieces_tokens]

theorem pieces_tokens_cons (p : List (Nat × Bool)) (ps : List (List (Nat × Bool)))
    (hp : p ≠ []) : pieces_tokens (p :: ps) = unquote p :: pieces_tokens ps := by
  cases p with
  | nil => exact absurd rfl hp
  | cons a p => simp [pieces_tokens]

theorem quote_flags_blank (q : Bool) (c : Nat) (cs : List Nat) (hc : c = 32 ∨ c = 9) :
    quote_flags q (c :: cs) = (c, q) :: quote_flags q cs := by
  have : c ≠ 34 := by rcases hc with h | h <;> omega
  simp [quote_flags, this]

/-- Blanks outside quotes before the first token make no token. -/
theorem pieces_tokens_dropWhile (l : List Nat) :
    pieces_tokens ((quote_flags false l).splitOnP is_delim)
      = pieces_tokens ((quote_flags false (l.dropWhile is_blank)).splitOnP is_delim) := by
  induction l with
  | nil => rfl
  | cons c l ih =>
    by_cases hc : c = 32 ∨ c = 9
    · have hb : is_blank c = true := by simp [is_blank, hc]
      rw [List.dropWhile_cons_of_pos hb, ← ih, quote_flags_blank false c l hc,
        List.splitOnP_cons]
      have hd : is_delim (c, false) = true := by simp [is_delim, hb]
      rw [if_pos hd, pieces_tokens_nil_cons]
    · have hb : ¬ is_blank c = true := by simp [is_blank, hc]
      rw [List.dropWhile_cons_of_neg hb]

theorem modifyHead_append_cons (pp : List (Nat × Bool)) (x : Nat × Bool)
    (L : List (List (Nat × Bool))) :
    List.modifyHead (fun y => pp ++ y) (List.modifyHead (List.cons x) L)
      = List.modifyHead (fun y => (pp ++ [x]) ++ y) L := by
  cases L <;> simp

theorem modifyHead_nil_append (L : List (List (Nat × Bool))) :
    List.modifyHead (fun y => ([] : List (Nat × Bool)) ++ y) L = L := by
  cases L <;> simp

/-- While a token is open there is at least one token. -/
theorem pieces_tokens_open_ne_nil (pp : List (Nat × Bool)) (inq : Bool) (rest : List Nat)
    (h : pp ≠ [] ∨ ∃ d r, rest = d :: r ∧ is_delim (d, inq) = false) :
    pieces_tokens (List.modifyHead (fun y => pp ++ y)
      ((quote_flags inq rest).splitOnP is_delim)) ≠ [] := by
  have hne : ∀ (L : List (List (Nat × Bool))) (p : List (Nat × Bool)), p ≠ [] →
      pieces_tokens (p :: L) ≠ [] := by
    intro L p hp
    rw [pieces_tokens_cons p L hp]
    exact List.cons_ne_nil _ _
  rcases h with h | ⟨d, r, hr, hd⟩
  · cases hX : (quote_flags inq rest).splitOnP is_delim with
    | nil => exact absurd hX (List.splitOnP_ne_nil _ _)
    | cons a L =>
      rw [List.modifyHead_cons]
      exact hne L _ (by simp [h])
  · rw [hr]
    simp only [quote_flags, List.splitOnP_cons, hd, Bool.false_eq_true, if_false]
    rw [modifyHead_append_cons]
    cases hX : (quote_flags (if d = 34 then !inq else inq) r).splitOnP is_delim with
    | nil => exact absurd hX (List.splitOnP_ne_nil _ _)
    | cons a L =>
      rw [List.modifyHead_cons]
      exact hne L _ (by simp)

theorem unquote_append_quote (pp : List (Nat × Bool)) (q : Bool) :
    unquote (pp ++ [(34, q)]) = unquote pp := by
  simp [unquote]

theorem unquote_append_char (pp : List (Nat × Bool)) (c : Nat) (q : Bool) (hc : c ≠ 34) :
    unquote (pp ++ [(c, q)]) = unquote pp ++ [c] := by
  simp [unquote, hc]

theorem pieces_open_nil (pp : List (Nat × Bool)) (inq : Bool) (hpp : pp ≠ []) :
    pieces_tokens (List.modifyHead (fun y => pp ++ y)
      ((quote_flags inq []).splitOnP is_delim)) = [unquote pp] := by
  have e : List.modifyHead (fun y => pp ++ y) ((quote_flags inq []).splitOnP is_delim) = [pp] := by
    simp [quote_flags]
  rw [e, pieces_tokens_cons pp [] hpp]
  rfl

/-- The list view of the loop against the tokens of the claim, `pp` being the
part of the open piece that was already passed: the first `room` tokens are
those of the claim, and the loop makes all tokens or `room + 1` of them. -/
theorem tokens_loop_pieces :
    ∀ (n : Nat) (rest : List Nat), rest.length ≤ n →
      ∀ (room : Nat) (inq : Bool) (pp : List (Nat × Bool)),
      (pp ≠ [] ∨ ∃ d r, rest = d :: r ∧ is_delim (d, inq) = false) →
      (tokens_loop room inq (unquote pp) rest).take room
        = (pieces_tokens (List.modifyHead (fun y => pp ++ y)
            ((quote_flags inq rest).splitOnP is_delim))).take room ∧
      (tokens_loop room inq (unquote pp) rest).length
        = min (pieces_tokens (List.modifyHead (fun y => pp ++ y)
            ((quote_flags inq rest).splitOnP is_delim))).length (room + 1) := by
  intro n
  induction n with
  | zero =>
    intro rest hn room inq pp hopen
    have hr : rest = [] := List.length_eq_zero.mp (Nat.le_zero.mp hn)
    subst hr
    have hpp : pp ≠ [] := by
      rcases hopen with h | ⟨d, r, hr, _⟩
      · exact h
      · cases hr
    rw [tokens_loop, pieces_open_nil pp inq hpp]
    exact ⟨rfl, by simp⟩
  | succ n ih =>
    intro rest hn room inq pp hopen
    cases rest with
    | nil =>
      have hpp : pp ≠ [] := by
        rcases hopen with h | ⟨d, r, hr, _⟩
        · exact h
        · cases hr
      rw [tokens_loop, pieces_open_nil pp inq hpp]
      exact ⟨rfl, by simp⟩
    | cons c rest =>
      have hn2 : rest.length ≤ n := by simpa using hn
      have hne := pieces_tokens_open_ne_nil pp inq (c :: rest) hopen
      cases room with
      | zero =>
        rw [tokens_loop]
        have hpos := List.length_pos.mpr hne
        refine ⟨by simp, ?_⟩
        simp only [List.length_singleton]
        omega
      | succ r =>
        rw [tokens_loop]
        by_cases hq : c = 34
        · subst hq
          have hd : is_delim (34, inq) = false := by simp [is_delim, is_blank]
          simp only [if_true, quote_flags, List.splitOnP_cons, hd, Bool.false_eq_true, if_false]
          rw [modifyHead_append_cons, ← unquote_append_quote pp inq]
          exact ih rest hn2 (r + 1) (!inq) (pp ++ [(34, inq)]) (Or.inl (by simp))
        · by_cases hb : (c = 32 ∨ c = 9) ∧ inq = false
          · obtain ⟨hc, hi⟩ := hb
            subst hi
            have hd : is_delim (c, false) = true := by simp [is_delim, is_blank, hc]
            have hpp : pp ≠ [] := by
              rcases hopen with h | ⟨d, r2, hr, hdd⟩
              · exact h
              · cases hr
                rw [hd] at hdd
                cases hdd
            simp only [if_neg hq, hc, and_self, if_true]
            rw [quote_flags_blank false c rest hc, List.splitOnP_cons, if_pos hd,
              List.modifyHead_cons, List.append_nil, pieces_tokens_cons pp _ hpp,
              pieces_tokens_dropWhile]
            cases hr2 : rest.dropWhile is_blank with
            | nil => simp [quote_flags, pieces_tokens]
            | cons d r2 =>
              rw [if_neg (List.cons_ne_nil _ _)]
              have hdn : is_delim (d, false) = false := by
                have := List.head?_dropWhile_not is_blank rest
                rw [hr2] at this
                simp [is_delim] at this ⊢
                exact this
              have hlen : (d :: r2).length ≤ n := by
                have := (@List.dropWhile_sublist Nat rest is_blank).length_le
                rw [hr2] at this
                omega
              have := ih (d :: r2) hlen r false [] (Or.inr ⟨d, r2, rfl, hdn⟩)
              rw [modifyHead_nil_append] at this
              have hu : unquote [] = [] := rfl
              rw [hu] at this
              obtain ⟨h1, h2⟩ := this
              refine ⟨?_, ?_⟩
              · rw [List.take_succ_cons, List.take_succ_cons, h1]
              · rw [List.length_cons, List.length_cons, h2]
                omega
          · have hd : is_delim (c, inq) = false := by
              cases inq with
              | true => simp [is_delim]
              | false =>
                have : ¬ (c = 32 ∨ c = 9) := fun h => hb ⟨h, rfl⟩
                simp [is_delim, is_blank, this]
            simp only [if_neg hq, if_neg hb, quote_flags, List.splitOnP_cons, hd,
              Bool.false_eq_true, if_false]
            rw [modifyHead_append_cons, ← unquote_append_char pp c inq hq]
            exact ih rest hn2 (r + 1) inq (pp ++ [(c, inq)]) (Or.inl (by simp))

theorem takeWhile_dropWhile_comm (p q : Nat → Bool) (hqp : ∀ x, q x = true → p x = true) :
    ∀ l : List Nat, (l.dropWhile q).takeWhile p = (l.takeWhile p).dropWhile q
  | [] => rfl
  | a :: l => by
    by_cases hq : q a = true
    · have hp := hqp a hq
      rw [List.dropWhile_cons_of_pos hq, List.takeWhile_cons_of_pos hp,
        List.dropWhile_cons_of_pos hq]
      exact takeWhile_dropWhile_comm p q hqp l
    · rw [List.dropWhile_cons_of_neg hq]
      by_cases hp : p a = true
      · rw [List.takeWhile_cons_of_pos hp, List.dropWhile_cons_of_neg hq]
      · rw [List.takeWhile_cons_of_neg hp]
        rfl

/-- The list view of the tokenizer against the tokens of the claim: the first
`argv_len - 2` tokens are those of the claim, and the tokenizer makes all
tokens or `argv_len - 1` of them. -/
theorem tokens_view_spec (argv_len : Nat) (s : List Nat) (h : 1 < argv_len) :
    (tokens_view argv_len s).take (argv_len - 2) = (spec_tokens (cstr s 0)).take (argv_len - 2) ∧
    (tokens_view argv_len s).length = min (spec_tokens (cstr s 0)).length (argv_len - 1) := by
  have hcomm : (s.dropWhile is_blank).takeWhile (fun c => decide (c ≠ 0))
      = (cstr s 0).dropWhile is_blank := by
    unfold cstr
    rw [List.drop_zero]
    apply takeWhile_dropWhile_comm
    intro x hx
    simp only [is_blank, decide_eq_true_eq] at hx
    rcases hx with h1 | h1 <;> simp [h1]
  unfold tokens_view
  rw [hcomm]
  unfold spec_tokens
  rw [pieces_tokens_dropWhile]
  cases hr : (cstr s 0).dropWhile is_blank with
  | nil => simp [quote_flags, pieces_tokens]
  | cons d r =>
    rw [if_neg (List.cons_ne_nil _ _)]
    have hdn : is_delim (d, false) = false := by
      have := List.head?_dropWhile_not is_blank (cstr s 0)
      rw [hr] at this
      simp [is_delim] at this ⊢
      exact this
    have := tokens_loop_pieces (d :: r).length (d :: r) (Nat.le_refl _) (argv_len - 2) false []
      (Or.inr ⟨d, r, rfl, hdn⟩)
    rw [modifyHead_nil_append] at this
    have hu : unquote [] = [] := rfl
    rw [hu] at this
    have e : argv_len - 2 + 1 = argv_len - 1 := by omega
    rw [e] at this
    exact this

theorem take_eq_of_length_le {α : Type} (a b : List α) (n : Nat) (h1 : a.take n = b.take n)
    (h2 : a.length = b.length) (h3 : b.length ≤ n) : a = b := by
  rw [List.take_of_length_le (by omega), List.take_of_length_le h3] at h1
  exact h1

/-! ### The stores into `argv` -/

theorem argv_frame.same (t : tokenizer) : argv_frame t t := ⟨fun _ h => h, fun _ _ => rfl⟩

theorem argv_frame.then {a b c : tokenizer} (h1 : argv_frame a b) (h2 : argv_frame b c) :
    argv_frame a c :=
  ⟨fun i hi => h2.1 i (h1.1 i hi), fun i hi => by
    rw [h2.2 i hi]
    exact h1.2 i (fun hb => hi (h2.1 i hb))⟩

theorem argv_frame_store_arg (t : tokenizer) : argv_frame t t.store_arg := by
  refine ⟨fun i hi => List.mem_append_left _ hi, fun i hi => ?_⟩
  have hne : i ≠ t.argc := fun h => hi (by simp [tokenizer.store_arg, h])
  simp [tokenizer.store_arg, Function.update_noteq hne]

theorem argv_frame_store_null (t : tokenizer) : argv_frame t t.store_null := by
  refine ⟨fun i hi => List.mem_append_left _ hi, fun i hi => ?_⟩
  have hne : i ≠ t.argc := fun h => hi (by simp [tokenizer.store_null, h])
  simp [tokenizer.store_null, Function.update_noteq hne]

theorem argv_frame_body {t t1 : tokenizer} (h : tokenize_body t = some t1) : argv_frame t t1 := by
  unfold tokenize_body at h
  by_cases h1 : peek t.buf t.s = 34
  · rw [if_pos h1] at h
    cases h
    exact ⟨fun _ hi => hi, fun _ _ => rfl⟩
  · rw [if_neg h1] at h
    by_cases h2 : (peek t.buf t.s = 32 ∨ peek t.buf t.s = 9) ∧ t.inquote = false
    · rw [if_pos h2] at h
      dsimp only at h
      cases hs : skip_blanks (t.buf.set t.s 0) ((t.buf.set t.s 0).length + 1) (t.s + 1) with
      | none => rw [hs] at h; cases h
      | some p =>
        rw [hs] at h
        dsimp only at h
        by_cases h3 : peek (t.buf.set t.s 0) p ≠ 0
        · rw [if_pos h3] at h
          cases h
          exact argv_frame_store_arg { t with buf := t.buf.set t.s 0, s := p }
        · rw [if_neg h3] at h
          cases h
          exact ⟨fun _ hi => hi, fun _ _ => rfl⟩
    · rw [if_neg h2] at h
      cases h
      exact ⟨fun _ hi => hi, fun _ _ => rfl⟩

theorem argv_frame_loop (argv_len : Nat) :
    ∀ (fuel : Nat) (t t2 : tokenizer), tokenize_loop argv_len fuel t = some t2 → argv_frame t t2
  | 0, _, _, h => by simp [tokenize_loop] at h
  | fuel + 1, t, t2, h => by
    rw [tokenize_loop] at h
    by_cases hc : t.argc + 1 < argv_len ∧ peek t.buf t.s ≠ 0
    · rw [if_pos hc] at h
      cases hb : tokenize_body t with
      | none => rw [hb] at h; cases h
      | some t1 =>
        rw [hb] at h
        exact (argv_frame_body hb).then (argv_frame_loop argv_len fuel t1 t2 h)
    · rw [if_neg hc] at h
      cases h
      exact argv_frame.same _

/-- An entry of `argv` whose index is not in the log of stores keeps its
value through `spawn_tokenize_cmdargs`. -/
theorem argv_frame_tokenize {s : List Nat} {argv : Nat → Option Nat} {argv_len argc : Nat}
    {t : tokenizer} (h : spawn_tokenize_cmdargs s argv argv_len = some (argc, t)) :
    ∀ i, i ∉ t.stores → t.argv i = argv i := by
  unfold spawn_tokenize_cmdargs at h
  dsimp only at h
  by_cases h1 : ¬ 1 < argv_len
  · rw [if_pos h1] at h; cases h
  · rw [if_neg h1] at h
    cases hs : skip_blanks (tokenizer.entry s argv).buf ((tokenizer.entry s argv).buf.length + 1)
        (tokenizer.entry s argv).s with
    | none => rw [hs] at h; cases h
    | some p =>
      rw [hs] at h
      dsimp only at h
      generalize ht0 : (if peek (tokenizer.entry s argv).buf p ≠ 0 then
          tokenizer.store_arg { tokenizer.entry s argv with s := p }
        else { tokenizer.entry s argv with s := p }) = t0 at h
      have hf0 : argv_frame (tokenizer.entry s argv) t0 := by
        rw [← ht0]
        split
        · exact argv_frame_store_arg { tokenizer.entry s argv with s := p }
        · exact ⟨fun _ hi => hi, fun _ _ => rfl⟩
      cases hl : tokenize_loop argv_len (t0.buf.length + 1) t0 with
      | none => rw [hl] at h; cases h
      | some t2 =>
        rw [hl] at h
        cases h
        exact ((hf0.then (argv_frame_loop argv_len _ t0 t2 hl)).then
          (argv_frame_store_null t2)).2

/-! ### Claims C11 and C12 -/

/-- C11: for every buffer `s` holding a NUL-terminated string and every
`argv_len > 1`, `spawn_tokenize_cmdargs(s, argv, argv_len)` returns an `argc`
with `argc ≤ argv_len - 1`, leaves `argv[argc] = NULL`, leaves in every
`argv[i]` with `i < argc` a non-NULL pointer into `s`, and assigns no entry of
`argv` at an index `≥ argv_len` (those entries keep their values). -/
theorem tokenize_argv_bounds (s : List Nat) (argv : Nat → Option Nat) (argv_len : Nat)
    (h : 1 < argv_len) :
    ∃ t, spawn_tokenize_cmdargs s argv argv_len = some (t.argc, t) ∧
      t.argc ≤ argv_len - 1 ∧ t.argv t.argc = none ∧
      (∀ i, i < t.argc → ∃ p, t.argv i = some p ∧ p < s.length) ∧
      (∀ i ∈ t.stores, i < argv_len) ∧ (∀ i, argv_len ≤ i → t.argv i = argv i) := by
  obtain ⟨t, hrun, hnull, hst, hargc, _, hlen, hptr⟩ := spawn_tokenize_cmdargs_spec s argv argv_len h
  have hstores : ∀ i ∈ t.stores, i < argv_len := by
    intro i hi
    rw [hst] at hi
    have := List.mem_range.mp hi
    omega
  refine ⟨t, hrun, by omega, hnull, ?_, hstores, ?_⟩
  · intro i hi
    rw [hlen] at hi
    obtain ⟨p, hp1, hp2, _⟩ := hptr i _ (List.getElem?_eq_getElem hi)
    exact ⟨p, hp1, hp2⟩
  · intro i hi
    apply argv_frame_tokenize hrun
    intro hmem
    have := hstores i hmem
    omega

theorem tokenize_argv_bounds_witness :
    1 < 4 ∧ ∃ t, spawn_tokenize_cmdargs cmdline_example (fun _ => some 7) 4 = some (t.argc, t) ∧
      t.argc ≤ 4 - 1 ∧ t.argv t.argc = none ∧
      (∀ i, i < t.argc → ∃ p, t.argv i = some p ∧ p < cmdline_example.length) ∧
      (∀ i ∈ t.stores, i < 4) ∧ (∀ i, 4 ≤ i → t.argv i = (fun _ => some 7) i) :=
  ⟨by decide, tokenize_argv_bounds cmdline_example (fun _ => some 7) 4 (by decide)⟩

/-- C12 at the input of the claim: for `  foo "bar baz" qux  ` and
`argv_len = 4` there are three tokens, which is `argv_len - 1`, and the code
returns `argc = 3` with the last token `qux  `, blanks included, not `qux`. -/
theorem tokenize_example_keeps_blanks :
    (spec_tokens (cstr cmdline_example 0)).length ≤ 4 - 1 ∧
    spec_tokens (cstr cmdline_example 0) = [bytes "foo", bytes "bar baz", bytes "qux"] ∧
    (spawn_tokenize_cmdargs cmdline_example (fun _ => none) 4).map
        (fun r => (r.1, r.2.tokens))
      = some (3, [bytes "foo", bytes "bar baz", bytes "qux  "]) ∧
    (spawn_tokenize_cmdargs cmdline_example (fun _ => none) 4).map (fun r => r.2.tokens)
      ≠ some (spec_tokens (cstr cmdline_example 0)) := by
  decide

/-- C12 (amended): for every input string and `argv_len > 1`,
`spawn_tokenize_cmdargs` returns `argc = min(number of tokens, argv_len - 1)`;
the first `argv_len - 2` returned strings are the first tokens of the input in
order, and when the input has at most `argv_len - 2` tokens the returned
strings are exactly its tokens.  The tokens are the maximal non-empty pieces
delimited by spaces or tabs outside double quotes, with every double quote
removed. -/
theorem tokenize_tokens (s : List Nat) (argv : Nat → Option Nat) (argv_len : Nat)
    (h : 1 < argv_len) :
    ∃ t, spawn_tokenize_cmdargs s argv argv_len = some (t.argc, t) ∧
      t.argc = min (spec_tokens (cstr s 0)).length (argv_len - 1) ∧
      t.tokens.take (argv_len - 2) = (spec_tokens (cstr s 0)).take (argv_len - 2) ∧
      ((spec_tokens (cstr s 0)).length + 2 ≤ argv_len → t.tokens = spec_tokens (cstr s 0)) := by
  obtain ⟨t, hrun, _, _, hargc, _, hlen, hptr⟩ := spawn_tokenize_cmdargs_spec s argv argv_len h
  obtain ⟨hv1, hv2⟩ := tokens_view_spec argv_len s h
  have htok : t.tokens = tokens_view argv_len s := tokenizer.tokens_eq hlen hptr hargc
  refine ⟨t, hrun, by rw [hlen, hv2], by rw [htok, hv1], fun hfit => ?_⟩
  rw [htok]
  exact take_eq_of_length_le _ _ (argv_len - 2) hv1 (by rw [hv2]; omega) (by omega)

theorem tokenize_tokens_witness :
    1 < 5 ∧ (spec_tokens (cstr cmdline_example 0)).length + 2 ≤ 5 ∧
    (spawn_tokenize_cmdargs cmdline_example (fun _ => none) 5).map
        (fun r => (r.1, r.2.tokens))
      = some (3, [bytes "foo", bytes "bar baz", bytes "qux"]) ∧
    ∃ t, spawn_tokenize_cmdargs cmdline_example (fun _ => none) 5 = some (t.argc, t) ∧
      t.argc = min (spec_tokens (cstr cmdline_example 0)).length (5 - 1) ∧
      t.tokens.take (5 - 2) = (spec_tokens (cstr cmdline_example 0)).take (5 - 2) ∧
      ((spec_tokens (cstr cmdline_example 0)).length + 2 ≤ 5 →
        t.tokens = spec_tokens (cstr cmdline_example 0)) :=
  ⟨by decide, by decide, by decide, tokenize_tokens cmdline_example (fun _ => none) 5 (by decide)⟩

/-! ### The args page (claims C13 and C14) -/

theorem setup_args_frames_example :
    setup_args_frames ok_env example_world
      = some (flow.go (0x40000000, 0) example_args_world) := rfl

/-- C14: given that the frame allocation, the slot allocation, the capability
copy and both mappings succeed, `setup_args(si, argv, argc)` returns, and it
returns `SPAWN_ERR_LOAD` if and only if `argc > MAX_CMDLINE_ARGS`; in that
case no argument string is copied: the memory and the `argv` entries of the
header are as the mappings left them. -/
theorem setup_args_too_many (k : consts) (e : Env) (w w1 : world) (argv : List (List Nat))
    (argc : Int) (me child : Nat)
    (hf : setup_args_frames e w = some (flow.go (me, child) w1)) :
    ∃ r, setup_args k e w argv argc = some r ∧
      (r.1 = Paging.errval_t.SPAWN_ERR_LOAD ↔ (k.MAX_CMDLINE_ARGS : Int) < argc) ∧
      ((k.MAX_CMDLINE_ARGS : Int) < argc →
        r.2.mem = w1.mem ∧ r.2.params_argv = w1.params_argv) := by
  have hrun : setup_args k e w argv argc = some (setup_args_fill k w1 me child argv argc) := by
    unfold setup_args
    rw [hf]
    rfl
  refine ⟨_, hrun, ?_, ?_⟩
  · unfold setup_args_fill
    by_cases h : argc ≤ (k.MAX_CMDLINE_ARGS : Int)
    · simp only [not_not.mpr h, if_false]
      constructor
      · intro hx
        cases hx
      · intro hx
        omega
    · simp only [h, not_false_eq_true, if_true, true_iff]
      omega
  · intro h
    have h2 : ¬ argc ≤ (k.MAX_CMDLINE_ARGS : Int) := by omega
    unfold setup_args_fill
    simp only [h2, not_false_eq_true, if_true]
    constructor <;> first | rfl | trivial

theorem setup_args_too_many_witness :
    setup_args_frames ok_env example_world
      = some (flow.go (0x40000000, 0) example_args_world) ∧
    ∃ r, setup_args example_consts ok_env example_world (List.replicate 129 (bytes "x")) 129
        = some r ∧
      (r.1 = Paging.errval_t.SPAWN_ERR_LOAD ↔ (example_consts.MAX_CMDLINE_ARGS : Int) < 129) ∧
      ((example_consts.MAX_CMDLINE_ARGS : Int) < 129 →
        r.2.mem = example_args_world.mem ∧ r.2.params_argv = example_args_world.params_argv) :=
  ⟨rfl, setup_args_too_many example_consts ok_env example_world example_args_world
    (List.replicate 129 (bytes "x")) 129 0x40000000 0 rfl⟩

/-! ### The order of a spawn (claim C15) -/

/-- C15 at a failing run: every external call succeeds except the first
`cap_copy`, the copy of the child's L1 CNode capability into its task CNode in
`setup_cspace`.  `setup_cspace` returns early, `spawn_load_by_name` goes on,
calls `invoke_dispatcher` and returns `SYS_ERR_OK`. -/
theorem spawn_invokes_after_failed_copy :
    copy_fails_env.ret
        [SCall.multiboot_find_module (bytes "hello"), SCall.frame_identify ⟨9, 3⟩,
         SCall.cnode_create_l1,
         SCall.cnode_create_foreign_l2 ⟨7, 102⟩ 0, SCall.cnode_create_foreign_l2 ⟨7, 102⟩ 1,
         SCall.cnode_create_foreign_l2 ⟨7, 102⟩ 2, SCall.cnode_create_foreign_l2 ⟨7, 102⟩ 3,
         SCall.cnode_create_foreign_l2 ⟨7, 102⟩ 4, SCall.cnode_create_foreign_l2 ⟨7, 102⟩ 5,
         SCall.dispatcher_create ⟨203, 1⟩]
        (SCall.cap_copy ⟨203, 2⟩ ⟨7, 102⟩) = Paging.errval_t.KERNEL_ERR 1 ∧
    (spawn_load_by_name example_consts copy_fails_env example_world (bytes "hello")).map
        (fun r => (r.1, r.2.trace))
      = some (Paging.errval_t.SYS_ERR_OK,
        [SCall.multiboot_find_module (bytes "hello"), SCall.frame_identify ⟨9, 3⟩,
         SCall.cnode_create_l1,
         SCall.cnode_create_foreign_l2 ⟨7, 102⟩ 0, SCall.cnode_create_foreign_l2 ⟨7, 102⟩ 1,
         SCall.cnode_create_foreign_l2 ⟨7, 102⟩ 2, SCall.cnode_create_foreign_l2 ⟨7, 102⟩ 3,
         SCall.cnode_create_foreign_l2 ⟨7, 102⟩ 4, SCall.cnode_create_foreign_l2 ⟨7, 102⟩ 5,
         SCall.dispatcher_create ⟨203, 1⟩,
         SCall.cap_copy ⟨203, 2⟩ ⟨7, 102⟩,
         SCall.single_slot_alloc_init_raw ⟨202, 1⟩ 204 256,
         SCall.vnode_create 41820 Paging.objtype.ObjType_VNode_ARM_l1,
         SCall.elf_load, SCall.slot_alloc, SCall.frame_alloc 4096, SCall.child_slot_alloc,
         SCall.cap_copy ⟨7, 116⟩ ⟨7, 115⟩,
         SCall.frame_alloc 131072, SCall.slot_alloc, SCall.cap_copy ⟨7, 119⟩ ⟨7, 118⟩,
         SCall.frame_alloc 4096, SCall.slot_alloc, SCall.cap_copy ⟨7, 122⟩ ⟨7, 121⟩,
         SCall.invoke_dispatcher ⟨203, 1⟩ ⟨8, 1⟩ ⟨7, 102⟩ 41820 ⟨7, 118⟩ true]) :=
  ⟨by decide, by decide!⟩

/-! ### The bytes written by `setup_args` (claim C21) -/

/-- C21: `setup_args` writes outside the args frame.  In the example world,
where `frame_alloc` returns a frame of `BASE_PAGE_SIZE` bytes that is mapped at
`0x40000000`, the call with `argc = 1 ≤ MAX_CMDLINE_ARGS` and one argument of
4096 bytes returns `SYS_ERR_OK`; the final offset is 5161, which is not less
than the size of the frame; the byte at offset 4096, just after the frame, was
overwritten with a byte of the argument, and the trailing NUL was written at
offset 5161, an address that lies in a free region of the paging state. -/
theorem setup_args_writes_past_frame :
    (1 : Int) ≤ (example_consts.MAX_CMDLINE_ARGS : Int) ∧
    (world.frame_alloc ok_env example_world Paging.BASE_PAGE_SIZE).2.2.1
      = Paging.BASE_PAGE_SIZE ∧
    setup_args_frames ok_env example_world
      = some (flow.go (0x40000000, 0) example_args_world) ∧
    arg_offset example_consts [long_arg] 1 = 5161 ∧
    ¬ arg_offset example_consts [long_arg] 1 < Paging.BASE_PAGE_SIZE ∧
    example_args_world.mem (0x40000000 + 4096) = 170 ∧
    example_args_world.mem (0x40000000 + 5161) = 170 ∧
    (setup_args example_consts ok_env example_world [long_arg] 1).map (fun r =>
        (r.1, r.2.mem (0x40000000 + 4096), r.2.mem (0x40000000 + 5161),
          Paging.type_at (Paging.regions r.2.current) (0x40000000 + 5161)))
      = some (Paging.errval_t.SYS_ERR_OK, 97, 0,
          some Paging.paging_node_type.NodeType_Free) :=
  ⟨by decide, by decide!, rfl, by decide!, by decide!, by decide!, by decide!,
    by decide!⟩

end Spawn
